import Mathlib

/-!
# hackweekmgr: a statically-backed free-list allocator

Shallow embedding of `src/hackweekmgr.c` (Eli Bendersky's `memmgr`, as adapted
in libjpeg-turbo) and a verification development over it.

Memory is a flat map from byte addresses to 64-bit words.  A block header at
address `p` keeps `s.next` in the word at `p` and `s.size` in the word at
`p + 8`; payload words live in the very same map, so that header writes and
payload contents can interfere if the allocator gets its bookkeeping wrong.
`size_t` and pointer arithmetic are taken modulo `2 ^ 64`.  The two loops of
the source carry a fuel counter; a C call returns a result when some amount
of fuel produces it.
-/

namespace Hackweekmgr

/-! ## Constants of the source -/

/-- Modulus of `size_t` and of pointer arithmetic on the 64-bit target. -/
def SIZE_MOD : Nat := 2 ^ 64

/-- Reduction of an arithmetic result to `size_t`. -/
def wrap (x : Nat) : Nat := x % SIZE_MOD

/-- Value of `sizeof(mem_header_t)`: the union is padded to `struct Align`. -/
def QUANTUM : Nat := 32

/-- The macro `POOL_SIZE` of hackweekmgr.c. -/
def POOL_SIZE : Nat := 1024 * 1024 * 1024

/-- The macro `MIN_POOL_ALLOC_QUANTAS` of hackweekmgr.h. -/
def MIN_POOL_ALLOC_QUANTAS : Nat := 16

/-! ## Data model -/

/-- Addresses the linker gives to the two static objects of the source:
`aligned_pool` (through the pointer `pool`) and the sentinel `base`. -/
structure Layout where
  pool : Nat
  base : Nat
deriving DecidableEq, Repr

/-- The mutable statics of the source together with the memory they talk about. -/
structure State where
  freep : Nat
  pool_free_pos : Nat
  mem : Nat → Nat

/-- Ways in which a run of the model can fail to return. -/
inductive Fault where
  | nullDeref
  | outOfFuel
  | aborted
deriving DecidableEq, Repr

/-- Memory after one word has been written. -/
def store (m : Nat → Nat) (a v : Nat) : Nat → Nat :=
  fun x => if x = a then v else m x

/-- Address of the field `s.next` of the header at `p`. -/
def nextAddr (p : Nat) : Nat := p

/-- Address of the field `s.size` of the header at `p`. -/
def sizeAddr (p : Nat) : Nat := p + 8

/-- Pointer arithmetic `p + k` on `mem_header_t*`. -/
def hdrAdd (p k : Nat) : Nat := wrap (p + k * QUANTUM)

/-- Pointer arithmetic `p - 1` on `mem_header_t*`. -/
def hdrPred (p : Nat) : Nat := wrap (SIZE_MOD + p - QUANTUM)

/-! ## The operations of the source -/

/-- The function `hackweekmgr_init`. -/
def hackweekmgr_init (L : Layout) (s : State) : State :=
  { freep := 0
    pool_free_pos := 0
    mem := store (store s.mem (nextAddr L.base) 0) (sizeAddr L.base) 0 }

/-- The insertion-point walk of `hackweekmgr_free` (the `for` loop). -/
def findInsert (m : Nat → Nat) (block : Nat) : Nat → Nat → Except Fault Nat
  | 0, _ => .error .outOfFuel
  | fuel + 1, p =>
    if p = 0 then .error .nullDeref
    else if block > p ∧ block < m (nextAddr p) then .ok p
    else if p ≥ m (nextAddr p) ∧ (block > p ∨ block < m (nextAddr p)) then .ok p
    else findInsert m block fuel (m (nextAddr p))

/-- The statement "try to combine with the higher neighbor" of `hackweekmgr_free`. -/
def joinUpper (m : Nat → Nat) (block p : Nat) : Nat → Nat :=
  if hdrAdd block (m (sizeAddr block)) = m (nextAddr p) then
    let m1 := store m (sizeAddr block)
      (wrap (m (sizeAddr block) + m (sizeAddr (m (nextAddr p)))))
    store m1 (nextAddr block) (m1 (nextAddr (m1 (nextAddr p))))
  else
    store m (nextAddr block) (m (nextAddr p))

/-- The statement "try to combine with the lower neighbor" of `hackweekmgr_free`. -/
def joinLower (m : Nat → Nat) (block p : Nat) : Nat → Nat :=
  if hdrAdd p (m (sizeAddr p)) = block then
    let m1 := store m (sizeAddr p) (wrap (m (sizeAddr p) + m (sizeAddr block)))
    store m1 (nextAddr p) (m1 (nextAddr block))
  else
    store m (nextAddr p) block

/-- The function `hackweekmgr_free`. -/
def hackweekmgr_free (L : Layout) (fuel : Nat) (s : State) (ap : Nat) : Except Fault State :=
  let start_arena := L.pool
  let end_arena := wrap (POOL_SIZE + L.pool)
  if ¬ (ap < end_arena ∧ ap > start_arena) then .ok s
  else if ap = 0 then .ok s
  else
    let block := hdrPred ap
    match findInsert s.mem block fuel s.freep with
    | .error e => .error e
    | .ok p =>
      if hdrAdd block (s.mem (sizeAddr block)) = s.mem (nextAddr p) ∧ s.mem (nextAddr p) = 0 then
        .error .nullDeref
      else
        .ok { s with mem := joinLower (joinUpper s.mem block p) block p, freep := p }

/-- The state of `get_mem_from_pool` after `h->s.size = nquantas`, where `h`
is the header at the cursor of the pool. -/
def stampedState (L : Layout) (s : State) (n : Nat) : State :=
  { s with mem := store s.mem (sizeAddr (wrap (L.pool + s.pool_free_pos))) n }

/-- The quanta `get_mem_from_pool` claims for a request of `nquantas`: the
statement `if (nquantas < MIN_POOL_ALLOC_QUANTAS) nquantas = MIN_POOL_ALLOC_QUANTAS;`. -/
def claimQuanta (nquantas : Nat) : Nat :=
  if nquantas < MIN_POOL_ALLOC_QUANTAS then MIN_POOL_ALLOC_QUANTAS else nquantas

/-- The function `get_mem_from_pool`; the result pairs the returned pointer
with the new state.  The locals `nquantas`, `total_req_size` and `h` of the
source are written out where they are used. -/
def get_mem_from_pool (L : Layout) (fuel : Nat) (s : State) (nquantas : Nat) :
    Except Fault (Nat × State) :=
  if wrap (s.pool_free_pos + wrap (claimQuanta nquantas * QUANTUM)) ≤ POOL_SIZE then
    match hackweekmgr_free L fuel (stampedState L s (claimQuanta nquantas))
        (hdrAdd (wrap (L.pool + s.pool_free_pos)) 1) with
    | .error e => .error e
    | .ok s2 =>
      .ok (s2.freep,
        { s2 with pool_free_pos := wrap (s2.pool_free_pos + wrap (claimQuanta nquantas * QUANTUM)) })
  else
    .ok (0, s)

/-- The `for` loop of `hackweekmgr_alloc`, entered with `prevp` and `p`. -/
def allocLoop (L : Layout) (ffuel nquantas : Nat) :
    Nat → State → Nat → Nat → Except Fault (Nat × State)
  | 0, _, _, _ => .error .outOfFuel
  | fuel + 1, s, prevp, p =>
    if p = 0 then .error .nullDeref
    else if s.mem (sizeAddr p) ≥ nquantas then
      if s.mem (sizeAddr p) = nquantas then
        .ok (hdrAdd p 1,
          { s with mem := store s.mem (nextAddr prevp) (s.mem (nextAddr p)), freep := prevp })
      else
        let m1 := store s.mem (sizeAddr p) (wrap (SIZE_MOD + s.mem (sizeAddr p) - nquantas))
        let q := hdrAdd p (m1 (sizeAddr p))
        .ok (hdrAdd q 1, { s with mem := store m1 (sizeAddr q) nquantas, freep := prevp })
    else if p = s.freep then
      match get_mem_from_pool L ffuel s nquantas with
      | .error e => .error e
      | .ok (p1, s1) =>
        if p1 = 0 then .ok (0, s1)
        else allocLoop L ffuel nquantas fuel s1 p1 (s1.mem (nextAddr p1))
    else allocLoop L ffuel nquantas fuel s p (s.mem (nextAddr p))

/-- The quanta computation at the head of `hackweekmgr_alloc`. -/
def nquantasOf (nbytes : Nat) : Nat :=
  wrap (wrap (SIZE_MOD + wrap (nbytes + QUANTUM) - 1) / QUANTUM + 1)

/-- The body of `hackweekmgr_alloc` after `nquantas` has been computed. -/
def allocQuanta (L : Layout) (fuel : Nat) (s : State) (nquantas : Nat) :
    Except Fault (Nat × State) :=
  if s.freep = 0 then
    let s0 := hackweekmgr_init L s
    let s1 : State :=
      { s0 with mem := store (store s0.mem (nextAddr L.base) L.base) (sizeAddr L.base) 0
                freep := L.base }
    allocLoop L fuel nquantas fuel s1 L.base (s1.mem (nextAddr L.base))
  else
    allocLoop L fuel nquantas fuel s s.freep (s.mem (nextAddr s.freep))

/-- The function `hackweekmgr_alloc`. -/
def hackweekmgr_alloc (L : Layout) (fuel : Nat) (s : State) (nbytes : Nat) :
    Except Fault (Nat × State) :=
  allocQuanta L fuel s (nquantasOf nbytes)

/-! ## Observations on results -/

/-- The pointer a call returned, if it returned. -/
def retPtr : Except Fault (Nat × State) → Option Nat
  | .ok (r, _) => some r
  | .error _ => none

/-- The state a call left behind (the given state if it did not return). -/
def retState (d : State) : Except Fault (Nat × State) → State
  | .ok (_, s) => s
  | .error _ => d

/-- The state `hackweekmgr_free` left behind (the given state if it did not return). -/
def freeState (d : State) : Except Fault State → State
  | .ok s => s
  | .error _ => d

/-- A memory whose every word is zero, as the statics are at program start. -/
def zeroMem : Nat → Nat := fun _ => 0

/-- The statics at program start. -/
def bootState : State := { freep := 0, pool_free_pos := 0, mem := zeroMem }

/-- A layout with the sentinel below the pool. -/
def layoutLow : Layout := { pool := 0x100000000, base := 0x1000 }

/-- A layout with the sentinel above the pool. -/
def layoutHigh : Layout := { pool := 0x100000000, base := 0x200000000 }

/-! ## Well-formedness -/

/-- What the embedding assumes of the linker: both statics lie inside the
64-bit address space, are not at address zero, and the sentinel `base` is an
object of its own that neither overlaps the pool nor starts exactly where the
pool ends. -/
def Layout.ok (L : Layout) : Prop :=
  0 < L.pool ∧ L.pool + POOL_SIZE < SIZE_MOD ∧
  0 < L.base ∧ L.base + QUANTUM ≤ SIZE_MOD ∧
  (L.base + QUANTUM ≤ L.pool ∨ L.pool + POOL_SIZE < L.base)

instance (L : Layout) : Decidable L.ok := by
  unfold Layout.ok; infer_instance

/-- The field `s.size` of the header at `h`. -/
def szOf (s : State) (h : Nat) : Nat := s.mem (sizeAddr h)

/-- The field `s.next` of the header at `h`. -/
def nxOf (s : State) (h : Nat) : Nat := s.mem (nextAddr h)

/-- In the set `F`, `n` is the cyclic successor of `a` by address: the next
larger member, or the smallest member when `a` is the largest (the seam). -/
def CycSucc (F : Finset Nat) (a n : Nat) : Prop :=
  n ∈ F ∧ ((a < n ∧ ∀ c ∈ F, ¬ (a < c ∧ c < n)) ∨ (n ≤ a ∧ ∀ c ∈ F, n ≤ c ∧ c ≤ a))

/-- The members of `F` are linked by `nx` into one ring sorted by address. -/
def Ring (F : Finset Nat) (nx : Nat → Nat) : Prop := ∀ a ∈ F, CycSucc F a (nx a)

/-- The exit condition of the insertion-point walk of `hackweekmgr_free`. -/
def InsCond (nx : Nat → Nat) (b p : Nat) : Prop :=
  (b > p ∧ b < nx p) ∨ (p ≥ nx p ∧ (b > p ∨ b < nx p))

/-- Distance from `a` up to `t` going round the address space. -/
def cdist (a t : Nat) : Nat := if a ≤ t then t - a else t + SIZE_MOD - a

/-- The members of the ring strictly nearer to `t` than `p` is. -/
def nearer (F : Finset Nat) (t p : Nat) : Finset Nat := F.filter (fun c => cdist c t < cdist p t)

/-- The blocks with headers in `H` and sizes `sz` lie in `[lo, hi)`, on the
quantum grid from `lo`, are non-empty and do not overlap. -/
def Tiling (H : Nat → Prop) (sz : Nat → Nat) (lo hi : Nat) : Prop :=
  (∀ h, H h → lo ≤ h ∧ (h - lo) % QUANTUM = 0 ∧ 1 ≤ sz h ∧ h + QUANTUM * sz h ≤ hi) ∧
  (∀ h1 h2, H h1 → H h2 → h1 < h2 → h1 + QUANTUM * sz h1 ≤ h2)

/-- The headers of the blocks of the pool: the free-list members other than
the sentinel, and the allocated blocks. -/
def Hdr (L : Layout) (F A : Finset Nat) (h : Nat) : Prop :=
  (h ∈ F ∧ h ≠ L.base) ∨ h ∈ A

/-- The shape of the heap below the cursor `top`: `F` is the set of free-list
members (sentinel included), `A` the set of headers of the allocated blocks,
`nx` and `sz` read the header fields. -/
structure Shape (L : Layout) (top : Nat) (F A : Finset Nat) (nx sz : Nat → Nat) : Prop where
  base_mem : L.base ∈ F
  base_size : sz L.base = 0
  disj : ∀ h ∈ A, h ∉ F
  tiling : Tiling (Hdr L F A) sz L.pool (L.pool + top)
  ring : Ring F nx

/-- Well-formed allocator state: the free list is set up, and `F` and `A`
describe the heap. -/
structure WF (L : Layout) (s : State) (F A : Finset Nat) : Prop where
  layout : L.ok
  pfp_le : s.pool_free_pos ≤ POOL_SIZE
  pfp_al : s.pool_free_pos % QUANTUM = 0
  freep_mem : s.freep ∈ F
  shape : Shape L s.pool_free_pos F A (nxOf s) (szOf s)

/-- The state `hackweekmgr_free` leaves once the insertion point `p` is known. -/
def freedState (s : State) (b p : Nat) : State :=
  { s with mem := joinLower (joinUpper s.mem b p) b p, freep := p }

/-- The free-list members after `hackweekmgr_free` has released the block `b`
with the insertion point `p`. -/
def freeSet (s : State) (F : Finset Nat) (b p : Nat) : Finset Nat :=
  if p + QUANTUM * szOf s p = b then
    (if b + QUANTUM * szOf s b = nxOf s p then F.erase (nxOf s p) else F)
  else
    (if b + QUANTUM * szOf s b = nxOf s p then insert b (F.erase (nxOf s p)) else insert b F)

/-- What the `for` loop of `hackweekmgr_alloc` returns when the block `q`,
reached from its list predecessor `pq`, has exactly the size asked for. -/
def takeExact (s : State) (pq q : Nat) : Nat × State :=
  (hdrAdd q 1, { s with mem := store s.mem (nextAddr pq) (s.mem (nextAddr q)), freep := pq })

/-- What the `for` loop of `hackweekmgr_alloc` returns when the block `q`,
reached from its list predecessor `pq`, is bigger than asked for. -/
def takeSplit (s : State) (nquantas pq q : Nat) : Nat × State :=
  let m1 := store s.mem (sizeAddr q) (wrap (SIZE_MOD + s.mem (sizeAddr q) - nquantas))
  let t := hdrAdd q (m1 (sizeAddr q))
  (hdrAdd t 1, { s with mem := store m1 (sizeAddr t) nquantas, freep := pq })

/-- What the `for` loop of `hackweekmgr_alloc` returns on the fitting block `q`. -/
def allocResult (s : State) (nquantas pq q : Nat) : Nat × State :=
  if s.mem (sizeAddr q) = nquantas then takeExact s pq q else takeSplit s nquantas pq q

/-- The branch `p == freep` of the `for` loop of `hackweekmgr_alloc`. -/
def claimStep (L : Layout) (ffuel nquantas fuel : Nat) (s : State) : Except Fault (Nat × State) :=
  match get_mem_from_pool L ffuel s nquantas with
  | .error e => .error e
  | .ok (p1, s1) =>
    if p1 = 0 then .ok (0, s1)
    else allocLoop L ffuel nquantas fuel s1 p1 (s1.mem (nextAddr p1))

/-- The word at `x` belongs to a block that is currently allocated. -/
def Owned (s : State) (A : Finset Nat) (x : Nat) : Prop :=
  ∃ l ∈ A, l ≤ x ∧ x < l + QUANTUM * szOf s l

/-- The state `get_mem_from_pool` leaves after a claim of `n` quanta whose
release found the insertion point `p`. -/
def claimedState (L : Layout) (s : State) (n p : Nat) : State :=
  { freedState (stampedState L s n) (L.pool + s.pool_free_pos) p with
    pool_free_pos := s.pool_free_pos + QUANTUM * n }

/-- The state `hackweekmgr_alloc` sets up on first use. -/
def firstState (L : Layout) (s : State) : State :=
  { (hackweekmgr_init L s) with
    mem := store (store (hackweekmgr_init L s).mem (nextAddr L.base) L.base) (sizeAddr L.base) 0
    freep := L.base }

/-- A call of `hackweekmgr_alloc` for `nquantas` quanta handed out the
reference `r` and left the state `s'`: `r` is one quantum past a fresh header
of that size, the state is well formed with that block allocated, and no word
of the blocks allocated before has changed. -/
def AllocOk (L : Layout) (s : State) (A : Finset Nat) (nquantas r : Nat) (s' : State) : Prop :=
  ∃ h F', r = h + QUANTUM ∧ h ∉ A ∧ szOf s' h = nquantas ∧ WF L s' F' (insert h A) ∧
    (∀ x, Owned s A x → s'.mem x = s.mem x) ∧ (∀ l ∈ A, szOf s' l = szOf s l)

/-- The three outcomes of the `for` loop of `hackweekmgr_alloc` entered at
`freep` in a well-formed state: a free block fits and the first fitting block
in ring order is handed out; no free block fits and a fresh block is claimed
from the pool; or neither, and the call returns null with the state untouched. -/
def AllocPost (L : Layout) (s : State) (F A : Finset Nat) (nquantas r : Nat) (s' : State) : Prop :=
  ((∃ f ∈ F, nquantas ≤ szOf s f) ∧ s'.pool_free_pos = s.pool_free_pos ∧
      AllocOk L s A nquantas r s' ∧
      ∃ pq q, pq ∈ F ∧ q ∈ F ∧ nxOf s pq = q ∧ nquantas ≤ szOf s q ∧
        (∀ c ∈ F, cdist (nxOf s s.freep) c < cdist (nxOf s s.freep) q → szOf s c < nquantas) ∧
        (r, s') = allocResult s nquantas pq q) ∨
  ((∀ f ∈ F, szOf s f < nquantas) ∧
      s.pool_free_pos + QUANTUM * claimQuanta nquantas ≤ POOL_SIZE ∧
      s'.pool_free_pos = s.pool_free_pos + QUANTUM * claimQuanta nquantas ∧
      AllocOk L s A nquantas r s') ∨
  ((∀ f ∈ F, szOf s f < nquantas) ∧
      ¬ s.pool_free_pos + QUANTUM * claimQuanta nquantas ≤ POOL_SIZE ∧ r = 0 ∧ s' = s)

/-! ## Calls, histories and the properties claimed of them -/

/-- The call `hackweekmgr_alloc(nbytes)` made in state `s` returns `r` and
leaves the state `s'`. -/
def AllocRet (L : Layout) (s : State) (nbytes r : Nat) (s' : State) : Prop :=
  ∃ fuel, hackweekmgr_alloc L fuel s nbytes = .ok (r, s')

/-- The call `hackweekmgr_free(ap)` made in state `s` returns and leaves the
state `s'`. -/
def FreeRet (L : Layout) (s : State) (ap : Nat) (s' : State) : Prop :=
  ∃ fuel, hackweekmgr_free L fuel s ap = .ok s'

/-- The state in which the search loop of `hackweekmgr_alloc` starts: the
state of the call, or the freshly set up one on first use. -/
def readyState (L : Layout) (s : State) : State :=
  if s.freep = 0 then firstState L s else s

/-- The headers allocated after a call of `hackweekmgr_alloc` that returned `r`. -/
def afterAlloc (A : Finset Nat) (r : Nat) : Finset Nat :=
  if r = 0 then A else insert (r - QUANTUM) A

/-- States reached from `hackweekmgr_init` by calls of `hackweekmgr_alloc`
for at most `POOL_SIZE` bytes and calls of `hackweekmgr_free` on references
that are currently allocated; the set lists the headers of the allocated blocks. -/
inductive Reach (L : Layout) : State → Finset Nat → Prop
  | init (s0 : State) : Reach L (hackweekmgr_init L s0) ∅
  | alloc {s : State} {A : Finset Nat} {nbytes r : Nat} {s' : State} :
      Reach L s A → nbytes ≤ POOL_SIZE → AllocRet L s nbytes r s' → Reach L s' (afterAlloc A r)
  | free {s : State} {A : Finset Nat} {h : Nat} {s' : State} :
      Reach L s A → h ∈ A → FreeRet L s (h + QUANTUM) s' → Reach L s' (A.erase h)

/-- The list reachable from `freep` is a ring that contains the size-0
sentinel and ascends by address along `next` except at exactly one seam. -/
def FreeListOK (L : Layout) (s : State) : Prop :=
  ∃ F : Finset Nat, s.freep ∈ F ∧ L.base ∈ F ∧ szOf s L.base = 0 ∧
    (∀ a ∈ F, nxOf s a ∈ F) ∧
    (∀ a ∈ F, ∃ k, (nxOf s)^[k] s.freep = a) ∧
    (∀ a ∈ F, ∃ k, 0 < k ∧ (nxOf s)^[k] a = a) ∧
    (∃ t ∈ F, nxOf s t ≤ t ∧ ∀ a ∈ F, a ≠ t → a < nxOf s a)

/-- No two members of the free list are physically adjacent. -/
def NoAdj (s : State) (F : Finset Nat) : Prop :=
  ∀ p ∈ F, ∀ q ∈ F, p ≠ q → hdrAdd p (szOf s p) ≠ q

/-- The state is fresh from `hackweekmgr_init` with nothing allocated, or it
is well formed. -/
def Live (L : Layout) (s : State) (A : Finset Nat) : Prop :=
  (s.freep = 0 ∧ s.pool_free_pos = 0 ∧ A = ∅) ∨ ∃ F, WF L s F A

/-- Histories that leave the allocated block with header `l` alone: calls of
`hackweekmgr_alloc` for at most `POOL_SIZE` bytes and calls of
`hackweekmgr_free` on currently allocated references other than that of `l`. -/
inductive Churn (L : Layout) (l : Nat) : State → Finset Nat → State → Finset Nat → Prop
  | refl (s : State) (A : Finset Nat) : Churn L l s A s A
  | alloc {s : State} {A : Finset Nat} {s1 : State} {A1 : Finset Nat} {nbytes r : Nat}
      {s2 : State} : Churn L l s A s1 A1 → nbytes ≤ POOL_SIZE → AllocRet L s1 nbytes r s2 →
      Churn L l s A s2 (afterAlloc A1 r)
  | free {s : State} {A : Finset Nat} {s1 : State} {A1 : Finset Nat} {h : Nat} {s2 : State} :
      Churn L l s A s1 A1 → h ∈ A1 → h ≠ l → FreeRet L s1 (h + QUANTUM) s2 →
      Churn L l s A s2 (A1.erase h)

/-- The state after the caller has written the word `v` at address `x`. -/
def pokeState (s : State) (x v : Nat) : State := { s with mem := store s.mem x v }

/-- A checkable form of well-formedness, with every quantifier bounded by
one of the two finite sets. -/
def WFcheck (L : Layout) (s : State) (F A : Finset Nat) : Prop :=
  L.ok ∧ s.pool_free_pos ≤ POOL_SIZE ∧ s.pool_free_pos % QUANTUM = 0 ∧ s.freep ∈ F ∧
  L.base ∈ F ∧ szOf s L.base = 0 ∧ (∀ h ∈ A, h ∉ F) ∧
  (∀ h ∈ F.erase L.base ∪ A, L.pool ≤ h ∧ (h - L.pool) % QUANTUM = 0 ∧ 1 ≤ szOf s h ∧
    h + QUANTUM * szOf s h ≤ L.pool + s.pool_free_pos) ∧
  (∀ h1 ∈ F.erase L.base ∪ A, ∀ h2 ∈ F.erase L.base ∪ A,
    h1 < h2 → h1 + QUANTUM * szOf s h1 ≤ h2) ∧
  (∀ a ∈ F, nxOf s a ∈ F ∧
    ((a < nxOf s a ∧ ∀ c ∈ F, ¬ (a < c ∧ c < nxOf s a)) ∨
     (nxOf s a ≤ a ∧ ∀ c ∈ F, nxOf s a ≤ c ∧ c ≤ a)))

instance (L : Layout) (s : State) (F A : Finset Nat) : Decidable (WFcheck L s F A) := by
  unfold WFcheck; infer_instance

instance (s : State) (F : Finset Nat) : Decidable (NoAdj s F) := by
  unfold NoAdj; infer_instance

/-- The state after `hackweekmgr_init` and one call `hackweekmgr_alloc(1)`,
with the sentinel below the pool. -/
def demoState : State :=
  retState bootState (hackweekmgr_alloc layoutLow 8 (hackweekmgr_init layoutLow bootState) 1)

/-- The free-list members of `demoState`: the sentinel and the block at the
start of the pool. -/
def demoFree : Finset Nat := {0x1000, 0x100000000}

/-- The allocated headers of `demoState`: the two-quanta block cut off the
tail of the first claim. -/
def demoAlloc : Finset Nat := {0x1000001C0}

/-! ## Helpers for evaluating calls step by step -/

/-- The rest of `hackweekmgr_free` once the insertion-point walk is over. -/
def freeFinish (s : State) (block : Nat) : Except Fault Nat → Except Fault State
  | .error e => .error e
  | .ok p =>
    if hdrAdd block (s.mem (sizeAddr block)) = s.mem (nextAddr p) ∧ s.mem (nextAddr p) = 0 then
      .error .nullDeref
    else .ok (freedState s block p)

/-- The rest of `get_mem_from_pool` once `hackweekmgr_free` is over. -/
def claimFinish (total : Nat) : Except Fault State → Except Fault (Nat × State)
  | .error e => .error e
  | .ok s2 => .ok (s2.freep, { s2 with pool_free_pos := wrap (s2.pool_free_pos + total) })

/-- The rest of the branch `p == freep` of `hackweekmgr_alloc` once
`get_mem_from_pool` is over. -/
def claimCont (L : Layout) (ffuel nquantas fuel : Nat) :
    Except Fault (Nat × State) → Except Fault (Nat × State)
  | .error e => .error e
  | .ok (p1, s1) =>
    if p1 = 0 then .ok (0, s1) else allocLoop L ffuel nquantas fuel s1 p1 (s1.mem (nextAddr p1))

/-- The blocks of `n1` and `n2` quanta whose payloads start at `r1` and `r2`
do not overlap: the payload of one ends before the header of the other starts. -/
def Apart (r1 n1 r2 n2 : Nat) : Prop :=
  r1 + QUANTUM * (n1 - 1) ≤ r2 - QUANTUM ∨ r2 + QUANTUM * (n2 - 1) ≤ r1 - QUANTUM

/-- The block of `n` quanta whose payload starts at `r` lies inside the block
that the header `q` describes in state `s`. -/
def Within (s : State) (q r n : Nat) : Prop :=
  q ≤ r - QUANTUM ∧ r - QUANTUM + QUANTUM * n ≤ q + QUANTUM * szOf s q

instance (s : State) (q r n : Nat) : Decidable (Within s q r n) := by
  unfold Within; infer_instance

/-- What the coalescing scenario leaves behind: the references of A, B and C,
the state before the last call, the reference it returns and the state after it. -/
structure Outcome where
  a : Nat
  b : Nat
  c : Nat
  before : State
  d : Nat
  after : State

/-- The coalescing scenario in quanta: from the initialised state three
allocations of `n` quanta, the release of the second and then of the first,
and an allocation of `k` quanta. -/
def scenario (L : Layout) (fuel : Nat) (s : State) (n k : Nat) : Option Outcome :=
  match allocQuanta L fuel (hackweekmgr_init L s) n with
  | .error _ => none
  | .ok (ra, sa) =>
    match allocQuanta L fuel sa n with
    | .error _ => none
    | .ok (rb, sb) =>
      match allocQuanta L fuel sb n with
      | .error _ => none
      | .ok (rc, sc) =>
        match hackweekmgr_free L fuel sc rb with
        | .error _ => none
        | .ok s4 =>
          match hackweekmgr_free L fuel s4 ra with
          | .error _ => none
          | .ok s5 =>
            match allocQuanta L fuel s5 k with
            | .error _ => none
            | .ok (rd, sd) =>
              some { a := ra, b := rb, c := rc, before := s5, d := rd, after := sd }

/-- The coalescing scenario: from the initialised state three calls
`hackweekmgr_alloc(nbytes)` for A, B and C, then `hackweekmgr_free(B)`,
`hackweekmgr_free(A)` and a call `hackweekmgr_alloc(2 * nbytes)`. -/
def coalesce (L : Layout) (fuel : Nat) (s : State) (nbytes : Nat) : Option Outcome :=
  match hackweekmgr_alloc L fuel (hackweekmgr_init L s) nbytes with
  | .error _ => none
  | .ok (ra, sa) =>
    match hackweekmgr_alloc L fuel sa nbytes with
    | .error _ => none
    | .ok (rb, sb) =>
      match hackweekmgr_alloc L fuel sb nbytes with
      | .error _ => none
      | .ok (rc, sc) =>
        match hackweekmgr_free L fuel sc rb with
        | .error _ => none
        | .ok s4 =>
          match hackweekmgr_free L fuel s4 ra with
          | .error _ => none
          | .ok s5 =>
            match hackweekmgr_alloc L fuel s5 (2 * nbytes) with
            | .error _ => none
            | .ok (rd, sd) =>
              some { a := ra, b := rb, c := rc, before := s5, d := rd, after := sd }

/-- The last call of the scenario was served from the free list clear of C:
it returned a reference, left the cursor of the pool alone, and its block of
`k` quanta does not overlap the block of C. -/
def Served (n k : Nat) (o : Outcome) : Prop :=
  o.d ≠ 0 ∧ o.after.pool_free_pos = o.before.pool_free_pos ∧ Apart o.d k o.c n

/-- Before the last call of the scenario the block at the header `q` holds
the former blocks of A and B and the block the call returns. -/
def Holds (n k : Nat) (o : Outcome) (q : Nat) : Prop :=
  Within o.before q o.a n ∧ Within o.before q o.b n ∧ Within o.before q o.d k

/-- The last call of the scenario reused the merged block: the free block at
`freep` or the one right after it, where the release of A left it, holds the
former blocks of A and B and the block the call returns. -/
def Reused (n k : Nat) (o : Outcome) : Prop :=
  Holds n k o o.before.freep ∨ Holds n k o (nxOf o.before o.before.freep)

instance (n k : Nat) (o : Outcome) : Decidable (Reused n k o) := by
  unfold Reused Holds; infer_instance

/-- The last call of the scenario was served below C: its block of `k` quanta
ends where the block of C starts or before, and the blocks of B and A lie
above C. -/
def Spare (k : Nat) (o : Outcome) : Prop :=
  o.d + QUANTUM * (k - 1) ≤ o.c - QUANTUM ∧ o.c < o.b ∧ o.b < o.a

instance (k : Nat) (o : Outcome) : Decidable (Spare k o) := by
  unfold Spare; infer_instance

/-- The state after `hackweekmgr_init` and one call
`hackweekmgr_alloc(POOL_SIZE - 96)`, which leaves two quanta of the pool
unclaimed. -/
def fullState : State :=
  retState bootState
    (hackweekmgr_alloc layoutLow 8 (hackweekmgr_init layoutLow bootState) 1073741728)

/-- The free-list members of `fullState`: the sentinel alone. -/
def fullFree : Finset Nat := {0x1000}

/-- The allocated headers of `fullState`: the block at the start of the pool. -/
def fullAlloc : Finset Nat := {0x100000000}

/-- The state after `hackweekmgr_init`, a call `hackweekmgr_alloc(POOL_SIZE - 32)`
that claims the whole pool, the release of its block and a call
`hackweekmgr_alloc(0)`, which cuts the last quantum off that block. -/
def edgeState : State :=
  retState bootState (hackweekmgr_alloc layoutLow 8
    (freeState bootState (hackweekmgr_free layoutLow 8
      (retState bootState
        (hackweekmgr_alloc layoutLow 8 (hackweekmgr_init layoutLow bootState) 1073741792))
      0x100000020)) 0)

/-- The free-list members of `edgeState`: the sentinel and the block at the
start of the pool. -/
def edgeFree : Finset Nat := {0x1000, 0x100000000}

/-- The allocated headers of `edgeState`: the last quantum of the pool. -/
def edgeAlloc : Finset Nat := {0x13FFFFFE0}

/-! ## The wrappers of the source -/

/-- Memory after `memset(dst, 0, n)`: the `n` bytes from `dst` on read as zero. -/
def zeroFill (m : Nat → Nat) (dst n : Nat) : Nat → Nat :=
  fun x => if dst ≤ x ∧ x - dst < n then 0 else m x

/-- Memory after `memcpy(dst, src, n)`: the `n` bytes from `dst` on read as
the `n` bytes from `src` on did before. -/
def copyBytes (m : Nat → Nat) (dst src n : Nat) : Nat → Nat :=
  fun x => if dst ≤ x ∧ x - dst < n then m (src + (x - dst)) else m x

/-- The function `hackweekmgr_calloc`.  A `memset` of a positive count through
a null `retval` is a fault. -/
def hackweekmgr_calloc (L : Layout) (fuel : Nat) (s : State) (a size : Nat) :
    Except Fault (Nat × State) :=
  match hackweekmgr_alloc L fuel s (wrap (a * size)) with
  | .error e => .error e
  | .ok (retval, s1) =>
    if retval = 0 ∧ 0 < wrap (a * size) then .error .nullDeref
    else .ok (retval, { s1 with mem := zeroFill s1.mem retval (wrap (a * size)) })

/-- Modelled from the spec: the `malloc` that `hackweekmgr_realloc` calls.  The
source undefines the name and binds it to nothing of its own; the spec takes
it to be the allocator's own allocate, as the usage note of the header
suggests. -/
def malloc (L : Layout) (fuel : Nat) (s : State) (size : Nat) : Except Fault (Nat × State) :=
  hackweekmgr_alloc L fuel s size

/-- Modelled from the spec: the `free` that `hackweekmgr_realloc` calls, taken
to be the allocator's own release for the same reason. -/
def free (L : Layout) (fuel : Nat) (s : State) (d : Nat) : Except Fault State :=
  hackweekmgr_free L fuel s d

/-- The count of bytes `hackweekmgr_realloc` copies, `old_size < size ?
old_size : size` with `old_size = block->s.size * sizeof(mem_header_t)` and
`block` the header in front of `old`. -/
def copyCount (m : Nat → Nat) (old size : Nat) : Nat :=
  if wrap (m (sizeAddr (hdrPred old)) * QUANTUM) < size then
    wrap (m (sizeAddr (hdrPred old)) * QUANTUM)
  else size

/-- The function `hackweekmgr_realloc`.  A `memcpy` of a positive count
through a null `retval` is a fault. -/
def hackweekmgr_realloc (L : Layout) (fuel : Nat) (s : State) (old size : Nat) :
    Except Fault (Nat × State) :=
  if old = 0 then malloc L fuel s size
  else
    match malloc L fuel s size with
    | .error e => .error e
    | .ok (retval, s1) =>
      if retval = 0 ∧ 0 < copyCount s1.mem old size then .error .nullDeref
      else
        match free L fuel
            { s1 with mem := copyBytes s1.mem retval old (copyCount s1.mem old size) } old with
        | .error e => .error e
        | .ok s2 => .ok (retval, s2)

/-- The part of `xxxposix_memalign` under `if (alignment > 32)`; `rp` is the
address `retval` points to, and `abort()` is a fault. -/
def memalignHead (L : Layout) (fuel : Nat) (s : State) (rp alignment size : Nat) :
    Except Fault State :=
  if alignment > 32 then
    if alignment = 64 then
      match hackweekmgr_alloc L fuel s (wrap (size + 32)) with
      | .error e => .error e
      | .ok (ret, s1) =>
        .ok { s1 with mem := store s1.mem rp (if ret % 64 ≠ 0 then wrap (ret + 32) else ret) }
    else .error .aborted
  else .ok s

/-- The function `xxxposix_memalign`: the part under `if (alignment > 32)`,
then `*retval = hackweekmgr_alloc(size); return 0;`.  The result pairs the
value returned with the new state, in which `*retval` is the word at `rp`. -/
def xxxposix_memalign (L : Layout) (fuel : Nat) (s : State) (rp alignment size : Nat) :
    Except Fault (Nat × State) :=
  match memalignHead L fuel s rp alignment size with
  | .error e => .error e
  | .ok s1 =>
    match hackweekmgr_alloc L fuel s1 size with
    | .error e => .error e
    | .ok (r, s2) => .ok (0, { s2 with mem := store s2.mem rp r })

/-- The first loop of `hackweekmgr_print_stats`, `p += p->s.size` from the
start of the pool up to the cursor: the headers it prints, in order, and the
pointer it ends on. -/
def statsWalk (L : Layout) (s : State) : Nat → Nat → Except Fault (List Nat × Nat)
  | 0, _ => .error .outOfFuel
  | fuel + 1, p =>
    if p < wrap (L.pool + s.pool_free_pos) then
      match statsWalk L s fuel (hdrAdd p (s.mem (sizeAddr p))) with
      | .error e => .error e
      | .ok (vs, q) => .ok (p :: vs, q)
    else .ok ([], p)

/-- The fault a call ended in, if it did not return. -/
def faultOf {α : Type} : Except Fault α → Option Fault
  | .ok _ => none
  | .error e => some e

/-- The value a call returned, if it returned. -/
def retVal {α : Type} : Except Fault (Nat × α) → Option Nat
  | .ok (r, _) => some r
  | .error _ => none

/-- The call `hackweekmgr_calloc(a, size)` made in state `s` returns `r` and
leaves the state `s'`. -/
def CallocRet (L : Layout) (s : State) (a size r : Nat) (s' : State) : Prop :=
  ∃ fuel, hackweekmgr_calloc L fuel s a size = .ok (r, s')

/-- The call `hackweekmgr_realloc(old, size)` made in state `s` returns `r`
and leaves the state `s'`. -/
def ReallocRet (L : Layout) (s : State) (old size r : Nat) (s' : State) : Prop :=
  ∃ fuel, hackweekmgr_realloc L fuel s old size = .ok (r, s')

/-- The state after `hackweekmgr_init` and one call
`hackweekmgr_alloc(POOL_SIZE - 64)`, which leaves one quantum of the pool
unclaimed. -/
def brimState : State :=
  retState bootState
    (hackweekmgr_alloc layoutLow 8 (hackweekmgr_init layoutLow bootState) 1073741760)

/-- The state after `hackweekmgr_init` and one call `hackweekmgr_alloc(33)`. -/
def oddState : State :=
  retState bootState (hackweekmgr_alloc layoutLow 8 (hackweekmgr_init layoutLow bootState) 33)

/-! ## Accounting for the bytes of the pool -/

/-- The byte at `x` lies in a block whose header is in `H`. -/
def covered (s : State) (H : Finset Nat) (x : Nat) : Prop :=
  ∃ h ∈ H, h ≤ x ∧ x < h + QUANTUM * szOf s h

instance (s : State) (H : Finset Nat) (x : Nat) : Decidable (covered s H x) := by
  unfold covered; infer_instance

/-- The sum of the sizes of the blocks whose headers are in `H`, in quanta. -/
def quantaOf (s : State) (H : Finset Nat) : Nat := H.sum (szOf s)

/-- Every byte of the claimed part of the pool lies in a free-list block or in
a block of `A`. -/
def Exact (L : Layout) (s : State) (F A : Finset Nat) : Prop :=
  ∀ x, L.pool ≤ x → x < L.pool + s.pool_free_pos → covered s F x ∨ covered s A x

/-- The insertion point of `b` in the list `F` sorted by address: the member
of highest address below `b`, or the member of highest address of all when
`b` lies below every member. -/
def InsPoint (F : Finset Nat) (b p : Nat) : Prop :=
  p ∈ F ∧ ((p < b ∧ ∀ c ∈ F, c < b → c ≤ p) ∨ ((∀ c ∈ F, b < c) ∧ ∀ c ∈ F, c ≤ p))

/-- The state is fresh from `hackweekmgr_init` with nothing allocated, or the
blocks tile the claimed part of the pool: the state is well formed for the
free list `F` and the blocks of `A` and `G`, where `G` holds the blocks whose
release the arena guard ignored (their reference is the end of the pool), and
every claimed byte lies in one of these blocks. -/
def Tiled (L : Layout) (s : State) (A : Finset Nat) : Prop :=
  (s.freep = 0 ∧ s.pool_free_pos = 0 ∧ A = ∅) ∨
  ∃ F G, WF L s F (A ∪ G) ∧ Disjoint A G ∧ (∀ g ∈ G, g + QUANTUM = L.pool + POOL_SIZE) ∧
    Exact L s F (A ∪ G)

/-! ## States for runs with written payloads, and a sentinel that abuts the pool -/

/-- The state `demoState` after the caller has written into the payload of
its allocated block (at `0x1000001E0` and `0x1000001E8`), with stale words
left in the free block below it (at `0x100000180`, `0x1000001A0` and
`0x1000001A8`). -/
def inkState : State :=
  pokeState (pokeState (pokeState (pokeState (pokeState demoState
    0x1000001E0 0x5A) 0x1000001E8 0x3C) 0x100000180 0x77) 0x1000001A0 0xAB) 0x1000001A8 0xCD

/-- A placement in which the linker has put the sentinel `base` exactly at
the end of the pool. -/
def layoutAdj : Layout := { pool := 0x100000000, base := 0x140000000 }

/-- The state, for the placement `layoutAdj`, after `hackweekmgr_init`, a call
`hackweekmgr_alloc(1)` and a call `hackweekmgr_alloc(POOL_SIZE - 544)`, which
claims the rest of the pool. -/
def adjState : State :=
  retState bootState (hackweekmgr_alloc layoutAdj 8
    (retState bootState
      (hackweekmgr_alloc layoutAdj 8 (hackweekmgr_init layoutAdj bootState) 1))
    1073741280)

/-- The state after `demoState`, two more calls `hackweekmgr_alloc(1)` and
the release of the first and the third block: the block in the middle, at
`0x100000180`, is allocated and both of its neighbours are free. -/
def midState : State :=
  freeState bootState (hackweekmgr_free layoutLow 8
    (freeState bootState (hackweekmgr_free layoutLow 8
      (retState bootState (hackweekmgr_alloc layoutLow 8
        (retState bootState (hackweekmgr_alloc layoutLow 8 demoState 1)) 1))
      0x1000001E0)) 0x100000160)

/-- The free-list members of `midState`: the sentinel, the block at the start
of the pool and the block above the allocated one. -/
def midFree : Finset Nat := {0x1000, 0x100000000, 0x1000001C0}

/-- The allocated headers of `midState`. -/
def midAlloc : Finset Nat := {0x100000180}

/-! ## Arithmetic and memory basics -/

theorem wrap_of_lt {x : Nat} (h : x < SIZE_MOD) : wrap x = x := by
  unfold wrap
  exact Nat.mod_eq_of_lt h

theorem store_same (m : Nat → Nat) (a v : Nat) : store m a v a = v := by simp [store]

theorem store_ne {m : Nat → Nat} {a x v : Nat} (h : x ≠ a) : store m a v x = m x := by
  simp [store, h]

theorem hdrAdd_of_lt {p k : Nat} (h : p + QUANTUM * k < SIZE_MOD) : hdrAdd p k = p + QUANTUM * k := by
  unfold hdrAdd
  rw [Nat.mul_comm k QUANTUM]
  exact wrap_of_lt h

theorem hdrPred_of_le {p : Nat} (h1 : QUANTUM ≤ p) (h2 : p < SIZE_MOD) : hdrPred p = p - QUANTUM := by
  unfold hdrPred wrap
  have e : SIZE_MOD + p - QUANTUM = (p - QUANTUM) + SIZE_MOD := by omega
  rw [e, Nat.add_mod_right]
  exact Nat.mod_eq_of_lt (by omega)

/-! ## Rings sorted by address -/

theorem ring_insert {F : Finset Nat} {nx nx' : Nat → Nat} {b p : Nat}
    (hR : Ring F nx) (hp : p ∈ F) (hb : b ∉ F) (hc : InsCond nx b p)
    (h1 : nx' b = nx p) (h2 : nx' p = b) (h3 : ∀ a ∈ F, a ≠ p → nx' a = nx a) :
    Ring (insert b F) nx' := by
  intro a ha
  have hpn := hR p hp
  have hbp : b ≠ p := fun h => hb (h ▸ hp)
  rcases Finset.mem_insert.1 ha with rfl | haF
  · -- the new block
    rw [h1]
    refine ⟨Finset.mem_insert_of_mem hpn.1, ?_⟩
    rcases hpn.2 with ⟨hlt, hno⟩ | ⟨hge, hall⟩
    · rcases hc with ⟨c1, c2⟩ | ⟨c1, _⟩
      · left
        refine ⟨c2, ?_⟩
        intro c hcm
        rcases Finset.mem_insert.1 hcm with rfl | hcF
        · omega
        · have := hno c hcF; omega
      · omega
    · rcases hc with ⟨c1, c2⟩ | ⟨_, c2⟩
      · omega
      · rcases c2 with c2 | c2
        · right
          refine ⟨by omega, ?_⟩
          intro c hcm
          rcases Finset.mem_insert.1 hcm with rfl | hcF
          · omega
          · have := hall c hcF; omega
        · left
          refine ⟨c2, ?_⟩
          intro c hcm
          rcases Finset.mem_insert.1 hcm with rfl | hcF
          · omega
          · have := hall c hcF; omega
  · by_cases hap : a = p
    · subst hap
      rw [h2]
      refine ⟨Finset.mem_insert_self _ _, ?_⟩
      rcases hpn.2 with ⟨hlt, hno⟩ | ⟨hge, hall⟩
      · rcases hc with ⟨c1, c2⟩ | ⟨c1, _⟩
        · left
          refine ⟨c1, ?_⟩
          intro c hcm
          rcases Finset.mem_insert.1 hcm with rfl | hcF
          · omega
          · have := hno c hcF; omega
        · omega
      · rcases hc with ⟨c1, c2⟩ | ⟨_, c2⟩
        · omega
        · rcases c2 with c2 | c2
          · left
            refine ⟨c2, ?_⟩
            intro c hcm
            rcases Finset.mem_insert.1 hcm with rfl | hcF
            · omega
            · have := hall c hcF; omega
          · right
            refine ⟨by omega, ?_⟩
            intro c hcm
            rcases Finset.mem_insert.1 hcm with rfl | hcF
            · omega
            · have := hall c hcF; omega
    · rw [h3 a haF hap]
      have han := hR a haF
      have hab : a ≠ b := fun h => hb (h ▸ haF)
      refine ⟨Finset.mem_insert_of_mem han.1, ?_⟩
      rcases han.2 with ⟨hlt, hno⟩ | ⟨hge, hall⟩
      · left
        refine ⟨hlt, ?_⟩
        intro c hcm
        rcases Finset.mem_insert.1 hcm with rfl | hcF
        · intro hbt
          rcases hpn.2 with ⟨plt, pno⟩ | ⟨pge, pall⟩
          · have e1 := pno a haF
            have e2 := hno p hp
            have e3 := pno (nx a) han.1
            rcases hc with ⟨c1, c2⟩ | ⟨c1, _⟩ <;> omega
          · have e1 := pall a haF
            have e2 := pall (nx a) han.1
            rcases hc with ⟨c1, c2⟩ | ⟨c1, c2⟩ <;> omega
        · exact hno c hcF
      · right
        refine ⟨hge, ?_⟩
        intro c hcm
        rcases Finset.mem_insert.1 hcm with rfl | hcF
        · rcases hpn.2 with ⟨plt, pno⟩ | ⟨pge, pall⟩
          · have e1 := hall p hp
            have e2 := hall (nx p) hpn.1
            rcases hc with ⟨c1, c2⟩ | ⟨c1, c2⟩ <;> omega
          · have e1 := pall a haF
            have e2 := hall p hp
            omega
        · exact hall c hcF

theorem cycSucc_inj {F : Finset Nat} {a a' n : Nat} (ha : a ∈ F) (ha' : a' ∈ F)
    (h : CycSucc F a n) (h' : CycSucc F a' n) : a = a' := by
  rcases h.2 with ⟨hlt, hno⟩ | ⟨hge, hall⟩ <;> rcases h'.2 with ⟨hlt', hno'⟩ | ⟨hge', hall'⟩
  · have := hno a' ha'; have := hno' a ha; omega
  · have := hall' a ha; omega
  · have := hall a' ha'; omega
  · have := hall a' ha'; have := hall' a ha; omega

theorem ring_erase {F : Finset Nat} {nx nx' : Nat → Nat} {p u : Nat}
    (hR : Ring F nx) (hp : p ∈ F) (hu : nx p = u) (hne : u ≠ p)
    (h2 : nx' p = nx u) (h3 : ∀ a ∈ F, a ≠ p → a ≠ u → nx' a = nx a) :
    Ring (F.erase u) nx' := by
  intro a ha
  have haF : a ∈ F := Finset.mem_of_mem_erase ha
  have hau : a ≠ u := Finset.ne_of_mem_erase ha
  have hpn := hR p hp
  rw [hu] at hpn
  have huF : u ∈ F := hpn.1
  have hun := hR u huF
  by_cases hap : a = p
  · subst hap
    rw [h2]
    have hnu : nx u ≠ u := by
      intro h
      rw [h] at hun
      exact hne (cycSucc_inj huF haF hun hpn)
    refine ⟨Finset.mem_erase.2 ⟨hnu, hun.1⟩, ?_⟩
    rcases hpn.2 with ⟨plt, pno⟩ | ⟨pge, pall⟩ <;> rcases hun.2 with ⟨ult, uno⟩ | ⟨uge, uall⟩
    · left
      refine ⟨by omega, ?_⟩
      intro c hc
      have hcF := Finset.mem_of_mem_erase hc
      have hcu := Finset.ne_of_mem_erase hc
      have := pno c hcF; have := uno c hcF; omega
    · right
      have := uall a haF
      refine ⟨by omega, ?_⟩
      intro c hc
      have hcF := Finset.mem_of_mem_erase hc
      have hcu := Finset.ne_of_mem_erase hc
      have := pno c hcF; have := uall c hcF; omega
    · right
      have := pall (nx u) hun.1
      refine ⟨by omega, ?_⟩
      intro c hc
      have hcF := Finset.mem_of_mem_erase hc
      have hcu := Finset.ne_of_mem_erase hc
      have := pall c hcF; have := uno c hcF; omega
    · have := pall a haF; have := uall a haF; omega
  · rw [h3 a haF hap hau]
    have han := hR a haF
    have hnu : nx a ≠ u := by
      intro h
      rw [h] at han
      exact hap (cycSucc_inj haF hp han hpn)
    refine ⟨Finset.mem_erase.2 ⟨hnu, han.1⟩, ?_⟩
    rcases han.2 with ⟨hlt, hno⟩ | ⟨hge, hall⟩
    · left
      exact ⟨hlt, fun c hc => hno c (Finset.mem_of_mem_erase hc)⟩
    · right
      exact ⟨hge, fun c hc => hall c (Finset.mem_of_mem_erase hc)⟩

theorem ring_congr {F : Finset Nat} {nx nx' : Nat → Nat} (hR : Ring F nx)
    (h : ∀ a ∈ F, nx' a = nx a) : Ring F nx' := by
  intro a ha
  rw [h a ha]
  exact hR a ha

theorem ring_next_mem {F : Finset Nat} {nx : Nat → Nat} (hR : Ring F nx) {a : Nat} (ha : a ∈ F) :
    nx a ∈ F := (hR a ha).1

/-- A ring with at least two members has no self-loop. -/
theorem ring_next_ne {F : Finset Nat} {nx : Nat → Nat} (hR : Ring F nx) {a c : Nat}
    (ha : a ∈ F) (hc : c ∈ F) (hne : c ≠ a) : nx a ≠ a := by
  intro h
  have := hR a ha
  rw [h] at this
  rcases this.2 with ⟨hlt, _⟩ | ⟨_, hall⟩
  · omega
  · have := hall c hc; omega

/-! ## Cyclic distance -/

theorem cdist_self (a : Nat) : cdist a a = 0 := by simp [cdist]

theorem cdist_eq_zero {a t : Nat} (ha : a < SIZE_MOD) (h : cdist a t = 0) : a = t := by
  unfold cdist at h
  split_ifs at h <;> omega

theorem cdist_succ_pos {F : Finset Nat} {a n : Nat} (hB : ∀ c ∈ F, c < SIZE_MOD) (ha : a ∈ F)
    (h : CycSucc F a n) (hne : n ≠ a) : 1 ≤ cdist a n := by
  have := hB a ha
  have := hB n h.1
  unfold cdist
  split_ifs <;> omega

/-- Going up from `a`, its successor comes before every other member. -/
theorem cdist_split {F : Finset Nat} {a n x : Nat} (hB : ∀ c ∈ F, c < SIZE_MOD) (ha : a ∈ F)
    (h : CycSucc F a n) (hx : x ∈ F) (hxa : x ≠ a) : cdist a x = cdist a n + cdist n x := by
  have := hB a ha
  have := hB n h.1
  have := hB x hx
  unfold cdist
  rcases h.2 with ⟨hlt, hno⟩ | ⟨hge, hall⟩
  · have := hno x hx
    split_ifs <;> omega
  · have := hall x hx
    split_ifs <;> omega

/-- Going up from the successor of `a`, the member `a` comes last. -/
theorem cdist_le_pred {F : Finset Nat} {a n x : Nat} (hB : ∀ c ∈ F, c < SIZE_MOD) (ha : a ∈ F)
    (h : CycSucc F a n) (hx : x ∈ F) : cdist n x ≤ cdist n a := by
  have := hB a ha
  have := hB n h.1
  have := hB x hx
  unfold cdist
  rcases h.2 with ⟨hlt, hno⟩ | ⟨hge, hall⟩
  · have := hno x hx
    split_ifs <;> omega
  · have := hall x hx
    split_ifs <;> omega

theorem nearer_card_lt {F : Finset Nat} (t p : Nat) (hp : p ∈ F) : (nearer F t p).card < F.card := by
  apply Finset.card_lt_card
  refine ⟨Finset.filter_subset _ _, ?_⟩
  intro h
  have := h hp
  simp [nearer] at this

theorem nearer_step {F : Finset Nat} {nx : Nat → Nat} {t p : Nat} (hB : ∀ c ∈ F, c < SIZE_MOD)
    (hR : Ring F nx) (hp : p ∈ F) (ht : t ∈ F) (hpt : t ≠ p) :
    (nearer F t (nx p)).card < (nearer F t p).card := by
  have hs := hR p hp
  have hsplit := cdist_split hB hp hs ht hpt
  have hne : nx p ≠ p := ring_next_ne hR hp ht hpt
  have hpos := cdist_succ_pos hB hp hs hne
  apply Finset.card_lt_card
  refine ⟨?_, ?_⟩
  · intro c hc
    simp only [nearer, Finset.mem_filter] at hc ⊢
    exact ⟨hc.1, by omega⟩
  · intro h
    have hmem : nx p ∈ nearer F t p := by
      simp only [nearer, Finset.mem_filter]
      exact ⟨hs.1, by omega⟩
    have := h hmem
    simp [nearer] at this

/-! ## The insertion-point walk -/

/-- Some member of the ring satisfies the exit condition of the walk. -/
theorem exists_insCond {F : Finset Nat} {nx : Nat → Nat} (hR : Ring F nx) (hne : F.Nonempty)
    {b : Nat} (hb : b ∉ F) : ∃ t ∈ F, InsCond nx b t := by
  by_cases hlow : (F.filter (fun c => c < b)).Nonempty
  · obtain ⟨t, ht, hmax⟩ := Finset.exists_max_image _ id hlow
    have htF : t ∈ F := (Finset.mem_filter.1 ht).1
    have htb : t < b := (Finset.mem_filter.1 ht).2
    refine ⟨t, htF, ?_⟩
    have hs := hR t htF
    rcases hs.2 with ⟨hlt, hno⟩ | ⟨hge, hall⟩
    · left
      refine ⟨htb, ?_⟩
      by_contra hcon
      have hnb : nx t ≠ b := fun h => hb (h ▸ hs.1)
      have : nx t ∈ F.filter (fun c => c < b) := Finset.mem_filter.2 ⟨hs.1, by omega⟩
      have := hmax _ this
      simp only [id] at this
      omega
    · right
      exact ⟨hge, Or.inl htb⟩
  · obtain ⟨t, ht, hmax⟩ := Finset.exists_max_image F id hne
    refine ⟨t, ht, ?_⟩
    have hs := hR t ht
    have hall : ∀ c ∈ F, b < c := by
      intro c hc
      by_contra hcon
      have hcb : c ≠ b := fun h => hb (h ▸ hc)
      exact hlow ⟨c, Finset.mem_filter.2 ⟨hc, by omega⟩⟩
    right
    have h1 := hmax _ hs.1
    simp only [id] at h1
    exact ⟨h1, Or.inr (hall _ hs.1)⟩

theorem findInsert_spec {F : Finset Nat} {m : Nat → Nat} {b t : Nat}
    (hB : ∀ c ∈ F, c < SIZE_MOD) (h0 : ∀ c ∈ F, c ≠ 0) (hR : Ring F (fun a => m (nextAddr a)))
    (ht : t ∈ F) (hct : InsCond (fun a => m (nextAddr a)) b t) :
    ∀ fuel p0, p0 ∈ F → (nearer F t p0).card < fuel →
      ∃ p ∈ F, findInsert m b fuel p0 = .ok p ∧ InsCond (fun a => m (nextAddr a)) b p := by
  intro fuel
  induction fuel with
  | zero => intro p0 _ h; omega
  | succ fuel ih =>
    intro p0 hp0 hcard
    unfold findInsert
    rw [if_neg (h0 p0 hp0)]
    by_cases c1 : b > p0 ∧ b < m (nextAddr p0)
    · rw [if_pos c1]
      exact ⟨p0, hp0, rfl, Or.inl c1⟩
    · rw [if_neg c1]
      by_cases c2 : p0 ≥ m (nextAddr p0) ∧ (b > p0 ∨ b < m (nextAddr p0))
      · rw [if_pos c2]
        exact ⟨p0, hp0, rfl, Or.inr c2⟩
      · rw [if_neg c2]
        have hpt : t ≠ p0 := by
          intro h
          subst h
          rcases hct with h | h
          · exact c1 h
          · exact c2 h
        have hstep := nearer_step hB hR hp0 ht hpt
        exact ih _ (ring_next_mem hR hp0) (by omega)

/-! ## Tilings -/

theorem tiling_congr {H H' : Nat → Prop} {sz sz' : Nat → Nat} {lo hi hi' : Nat}
    (hT : Tiling H sz lo hi) (hH : ∀ x, H' x → H x) (hsz : ∀ x, H' x → sz' x = sz x)
    (hhi : hi ≤ hi') : Tiling H' sz' lo hi' := by
  refine ⟨?_, ?_⟩
  · intro h hh
    have := hT.1 h (hH h hh)
    rw [hsz h hh]
    omega
  · intro h1 h2 hh1 hh2 hlt
    have := hT.2 h1 h2 (hH _ hh1) (hH _ hh2) hlt
    rw [hsz h1 hh1]
    exact this

/-- Two blocks that abut become one. -/
theorem tiling_merge {H H' : Nat → Prop} {sz sz' : Nat → Nat} {lo hi h1 h2 : Nat}
    (hT : Tiling H sz lo hi) (hh1 : H h1) (hh2 : H h2) (hadj : h1 + QUANTUM * sz h1 = h2)
    (hH : ∀ x, H' x → H x ∧ x ≠ h2) (hs1 : sz' h1 = sz h1 + sz h2)
    (hsz : ∀ x, H x → x ≠ h1 → x ≠ h2 → sz' x = sz x) : Tiling H' sz' lo hi := by
  have b1 := hT.1 h1 hh1
  have b2 := hT.1 h2 hh2
  refine ⟨?_, ?_⟩
  · intro h hh
    obtain ⟨hH1, hne⟩ := hH h hh
    by_cases e : h = h1
    · subst e
      rw [hs1]
      simp only [QUANTUM] at *
      omega
    · rw [hsz h hH1 e hne]
      exact hT.1 h hH1
  · intro x y hx hy hlt
    obtain ⟨hx1, hxne⟩ := hH x hx
    obtain ⟨hy1, hyne⟩ := hH y hy
    by_cases e : x = h1
    · subst e
      rw [hs1]
      have := hT.2 h2 y hh2 hy1
      have := hT.2 x y hh1 hy1 hlt
      simp only [QUANTUM] at *
      omega
    · rw [hsz x hx1 e hxne]
      exact hT.2 x y hx1 hy1 hlt

/-- A block gives up its tail as a block of its own. -/
theorem tiling_split {H H' : Nat → Prop} {sz sz' : Nat → Nat} {lo hi h n : Nat}
    (hT : Tiling H sz lo hi) (hh : H h) (hn1 : 1 ≤ n) (hn2 : n < sz h)
    (hH : ∀ x, H' x → H x ∨ x = h + QUANTUM * (sz h - n))
    (hs1 : sz' h = sz h - n) (hs2 : sz' (h + QUANTUM * (sz h - n)) = n)
    (hsz : ∀ x, H x → x ≠ h → sz' x = sz x) : Tiling H' sz' lo hi := by
  have b1 := hT.1 h hh
  have hqn : ∀ x, H x → x ≠ h + QUANTUM * (sz h - n) := by
    intro x hx e
    have bx := hT.1 x hx
    have s1 := hT.2 h x hh hx
    have s2 := hT.2 x h hx hh
    simp only [QUANTUM] at *
    omega
  have hsz' : ∀ x, H' x → (x = h ∧ sz' x = sz h - n) ∨
      (x = h + QUANTUM * (sz h - n) ∧ sz' x = n) ∨ (H x ∧ x ≠ h ∧ sz' x = sz x) := by
    intro x hx
    rcases hH x hx with hx1 | hx1
    · by_cases e : x = h
      · left; exact ⟨e, e ▸ hs1⟩
      · right; right; exact ⟨hx1, e, hsz x hx1 e⟩
    · right; left; exact ⟨hx1, hx1 ▸ hs2⟩
  refine ⟨?_, ?_⟩
  · intro x hx
    rcases hsz' x hx with ⟨e, es⟩ | ⟨e, es⟩ | ⟨hx1, e, es⟩
    · rw [es]; subst e; simp only [QUANTUM] at *; omega
    · rw [es]; subst e; simp only [QUANTUM] at *; omega
    · rw [es]; exact hT.1 x hx1
  · intro x y hx hy hlt
    rcases hsz' x hx with ⟨e, es⟩ | ⟨e, es⟩ | ⟨hx1, e, es⟩ <;>
    rcases hsz' y hy with ⟨e', es'⟩ | ⟨e', es'⟩ | ⟨hy1, e', es'⟩
    · omega
    · rw [es]; subst e; omega
    · rw [es]; subst e
      have := hT.2 x y hh hy1 hlt
      simp only [QUANTUM] at *; omega
    · rw [es]; subst e'; simp only [QUANTUM] at *; omega
    · omega
    · rw [es]
      have := hT.2 h y hh hy1
      have := hT.1 y hy1
      have := hT.2 y h hy1 hh
      simp only [QUANTUM] at *; omega
    · rw [es]; subst e'
      exact hT.2 x y hx1 hh hlt
    · rw [es]
      have := hT.2 x h hx1 hh
      have := hT.2 h x hh hx1
      have := hT.1 x hx1
      simp only [QUANTUM] at *; omega
    · rw [es]; exact hT.2 x y hx1 hy1 hlt

/-- A fresh block is put at the end of the tiled range. -/
theorem tiling_append {H H' : Nat → Prop} {sz sz' : Nat → Nat} {lo hi n : Nat}
    (hT : Tiling H sz lo hi) (hlo : lo ≤ hi) (hal : (hi - lo) % QUANTUM = 0) (hn : 1 ≤ n)
    (hH : ∀ x, H' x → H x ∨ x = hi) (hs1 : sz' hi = n)
    (hsz : ∀ x, H x → sz' x = sz x) : Tiling H' sz' lo (hi + QUANTUM * n) := by
  have hne : ∀ x, H x → x ≠ hi := by
    intro x hx e
    have := hT.1 x hx
    simp only [QUANTUM] at *; omega
  refine ⟨?_, ?_⟩
  · intro x hx
    rcases hH x hx with hx1 | e
    · rw [hsz x hx1]
      have := hT.1 x hx1
      omega
    · subst e
      rw [hs1]
      omega
  · intro x y hx hy hlt
    rcases hH x hx with hx1 | e <;> rcases hH y hy with hy1 | e'
    · rw [hsz x hx1]; exact hT.2 x y hx1 hy1 hlt
    · rw [hsz x hx1]; subst e'
      have := hT.1 x hx1; omega
    · subst e
      have := hT.1 y hy1
      simp only [QUANTUM] at *; omega
    · omega

/-! ## Shapes of the heap and the elementary moves on them -/

theorem QUANTUM_eq : QUANTUM = 32 := rfl

theorem POOL_SIZE_eq : POOL_SIZE = 1073741824 := by norm_num [POOL_SIZE]

theorem SIZE_MOD_eq : SIZE_MOD = 18446744073709551616 := by norm_num [SIZE_MOD]

/-- Every node of a shape is the sentinel or the header of a block of the pool. -/
theorem Shape.node {L : Layout} {top : Nat} {F A : Finset Nat} {nx sz : Nat → Nat}
    (hs : Shape L top F A nx sz) (hL : L.ok) (htop : top ≤ POOL_SIZE) {x : Nat}
    (hx : x ∈ F ∨ x ∈ A) :
    (x = L.base ∧ sz x = 0 ∧ x ∈ F) ∨
    (Hdr L F A x ∧ x ≠ L.base ∧ L.pool ≤ x ∧ (x - L.pool) % 32 = 0 ∧ 1 ≤ sz x ∧
      x + 32 * sz x ≤ L.pool + top) := by
  obtain ⟨h1, h2, h3, h4, h5⟩ := hL
  have key : Hdr L F A x → x ≠ L.base ∧ L.pool ≤ x ∧ (x - L.pool) % 32 = 0 ∧ 1 ≤ sz x ∧
      x + 32 * sz x ≤ L.pool + top := by
    intro hh
    have := hs.tiling.1 x hh
    simp only [QUANTUM_eq, POOL_SIZE_eq] at *
    refine ⟨?_, this⟩
    omega
  rcases hx with hF | hA
  · by_cases e : x = L.base
    · left; exact ⟨e, e ▸ hs.base_size, hF⟩
    · right; exact ⟨Or.inl ⟨hF, e⟩, key (Or.inl ⟨hF, e⟩)⟩
  · right; exact ⟨Or.inr hA, key (Or.inr hA)⟩

/-- An allocated block is linked into the ring at its insertion point. -/
theorem shape_release {L : Layout} {top : Nat} {F A : Finset Nat} {nx sz nx' sz' : Nat → Nat}
    {b p : Nat} (hs : Shape L top F A nx sz) (hb : b ∈ A) (hp : p ∈ F) (hc : InsCond nx b p)
    (hn1 : nx' b = nx p) (hn2 : nx' p = b) (hn3 : ∀ a ∈ F, a ≠ p → nx' a = nx a)
    (hsz : ∀ x, (x ∈ F ∨ x ∈ A) → sz' x = sz x) :
    Shape L top (insert b F) (A.erase b) nx' sz' := by
  have hbF : b ∉ F := hs.disj b hb
  refine ⟨Finset.mem_insert_of_mem hs.base_mem, ?_, ?_, ?_, ?_⟩
  · rw [hsz _ (Or.inl hs.base_mem)]; exact hs.base_size
  · intro h hh hin
    have h1 := Finset.ne_of_mem_erase hh
    have h2 := Finset.mem_of_mem_erase hh
    rcases Finset.mem_insert.1 hin with e | e
    · exact h1 e
    · exact hs.disj h h2 e
  · have hH : ∀ x, Hdr L (insert b F) (A.erase b) x → Hdr L F A x := by
      intro x hx
      rcases hx with ⟨h1, h2⟩ | h1
      · rcases Finset.mem_insert.1 h1 with e | e
        · right; exact e ▸ hb
        · left; exact ⟨e, h2⟩
      · right; exact Finset.mem_of_mem_erase h1
    refine tiling_congr hs.tiling hH ?_ (le_refl _)
    intro x hx
    rcases hH x hx with ⟨h1, _⟩ | h1
    · exact hsz x (Or.inl h1)
    · exact hsz x (Or.inr h1)
  · exact ring_insert hs.ring hp hbF hc hn1 hn2 hn3

/-- A free block absorbs its ring successor when the two abut. -/
theorem shape_merge {L : Layout} {top : Nat} {F A : Finset Nat} {nx sz nx' sz' : Nat → Nat}
    {x y : Nat} (hs : Shape L top F A nx sz) (hL : L.ok) (htop : top ≤ POOL_SIZE)
    (hx : x ∈ F) (hxb : x ≠ L.base) (hy : nx x = y) (hadj : x + QUANTUM * sz x = y)
    (hn1 : nx' x = nx y) (hn2 : ∀ a ∈ F, a ≠ x → a ≠ y → nx' a = nx a)
    (hs1 : sz' x = sz x + sz y)
    (hs2 : ∀ a, (a ∈ F ∨ a ∈ A) → a ≠ x → a ≠ y → sz' a = sz a) :
    Shape L top (F.erase y) A nx' sz' := by
  have hyF : y ∈ F := hy ▸ ring_next_mem hs.ring hx
  have nxx := hs.node hL htop (Or.inl hx)
  have nyy := hs.node hL htop (Or.inl hyF)
  have hL' := hL
  obtain ⟨l1, l2, l3, l4, l5⟩ := hL'
  simp only [QUANTUM_eq, POOL_SIZE_eq, SIZE_MOD_eq] at *
  have hyx : y ≠ x := by omega
  have hyb : y ≠ L.base := by omega
  have hHx : Hdr L F A x := Or.inl ⟨hx, hxb⟩
  have hHy : Hdr L F A y := Or.inl ⟨hyF, hyb⟩
  refine ⟨Finset.mem_erase.2 ⟨fun e => hyb e.symm, hs.base_mem⟩, ?_, ?_, ?_, ?_⟩
  · rw [hs2 _ (Or.inl hs.base_mem) (fun e => hxb e.symm) (fun e => hyb e.symm)]
    exact hs.base_size
  · intro h hh hin
    exact hs.disj h hh (Finset.mem_of_mem_erase hin)
  · refine tiling_merge hs.tiling hHx hHy (by simpa [QUANTUM_eq] using hadj) ?_ hs1 ?_
    · intro a ha
      rcases ha with ⟨h1, h2⟩ | h1
      · exact ⟨Or.inl ⟨Finset.mem_of_mem_erase h1, h2⟩, Finset.ne_of_mem_erase h1⟩
      · exact ⟨Or.inr h1, fun e => hs.disj a h1 (e ▸ hyF)⟩
    · intro a ha hax hay
      rcases ha with ⟨h1, _⟩ | h1
      · exact hs2 a (Or.inl h1) hax hay
      · exact hs2 a (Or.inr h1) hax hay
  · exact ring_erase hs.ring hx hy hyx hn1 hn2

/-- A free block is unlinked from the ring and becomes allocated. -/
theorem shape_take {L : Layout} {top : Nat} {F A : Finset Nat} {nx sz nx' sz' : Nat → Nat}
    {q pq : Nat} (hs : Shape L top F A nx sz) (hq : q ∈ F) (hqb : q ≠ L.base)
    (hpq : pq ∈ F) (hy : nx pq = q) (hn1 : nx' pq = nx q)
    (hn2 : ∀ a ∈ F, a ≠ pq → a ≠ q → nx' a = nx a)
    (hsz : ∀ x, (x ∈ F ∨ x ∈ A) → sz' x = sz x) :
    Shape L top (F.erase q) (insert q A) nx' sz' := by
  have hne : q ≠ pq := by
    intro e
    subst e
    exact ring_next_ne hs.ring hq hs.base_mem (fun e => hqb e.symm) hy
  refine ⟨Finset.mem_erase.2 ⟨fun e => hqb e.symm, hs.base_mem⟩, ?_, ?_, ?_, ?_⟩
  · rw [hsz _ (Or.inl hs.base_mem)]; exact hs.base_size
  · intro h hh hin
    have h1 := Finset.ne_of_mem_erase hin
    have h2 := Finset.mem_of_mem_erase hin
    rcases Finset.mem_insert.1 hh with e | e
    · exact h1 e
    · exact hs.disj h e h2
  · have hH : ∀ x, Hdr L (F.erase q) (insert q A) x → Hdr L F A x := by
      intro x hx
      rcases hx with ⟨h1, h2⟩ | h1
      · left; exact ⟨Finset.mem_of_mem_erase h1, h2⟩
      · rcases Finset.mem_insert.1 h1 with e | e
        · left; exact e ▸ ⟨hq, hqb⟩
        · right; exact e
    refine tiling_congr hs.tiling hH ?_ (le_refl _)
    intro x hx
    rcases hH x hx with ⟨h1, _⟩ | h1
    · exact hsz x (Or.inl h1)
    · exact hsz x (Or.inr h1)
  · exact ring_erase hs.ring hpq hy hne hn1 hn2

/-- A free block gives up its tail, which becomes allocated. -/
theorem shape_split {L : Layout} {top : Nat} {F A : Finset Nat} {nx sz nx' sz' : Nat → Nat}
    {q n : Nat} (hs : Shape L top F A nx sz) (hL : L.ok) (htop : top ≤ POOL_SIZE)
    (hq : q ∈ F) (hqb : q ≠ L.base) (hn1 : 1 ≤ n) (hn2 : n < sz q)
    (hs1 : sz' q = sz q - n) (hs2 : sz' (q + QUANTUM * (sz q - n)) = n)
    (hsz : ∀ x, (x ∈ F ∨ x ∈ A) → x ≠ q → sz' x = sz x)
    (hnx : ∀ a ∈ F, nx' a = nx a) :
    Shape L top F (insert (q + QUANTUM * (sz q - n)) A) nx' sz' := by
  have hHq : Hdr L F A q := Or.inl ⟨hq, hqb⟩
  have hfresh : ∀ x, (x ∈ F ∨ x ∈ A) → x ≠ q + QUANTUM * (sz q - n) := by
    intro x hx e
    have nq := hs.node hL htop (Or.inl hq)
    have nx1 := hs.node hL htop hx
    obtain ⟨l1, l2, l3, l4, l5⟩ := hL
    rcases nx1 with ⟨e1, _, _⟩ | ⟨hHx, _, _, _, _, _⟩
    · simp only [QUANTUM_eq, POOL_SIZE_eq, SIZE_MOD_eq] at *
      omega
    · have s1 := hs.tiling.2 q x hHq hHx
      have s2 := hs.tiling.2 x q hHx hHq
      simp only [QUANTUM_eq, POOL_SIZE_eq, SIZE_MOD_eq] at *
      omega
  refine ⟨hs.base_mem, ?_, ?_, ?_, ring_congr hs.ring hnx⟩
  · rw [hsz _ (Or.inl hs.base_mem) (fun e => hqb e.symm)]; exact hs.base_size
  · intro h hh hin
    rcases Finset.mem_insert.1 hh with e | e
    · exact hfresh h (Or.inl hin) e
    · exact hs.disj h e hin
  · refine tiling_split hs.tiling hHq hn1 hn2 ?_ hs1 hs2 ?_
    · intro x hx
      rcases hx with ⟨h1, h2⟩ | h1
      · left; exact Or.inl ⟨h1, h2⟩
      · rcases Finset.mem_insert.1 h1 with e | e
        · right; exact e
        · left; exact Or.inr e
    · intro x hx hxq
      rcases hx with ⟨h1, _⟩ | h1
      · exact hsz x (Or.inl h1) hxq
      · exact hsz x (Or.inr h1) hxq

/-- A fresh block is claimed at the cursor; it starts out allocated. -/
theorem shape_claim {L : Layout} {top : Nat} {F A : Finset Nat} {nx sz nx' sz' : Nat → Nat}
    {n : Nat} (hs : Shape L top F A nx sz) (hL : L.ok) (hal : top % QUANTUM = 0)
    (hfit : top + QUANTUM * n ≤ POOL_SIZE) (hn : 1 ≤ n)
    (hs1 : sz' (L.pool + top) = n) (hsz : ∀ x, (x ∈ F ∨ x ∈ A) → sz' x = sz x)
    (hnx : ∀ a ∈ F, nx' a = nx a) :
    Shape L (top + QUANTUM * n) F (insert (L.pool + top) A) nx' sz' := by
  have htop : top ≤ POOL_SIZE := by omega
  have hfresh : ∀ x, (x ∈ F ∨ x ∈ A) → x ≠ L.pool + top := by
    intro x hx e
    have nx1 := hs.node hL htop hx
    obtain ⟨l1, l2, l3, l4, l5⟩ := hL
    simp only [QUANTUM_eq, POOL_SIZE_eq, SIZE_MOD_eq] at *
    omega
  refine ⟨hs.base_mem, ?_, ?_, ?_, ring_congr hs.ring hnx⟩
  · rw [hsz _ (Or.inl hs.base_mem)]; exact hs.base_size
  · intro h hh hin
    rcases Finset.mem_insert.1 hh with e | e
    · exact hfresh h (Or.inl hin) e
    · exact hs.disj h e hin
  · rw [← Nat.add_assoc]
    refine tiling_append hs.tiling (Nat.le_add_right _ _) ?_ hn ?_ hs1 ?_
    · simpa using hal
    · intro x hx
      rcases hx with ⟨h1, h2⟩ | h1
      · left; exact Or.inl ⟨h1, h2⟩
      · rcases Finset.mem_insert.1 h1 with e | e
        · right; exact e
        · left; exact Or.inr e
    · intro x hx
      rcases hx with ⟨h1, _⟩ | h1
      · exact hsz x (Or.inl h1)
      · exact hsz x (Or.inr h1)

theorem shape_congr {L : Layout} {top : Nat} {F A : Finset Nat} {nx sz nx' sz' : Nat → Nat}
    (hs : Shape L top F A nx sz) (hnx : ∀ a ∈ F, nx' a = nx a)
    (hsz : ∀ x, (x ∈ F ∨ x ∈ A) → sz' x = sz x) : Shape L top F A nx' sz' := by
  refine ⟨hs.base_mem, ?_, hs.disj, ?_, ring_congr hs.ring hnx⟩
  · rw [hsz _ (Or.inl hs.base_mem)]; exact hs.base_size
  · refine tiling_congr hs.tiling (fun _ h => h) ?_ (le_refl _)
    intro x hx
    rcases hx with ⟨h1, _⟩ | h1
    · exact hsz x (Or.inl h1)
    · exact hsz x (Or.inr h1)

/-! ## What the two joins of `hackweekmgr_free` write -/

theorem joinUpper_frame {m : Nat → Nat} {b p x : Nat} (h1 : x ≠ b) (h2 : x ≠ b + 8) :
    joinUpper m b p x = m x := by
  unfold joinUpper
  split_ifs <;> simp [store, nextAddr, sizeAddr, h1, h2]

theorem joinLower_frame {m : Nat → Nat} {b p x : Nat} (h1 : x ≠ p) (h2 : x ≠ p + 8) :
    joinLower m b p x = m x := by
  unfold joinLower
  split_ifs <;> simp [store, nextAddr, sizeAddr, h1, h2]

theorem join_frame {m : Nat → Nat} {b p x : Nat} (h1 : x ≠ b) (h2 : x ≠ b + 8) (h3 : x ≠ p)
    (h4 : x ≠ p + 8) : joinLower (joinUpper m b p) b p x = m x := by
  rw [joinLower_frame h3 h4, joinUpper_frame h1 h2]

theorem joinUpper_next {m : Nat → Nat} {b p : Nat} (h1 : p ≠ b + 8) (h2 : m p ≠ b + 8) :
    joinUpper m b p b = if hdrAdd b (m (b + 8)) = m p then m (m p) else m p := by
  simp only [joinUpper, nextAddr, sizeAddr]
  split_ifs with h <;> simp [store, nextAddr, sizeAddr, h1, h2]

theorem joinUpper_size {m : Nat → Nat} {b p : Nat} :
    joinUpper m b p (b + 8) =
      if hdrAdd b (m (b + 8)) = m p then wrap (m (b + 8) + m (m p + 8)) else m (b + 8) := by
  simp only [joinUpper, nextAddr, sizeAddr]
  split_ifs with h <;> simp [store, nextAddr, sizeAddr]

theorem joinLower_next {m : Nat → Nat} {b p : Nat} (h1 : b ≠ p + 8) :
    joinLower m b p p = if hdrAdd p (m (p + 8)) = b then m b else b := by
  simp only [joinLower, nextAddr, sizeAddr]
  split_ifs with h <;> simp [store, nextAddr, sizeAddr, h1]

theorem joinLower_size {m : Nat → Nat} {b p : Nat} :
    joinLower m b p (p + 8) =
      if hdrAdd p (m (p + 8)) = b then wrap (m (p + 8) + m (b + 8)) else m (p + 8) := by
  simp only [joinLower, nextAddr, sizeAddr]
  split_ifs with h <;> simp [store, nextAddr, sizeAddr]

/-- Header fields of distinct nodes never share a word. -/
theorem Shape.addr_ne {L : Layout} {top : Nat} {F A : Finset Nat} {nx sz : Nat → Nat}
    (hs : Shape L top F A nx sz) (hL : L.ok) (htop : top ≤ POOL_SIZE) {x y : Nat}
    (hx : x ∈ F ∨ x ∈ A) (hy : y ∈ F ∨ y ∈ A) : x ≠ y + 8 := by
  have n1 := hs.node hL htop hx
  have n2 := hs.node hL htop hy
  obtain ⟨l1, l2, l3, l4, l5⟩ := hL
  simp only [QUANTUM_eq, POOL_SIZE_eq, SIZE_MOD_eq] at *
  omega

theorem Shape.lt_mod {L : Layout} {top : Nat} {F A : Finset Nat} {nx sz : Nat → Nat}
    (hs : Shape L top F A nx sz) (hL : L.ok) (htop : top ≤ POOL_SIZE) {x : Nat}
    (hx : x ∈ F ∨ x ∈ A) : 0 < x ∧ x + 32 * sz x < SIZE_MOD ∧ sz x ≤ 33554432 := by
  have n1 := hs.node hL htop hx
  obtain ⟨l1, l2, l3, l4, l5⟩ := hL
  simp only [QUANTUM_eq, POOL_SIZE_eq, SIZE_MOD_eq] at *
  omega

/-- The header fields after the two joins of `hackweekmgr_free`. -/
theorem freed_fields {L : Layout} {s : State} {top : Nat} {F A : Finset Nat} {b p : Nat}
    (hs : Shape L top F A (nxOf s) (szOf s)) (hL : L.ok)
    (htop : top ≤ POOL_SIZE) (hb : b ∈ A) (hp : p ∈ F) :
    (∀ x, (x ∈ F ∨ x ∈ A) → x ≠ b → x ≠ p →
      nxOf (freedState s b p) x = nxOf s x ∧ szOf (freedState s b p) x = szOf s x) ∧
    (nxOf (freedState s b p) b =
      if b + QUANTUM * szOf s b = nxOf s p then nxOf s (nxOf s p) else nxOf s p) ∧
    (szOf (freedState s b p) b =
      if b + QUANTUM * szOf s b = nxOf s p then szOf s b + szOf s (nxOf s p) else szOf s b) ∧
    (nxOf (freedState s b p) p =
      if p + QUANTUM * szOf s p = b then nxOf (freedState s b p) b else b) ∧
    (szOf (freedState s b p) p =
      if p + QUANTUM * szOf s p = b then szOf s p + szOf (freedState s b p) b
      else szOf s p) := by
  have hbF : b ∉ F := hs.disj b hb
  have hu : nxOf s p ∈ F := ring_next_mem hs.ring hp
  have nb := hs.node hL htop (Or.inr hb)
  have np := hs.node hL htop (Or.inl hp)
  have nu := hs.node hL htop (Or.inl hu)
  have lb := hs.lt_mod hL htop (Or.inr hb)
  have lp := hs.lt_mod hL htop (Or.inl hp)
  have lu := hs.lt_mod hL htop (Or.inl hu)
  have hpb : p ≠ b := fun e => hbF (e ▸ hp)
  have hub : nxOf s p ≠ b := fun e => hbF (e ▸ hu)
  have a1 : p ≠ b + 8 := hs.addr_ne hL htop (Or.inl hp) (Or.inr hb)
  have a2 : b ≠ p + 8 := hs.addr_ne hL htop (Or.inr hb) (Or.inl hp)
  have a3 : s.mem p ≠ b + 8 := hs.addr_ne hL htop (Or.inl hu) (Or.inr hb)
  have hbb : b ≠ L.base := by
    rcases nb with ⟨_, _, h⟩ | h
    · exact absurd h hbF
    · exact h.2.1
  -- the header fields after the call
  have e_other : ∀ x, (x ∈ F ∨ x ∈ A) → x ≠ b → x ≠ p →
      nxOf (freedState s b p) x = nxOf s x ∧ szOf (freedState s b p) x = szOf s x := by
    intro x hx hxb hxp
    have c1 : x ≠ b + 8 := hs.addr_ne hL htop hx (Or.inr hb)
    have c2 : x ≠ p + 8 := hs.addr_ne hL htop hx (Or.inl hp)
    have c3 : b ≠ x + 8 := hs.addr_ne hL htop (Or.inr hb) hx
    have c4 : p ≠ x + 8 := hs.addr_ne hL htop (Or.inl hp) hx
    constructor
    · exact join_frame hxb c1 hxp c2
    · have d1 : x + 8 ≠ b + 8 := by omega
      have d2 : x + 8 ≠ p + 8 := by omega
      exact join_frame (fun e => c3 e.symm) d1 (fun e => c4 e.symm) d2
  have hAb : hdrAdd b (s.mem (b + 8)) = b + QUANTUM * s.mem (b + 8) :=
    hdrAdd_of_lt (by simpa [QUANTUM_eq] using lb.2.1)
  have hAp : hdrAdd p (joinUpper s.mem b p (p + 8)) = p + QUANTUM * s.mem (p + 8) := by
    rw [joinUpper_frame (by omega) (by omega)]
    exact hdrAdd_of_lt (by simpa [QUANTUM_eq] using lp.2.1)
  have e_nb : nxOf (freedState s b p) b =
      if b + QUANTUM * szOf s b = nxOf s p then nxOf s (nxOf s p) else nxOf s p := by
    show joinLower (joinUpper s.mem b p) b p b =
      if b + QUANTUM * s.mem (b + 8) = s.mem p then s.mem (s.mem p) else s.mem p
    rw [joinLower_frame (fun e => hpb e.symm) a2, joinUpper_next a1 a3, hAb]
  have e_sb : szOf (freedState s b p) b =
      if b + QUANTUM * szOf s b = nxOf s p then szOf s b + szOf s (nxOf s p) else szOf s b := by
    show joinLower (joinUpper s.mem b p) b p (b + 8) =
      if b + QUANTUM * s.mem (b + 8) = s.mem p then s.mem (b + 8) + s.mem (s.mem p + 8)
      else s.mem (b + 8)
    rw [joinLower_frame (fun e => a1 e.symm) (by omega), joinUpper_size, hAb]
    split_ifs with h
    · have : s.mem (b + 8) + s.mem (s.mem p + 8) < SIZE_MOD := by
        have h1 := lb.2.2
        have h2 := lu.2.2
        simp only [SIZE_MOD_eq, szOf, nxOf, sizeAddr, nextAddr] at *
        omega
      exact wrap_of_lt this
    · rfl
  have e_np : nxOf (freedState s b p) p =
      if p + QUANTUM * szOf s p = b then nxOf (freedState s b p) b else b := by
    rw [e_nb]
    show joinLower (joinUpper s.mem b p) b p p =
      if p + QUANTUM * s.mem (p + 8) = b then
        (if b + QUANTUM * s.mem (b + 8) = s.mem p then s.mem (s.mem p) else s.mem p)
      else b
    rw [joinLower_next a2, hAp, joinUpper_next a1 a3, hAb]
  have e_sp : szOf (freedState s b p) p =
      if p + QUANTUM * szOf s p = b then szOf s p + szOf (freedState s b p) b else szOf s p := by
    rw [e_sb]
    show joinLower (joinUpper s.mem b p) b p (p + 8) =
      if p + QUANTUM * s.mem (p + 8) = b then
        s.mem (p + 8) +
          (if b + QUANTUM * s.mem (b + 8) = s.mem p then s.mem (b + 8) + s.mem (s.mem p + 8)
           else s.mem (b + 8))
      else s.mem (p + 8)
    rw [joinLower_size, hAp, joinUpper_size, hAb, joinUpper_frame (by omega) (by omega)]
    split_ifs with h1 h2
    · have : s.mem (p + 8) + wrap (s.mem (b + 8) + s.mem (s.mem p + 8)) < SIZE_MOD := by
        have h1 := lb.2.2
        have h2 := lu.2.2
        have h3 := lp.2.2
        simp only [SIZE_MOD_eq, szOf, nxOf, sizeAddr, nextAddr, wrap] at *
        omega
      rw [wrap_of_lt this]
      have : s.mem (b + 8) + s.mem (s.mem p + 8) < SIZE_MOD := by
        have h1 := lb.2.2
        have h2 := lu.2.2
        simp only [SIZE_MOD_eq, szOf, nxOf, sizeAddr, nextAddr] at *
        omega
      rw [wrap_of_lt this]
    · have : s.mem (p + 8) + s.mem (b + 8) < SIZE_MOD := by
        have h1 := lb.2.2
        have h3 := lp.2.2
        simp only [SIZE_MOD_eq, szOf, nxOf, sizeAddr, nextAddr] at *
        omega
      rw [wrap_of_lt this]
    · rfl
  exact ⟨e_other, e_nb, e_sb, e_np, e_sp⟩

theorem shape_free {L : Layout} {s : State} {top : Nat} {F A : Finset Nat} {b p : Nat}
    (hs : Shape L top F A (nxOf s) (szOf s)) (hL : L.ok)
    (htop : top ≤ POOL_SIZE) (hb : b ∈ A) (hp : p ∈ F)
    (hc : InsCond (nxOf s) b p) :
    Shape L top (freeSet s F b p) (A.erase b)
      (nxOf (freedState s b p)) (szOf (freedState s b p)) := by
  have hbF : b ∉ F := hs.disj b hb
  have hu : nxOf s p ∈ F := ring_next_mem hs.ring hp
  have nb := hs.node hL htop (Or.inr hb)
  have hpb : p ≠ b := fun e => hbF (e ▸ hp)
  have hub : nxOf s p ≠ b := fun e => hbF (e ▸ hu)
  have hbb : b ≠ L.base := by
    rcases nb with ⟨_, _, h⟩ | h
    · exact absurd h hbF
    · exact h.2.1
  obtain ⟨e_other, e_nb, e_sb, e_np, e_sp⟩ := freed_fields hs hL htop hb hp
  -- phase 0: link the block at its insertion point
  let nx0 : Nat → Nat := fun x => if x = b then nxOf s p else if x = p then b else nxOf s x
  have sh0 : Shape L top (insert b F) (A.erase b) nx0 (szOf s) :=
    shape_release hs hb hp hc (by simp [nx0]) (by simp [nx0, hpb])
      (fun a ha hap => by
        have : a ≠ b := fun e => hbF (e ▸ ha)
        simp [nx0, this, hap]) (fun _ _ => rfl)
  have hbF0 : b ∈ insert b F := Finset.mem_insert_self _ _
  have hpF0 : p ∈ insert b F := Finset.mem_insert_of_mem hp
  have mem0 : ∀ a, (a ∈ insert b F ∨ a ∈ A.erase b) → (a ∈ F ∨ a ∈ A) := by
    intro a ha
    rcases ha with h | h
    · rcases Finset.mem_insert.1 h with e | e
      · exact Or.inr (e ▸ hb)
      · exact Or.inl e
    · exact Or.inr (Finset.mem_of_mem_erase h)
  unfold freeSet
  by_cases up : b + QUANTUM * szOf s b = nxOf s p
  · -- phase 1: absorb the upper neighbour
    let nx1 : Nat → Nat := fun x => if x = b then nxOf s (nxOf s p) else nx0 x
    let sz1 : Nat → Nat := fun x => if x = b then szOf s b + szOf s (nxOf s p) else szOf s x
    have hpu : p ≠ nxOf s p := by
      intro e
      by_cases hpB : p = L.base
      · obtain ⟨l1, l2, l3, l4, l5⟩ := hL
        rw [← e, hpB] at up
        rcases nb with ⟨h, _⟩ | h
        · exact hbb h
        · simp only [QUANTUM_eq, POOL_SIZE_eq, SIZE_MOD_eq] at *
          omega
      · exact ring_next_ne hs.ring hp hs.base_mem (fun h => hpB h.symm) e.symm
    have sh1 : Shape L top ((insert b F).erase (nxOf s p)) (A.erase b) nx1 sz1 := by
      refine shape_merge sh0 hL htop hbF0 hbb (by simp [nx0]) up ?_ ?_ (by simp [sz1]) ?_
      · simp [nx1, nx0, hub, hpu.symm]
      · intro a _ hab _
        simp [nx1, hab]
      · intro a _ hab _
        simp [sz1, hab]
    have hpF1 : p ∈ (insert b F).erase (nxOf s p) := Finset.mem_erase.2 ⟨hpu, hpF0⟩
    rw [if_pos up] at e_nb e_sb
    by_cases lo : p + QUANTUM * szOf s p = b
    · rw [if_pos lo, if_pos up]
      rw [if_pos lo] at e_np e_sp
      have hpbase : p ≠ L.base := by
        intro e
        rw [e, hs.base_size] at lo
        exact hbb (by omega)
      have sh2 : Shape L top (((insert b F).erase (nxOf s p)).erase b) (A.erase b)
          (nxOf (freedState s b p)) (szOf (freedState s b p)) := shape_merge
        (y := b) sh1 hL htop hpF1 hpbase (by simp [nx1, nx0, hpb]) (by simpa [sz1, hpb] using lo)
        (by rw [e_np, e_nb]; simp [nx1]) ?_ (by rw [e_sp, e_sb]; simp [sz1, hpb]) ?_
      · have hset : ((insert b F).erase (nxOf s p)).erase b = F.erase (nxOf s p) := by
          ext x
          simp only [Finset.mem_erase, Finset.mem_insert]
          constructor
          · rintro ⟨h1, h2, h3 | h3⟩
            · exact absurd h3 h1
            · exact ⟨h2, h3⟩
          · rintro ⟨h1, h2⟩
            exact ⟨fun e => hbF (e ▸ h2), h1, Or.inr h2⟩
        rw [hset] at sh2
        exact sh2
      · intro a ha hap hab
        have haF : a ∈ F := by
          rcases Finset.mem_insert.1 (Finset.mem_of_mem_erase ha) with e | e
          · exact absurd e hab
          · exact e
        rw [(e_other a (Or.inl haF) hab hap).1]
        simp [nx1, nx0, hab, hap]
      · intro a ha hap hab
        have := mem0 a (ha.imp Finset.mem_of_mem_erase id)
        rw [(e_other a this hab hap).2]
        simp [sz1, hab]
    · rw [if_neg lo, if_pos up]
      rw [if_neg lo] at e_np e_sp
      rw [← Finset.erase_insert_of_ne (fun e => hub e.symm)]
      refine shape_congr sh1 ?_ ?_
      · intro a ha
        by_cases hab : a = b
        · subst hab; rw [e_nb]; simp [nx1]
        · by_cases hap : a = p
          · subst hap; rw [e_np]; simp [nx1, nx0, hab]
          · have haF : a ∈ F := by
              rcases Finset.mem_insert.1 (Finset.mem_of_mem_erase ha) with e | e
              · exact absurd e hab
              · exact e
            rw [(e_other a (Or.inl haF) hab hap).1]
            simp [nx1, nx0, hab, hap]
      · intro a ha
        by_cases hab : a = b
        · subst hab; rw [e_sb]; simp [sz1]
        · by_cases hap : a = p
          · subst hap; rw [e_sp]; simp [sz1, hab]
          · have := mem0 a (ha.imp Finset.mem_of_mem_erase id)
            rw [(e_other a this hab hap).2]
            simp [sz1, hab]
  · rw [if_neg up] at e_nb e_sb
    by_cases lo : p + QUANTUM * szOf s p = b
    · rw [if_pos lo, if_neg up]
      rw [if_pos lo] at e_np e_sp
      have hpbase : p ≠ L.base := by
        intro e
        rw [e, hs.base_size] at lo
        exact hbb (by omega)
      have sh2 : Shape L top ((insert b F).erase b) (A.erase b)
          (nxOf (freedState s b p)) (szOf (freedState s b p)) := shape_merge
        (y := b) sh0 hL htop hpF0 hpbase (by simp [nx0, hpb]) lo
        (by rw [e_np, e_nb]; simp [nx0]) ?_ (by rw [e_sp, e_sb]) ?_
      · have hset : (insert b F).erase b = F := Finset.erase_insert hbF
        rw [hset] at sh2
        exact sh2
      · intro a ha hap hab
        have haF : a ∈ F := by
          rcases Finset.mem_insert.1 ha with e | e
          · exact absurd e hab
          · exact e
        rw [(e_other a (Or.inl haF) hab hap).1]
        simp [nx0, hab, hap]
      · intro a ha hap hab
        have := mem0 a ha
        rw [(e_other a this hab hap).2]
    · rw [if_neg lo, if_neg up]
      rw [if_neg lo] at e_np e_sp
      refine shape_congr sh0 ?_ ?_
      · intro a ha
        by_cases hab : a = b
        · subst hab; rw [e_nb]; simp [nx0]
        · by_cases hap : a = p
          · subst hap; rw [e_np]; simp [nx0, hab]
          · have haF : a ∈ F := by
              rcases Finset.mem_insert.1 ha with e | e
              · exact absurd e hab
              · exact e
            rw [(e_other a (Or.inl haF) hab hap).1]
            simp [nx0, hab, hap]
      · intro a ha
        by_cases hab : a = b
        · subst hab; rw [e_sb]
        · by_cases hap : a = p
          · subst hap; rw [e_sp]
          · have := mem0 a ha
            rw [(e_other a this hab hap).2]

/-- The insertion point stays in the free list. -/
theorem freeSet_mem {L : Layout} {s : State} {top : Nat} {F A : Finset Nat} {b p : Nat}
    (hs : Shape L top F A (nxOf s) (szOf s)) (hL : L.ok)
    (htop : top ≤ POOL_SIZE) (hb : b ∈ A) (hp : p ∈ F) : p ∈ freeSet s F b p := by
  have nb := hs.node hL htop (Or.inr hb)
  have hbF : b ∉ F := hs.disj b hb
  have hpu : b + QUANTUM * szOf s b = nxOf s p → p ≠ nxOf s p := by
    intro up e
    by_cases hpB : p = L.base
    · obtain ⟨l1, l2, l3, l4, l5⟩ := hL
      rw [← e, hpB] at up
      rcases nb with ⟨_, _, h⟩ | h
      · exact hbF h
      · simp only [QUANTUM_eq, POOL_SIZE_eq, SIZE_MOD_eq] at *
        omega
    · exact ring_next_ne hs.ring hp hs.base_mem (fun h => hpB h.symm) e.symm
  unfold freeSet
  split_ifs with h1 h2 h2
  · exact Finset.mem_erase.2 ⟨hpu h2, hp⟩
  · exact hp
  · exact Finset.mem_insert_of_mem (Finset.mem_erase.2 ⟨hpu h2, hp⟩)
  · exact Finset.mem_insert_of_mem hp

/-- Release of an allocated block: the call returns, and the heap keeps its shape. -/
theorem free_core {L : Layout} {s : State} {top : Nat} {F A : Finset Nat} {b : Nat} (fuel : Nat)
    (hL : L.ok) (htop : top ≤ POOL_SIZE) (hs : Shape L top F A (nxOf s) (szOf s))
    (hfp : s.freep ∈ F) (hb : b ∈ A) (hf : F.card ≤ fuel)
    (hlt : b + QUANTUM < L.pool + POOL_SIZE) :
    ∃ p ∈ F, InsCond (nxOf s) b p ∧
      hackweekmgr_free L fuel s (b + QUANTUM) = .ok (freedState s b p) ∧
      p ∈ freeSet s F b p ∧
      Shape L top (freeSet s F b p) (A.erase b)
        (nxOf (freedState s b p)) (szOf (freedState s b p)) := by
  have hbF : b ∉ F := hs.disj b hb
  have hB : ∀ c ∈ F, c < SIZE_MOD := by
    intro c hc
    have := (hs.lt_mod hL htop (Or.inl hc)).2.1
    omega
  have h0 : ∀ c ∈ F, c ≠ 0 := by
    intro c hc
    have := (hs.lt_mod hL htop (Or.inl hc)).1
    omega
  obtain ⟨t, ht, hct⟩ := exists_insCond hs.ring ⟨_, hfp⟩ hbF
  obtain ⟨p, hp, hfind, hc⟩ := findInsert_spec (m := s.mem) hB h0 hs.ring ht hct fuel s.freep hfp
    (lt_of_lt_of_le (nearer_card_lt t s.freep hfp) hf)
  refine ⟨p, hp, hc, ?_, freeSet_mem hs hL htop hb hp, shape_free hs hL htop hb hp hc⟩
  have nb := hs.node hL htop (Or.inr hb)
  have lb := hs.lt_mod hL htop (Or.inr hb)
  have hu : nxOf s p ∈ F := ring_next_mem hs.ring hp
  have lu := hs.lt_mod hL htop (Or.inl hu)
  obtain ⟨l1, l2, l3, l4, l5⟩ := hL
  have hend : wrap (POOL_SIZE + L.pool) = L.pool + POOL_SIZE := by
    rw [Nat.add_comm]; exact wrap_of_lt l2
  have hpred : hdrPred (b + QUANTUM) = b := by
    rw [hdrPred_of_le (by omega) (by
      simp only [QUANTUM_eq, POOL_SIZE_eq, SIZE_MOD_eq] at *; omega)]
    omega
  have hgt : b + QUANTUM > L.pool := by
    rcases nb with ⟨_, _, h⟩ | h
    · exact absurd h hbF
    · simp only [QUANTUM_eq] at *; omega
  unfold hackweekmgr_free
  simp only [hend, hpred]
  rw [if_neg (by simp only [not_not]; exact ⟨hlt, hgt⟩),
    if_neg (by simp only [QUANTUM_eq]; omega), hfind]
  simp only
  rw [if_neg]
  · rfl
  · rintro ⟨_, h⟩
    have : nxOf s p = 0 := h
    omega

/-! ## The two ways `hackweekmgr_alloc` hands out a free block -/

theorem WF.wnode {L : Layout} {s : State} {F A : Finset Nat} (hw : WF L s F A) {x : Nat}
    (hx : x ∈ F ∨ x ∈ A) :
    (x = L.base ∧ szOf s x = 0 ∧ x ∈ F) ∨
    (Hdr L F A x ∧ x ≠ L.base ∧ L.pool ≤ x ∧ (x - L.pool) % 32 = 0 ∧ 1 ≤ szOf s x ∧
      x + 32 * szOf s x ≤ L.pool + s.pool_free_pos) :=
  hw.shape.node hw.layout hw.pfp_le hx

theorem wf_takeExact {L : Layout} {s : State} {F A : Finset Nat} {nq pq q : Nat}
    (hw : WF L s F A) (hq : q ∈ F) (hpq : pq ∈ F) (hn : nxOf s pq = q)
    (hsz : szOf s q = nq) (hnq : 1 ≤ nq) :
    (takeExact s pq q).1 = q + QUANTUM ∧
    (takeExact s pq q).2.pool_free_pos = s.pool_free_pos ∧
    WF L (takeExact s pq q).2 (F.erase q) (insert q A) := by
  have hs := hw.shape
  have hL := hw.layout
  have htop := hw.pfp_le
  have hqb : q ≠ L.base := by
    intro e
    rw [e, hs.base_size] at hsz
    omega
  have lq := hs.lt_mod hL htop (Or.inl hq)
  have hne : q ≠ pq := by
    intro e
    subst e
    exact ring_next_ne hs.ring hq hs.base_mem (fun e => hqb e.symm) hn
  refine ⟨?_, rfl, ⟨hL, htop, hw.pfp_al, Finset.mem_erase.2 ⟨fun e => hne e.symm, hpq⟩, ?_⟩⟩
  · show hdrAdd q 1 = q + QUANTUM
    rw [hdrAdd_of_lt (by simp only [QUANTUM_eq, SIZE_MOD_eq] at *; omega), Nat.mul_one]
  · refine shape_take hs hq hqb hpq hn ?_ ?_ ?_
    · show store s.mem (nextAddr pq) (s.mem (nextAddr q)) (nextAddr pq) = _
      rw [store_same]; rfl
    · intro a _ hap _
      show store s.mem pq (s.mem q) a = s.mem a
      rw [store_ne hap]
    · intro x hx
      show store s.mem pq (s.mem q) (x + 8) = s.mem (x + 8)
      have : pq ≠ x + 8 := hs.addr_ne hL htop (Or.inl hpq) hx
      rw [store_ne (fun e => this e.symm)]

/-- The tail cut off a free block is a new address. -/
theorem WF.split_fresh {L : Layout} {s : State} {F A : Finset Nat} (hw : WF L s F A) {q j x : Nat}
    (hq : q ∈ F) (hqb : q ≠ L.base) (hj1 : 1 ≤ j) (hj2 : j < szOf s q)
    (hx : x ∈ F ∨ x ∈ A) : x ≠ q + QUANTUM * j ∧ x ≠ q + QUANTUM * j + 8 ∧
      x + 8 ≠ q + QUANTUM * j := by
  have hs := hw.shape
  have hHq : Hdr L F A q := Or.inl ⟨hq, hqb⟩
  have nq := hw.wnode (Or.inl hq)
  have nx1 := hw.wnode hx
  have hL := hw.layout
  have htop := hw.pfp_le
  obtain ⟨l1, l2, l3, l4, l5⟩ := hL
  rcases nx1 with ⟨e1, _, _⟩ | ⟨hHx, _, _, _, _, _⟩
  · simp only [QUANTUM_eq, POOL_SIZE_eq, SIZE_MOD_eq] at *
    omega
  · have s1 := hs.tiling.2 q x hHq hHx
    have s2 := hs.tiling.2 x q hHx hHq
    simp only [QUANTUM_eq, POOL_SIZE_eq, SIZE_MOD_eq] at *
    omega

theorem wf_takeSplit {L : Layout} {s : State} {F A : Finset Nat} {nq pq q : Nat}
    (hw : WF L s F A) (hq : q ∈ F) (hpq : pq ∈ F)
    (hsz : nq < szOf s q) (hnq : 1 ≤ nq) :
    (takeSplit s nq pq q).1 = q + QUANTUM * (szOf s q - nq) + QUANTUM ∧
    (takeSplit s nq pq q).2.pool_free_pos = s.pool_free_pos ∧
    szOf (takeSplit s nq pq q).2 (q + QUANTUM * (szOf s q - nq)) = nq ∧
    WF L (takeSplit s nq pq q).2 F (insert (q + QUANTUM * (szOf s q - nq)) A) := by
  have hs := hw.shape
  have hL := hw.layout
  have htop := hw.pfp_le
  have hqb : q ≠ L.base := by
    intro e
    rw [e, hs.base_size] at hsz
    omega
  have lq := hs.lt_mod hL htop (Or.inl hq)
  have e1 : wrap (SIZE_MOD + s.mem (sizeAddr q) - nq) = szOf s q - nq := by
    unfold wrap
    have : SIZE_MOD + s.mem (sizeAddr q) - nq = (szOf s q - nq) + SIZE_MOD := by
      show SIZE_MOD + szOf s q - nq = _
      omega
    rw [this, Nat.add_mod_right]
    exact Nat.mod_eq_of_lt (by simp only [SIZE_MOD_eq] at *; omega)
  have e2 : hdrAdd q (szOf s q - nq) = q + QUANTUM * (szOf s q - nq) :=
    hdrAdd_of_lt (by simp only [QUANTUM_eq, SIZE_MOD_eq] at *; omega)
  have e3 : hdrAdd (q + QUANTUM * (szOf s q - nq)) 1 = q + QUANTUM * (szOf s q - nq) + QUANTUM := by
    rw [hdrAdd_of_lt (by simp only [QUANTUM_eq, SIZE_MOD_eq] at *; omega), Nat.mul_one]
  have hmem : (takeSplit s nq pq q).2.mem =
      store (store s.mem (q + 8) (szOf s q - nq)) (q + QUANTUM * (szOf s q - nq) + 8) nq := by
    show store (store s.mem (sizeAddr q) (wrap (SIZE_MOD + s.mem (sizeAddr q) - nq)))
      (sizeAddr (hdrAdd q (store s.mem (sizeAddr q)
        (wrap (SIZE_MOD + s.mem (sizeAddr q) - nq)) (sizeAddr q)))) nq = _
    rw [store_same, e1, e2]
    rfl
  have hptr : (takeSplit s nq pq q).1 = q + QUANTUM * (szOf s q - nq) + QUANTUM := by
    show hdrAdd (hdrAdd q (store s.mem (sizeAddr q)
        (wrap (SIZE_MOD + s.mem (sizeAddr q) - nq)) (sizeAddr q))) 1 = _
    rw [store_same, e1, e2, e3]
  have hsz2 : szOf (takeSplit s nq pq q).2 (q + QUANTUM * (szOf s q - nq)) = nq := by
    show (takeSplit s nq pq q).2.mem (q + QUANTUM * (szOf s q - nq) + 8) = nq
    rw [hmem, store_same]
  refine ⟨hptr, rfl, hsz2, ⟨hL, htop, hw.pfp_al, hpq, ?_⟩⟩
  refine shape_split hs hL htop hq hqb hnq hsz ?_ hsz2 ?_ ?_
  · show (takeSplit s nq pq q).2.mem (q + 8) = _
    rw [hmem, store_ne (by simp only [QUANTUM_eq]; omega), store_same]
  · intro x hx hxq
    have f := hw.split_fresh hq hqb (show 1 ≤ szOf s q - nq by omega)
      (show szOf s q - nq < szOf s q by omega) hx
    show (takeSplit s nq pq q).2.mem (x + 8) = _
    rw [hmem, store_ne (by omega), store_ne (by omega)]
    rfl
  · intro a ha
    have f := hw.split_fresh hq hqb (show 1 ≤ szOf s q - nq by omega)
      (show szOf s q - nq < szOf s q by omega) (Or.inl ha)
    have g : a ≠ q + 8 := hs.addr_ne hL htop (Or.inl ha) (Or.inl hq)
    show (takeSplit s nq pq q).2.mem a = _
    rw [hmem, store_ne f.2.1, store_ne g]
    rfl

/-! ## The search loop of `hackweekmgr_alloc` -/

theorem WF.mem_lt {L : Layout} {s : State} {F A : Finset Nat} (hw : WF L s F A) :
    ∀ c ∈ F, c < SIZE_MOD := by
  intro c hc
  have := (hw.shape.lt_mod hw.layout hw.pfp_le (Or.inl hc)).2.1
  omega

theorem WF.ne_zero {L : Layout} {s : State} {F A : Finset Nat} (hw : WF L s F A) :
    ∀ c ∈ F, c ≠ 0 := by
  intro c hc
  have := (hw.shape.lt_mod hw.layout hw.pfp_le (Or.inl hc)).1
  omega

theorem allocLoop_hit {L : Layout} {s : State} {nq ff fuel prevp p : Nat} (hp : p ≠ 0)
    (hfit : nq ≤ s.mem (sizeAddr p)) :
    allocLoop L ff nq (fuel + 1) s prevp p = .ok (allocResult s nq prevp p) := by
  unfold allocLoop allocResult
  rw [if_neg hp, if_pos hfit]
  split_ifs <;> rfl

theorem allocLoop_next {L : Layout} {s : State} {nq ff fuel prevp p : Nat} (hp : p ≠ 0)
    (hfit : ¬ nq ≤ s.mem (sizeAddr p)) (hfp : p ≠ s.freep) :
    allocLoop L ff nq (fuel + 1) s prevp p = allocLoop L ff nq fuel s p (s.mem (nextAddr p)) := by
  conv_lhs => unfold allocLoop
  rw [if_neg hp, if_neg hfit, if_neg hfp]

theorem allocLoop_claim {L : Layout} {s : State} {nq ff fuel prevp p : Nat} (hp : p ≠ 0)
    (hfit : ¬ nq ≤ s.mem (sizeAddr p)) (hfp : p = s.freep) :
    allocLoop L ff nq (fuel + 1) s prevp p = claimStep L ff nq fuel s := by
  conv_lhs => unfold allocLoop
  rw [if_neg hp, if_neg hfit, if_pos hfp]
  rfl

/-- When some free block fits, the loop hands out the first fitting block in
ring order and makes no pool claim. -/
theorem allocLoop_fit {L : Layout} {s : State} {F A : Finset Nat} {nq f : Nat} (ff : Nat)
    (hw : WF L s F A) (hf : f ∈ F) (hfit : nq ≤ szOf s f) :
    ∀ fuel prevp, prevp ∈ F → cdist (nxOf s prevp) f ≤ cdist (nxOf s prevp) s.freep →
      (nearer F f (nxOf s prevp)).card < fuel →
      ∃ pq q, pq ∈ F ∧ q ∈ F ∧ nxOf s pq = q ∧ nq ≤ szOf s q ∧
        (∀ c ∈ F, cdist (nxOf s prevp) c < cdist (nxOf s prevp) q → szOf s c < nq) ∧
        allocLoop L ff nq fuel s prevp (nxOf s prevp) = .ok (allocResult s nq pq q) := by
  have hB := hw.mem_lt
  have h0 := hw.ne_zero
  have hR := hw.shape.ring
  intro fuel
  induction fuel with
  | zero => intro _ _ _ h; omega
  | succ fuel ih =>
    intro prevp hprev hrange hcard
    have hp : nxOf s prevp ∈ F := ring_next_mem hR hprev
    by_cases hit : nq ≤ szOf s (nxOf s prevp)
    · refine ⟨prevp, nxOf s prevp, hprev, hp, rfl, hit, ?_, allocLoop_hit (h0 _ hp) hit⟩
      intro c _ hc
      rw [cdist_self] at hc
      omega
    · have hpf : f ≠ nxOf s prevp := fun e => hit (e ▸ hfit)
      have hpfr : nxOf s prevp ≠ s.freep := by
        intro e
        rw [← e, cdist_self] at hrange
        exact hpf (cdist_eq_zero (hB _ hp) (by omega)).symm
      have hs := hR _ hp
      have d1 := cdist_split hB hp hs hf hpf
      have d2 := cdist_split hB hp hs hw.freep_mem (fun e => hpfr e.symm)
      have hstep := nearer_step hB hR hp hf hpf
      obtain ⟨pq, q, hpq, hq, hn, hqfit, hfirst, hres⟩ :=
        ih (nxOf s prevp) hp (by omega) (by omega)
      refine ⟨pq, q, hpq, hq, hn, hqfit, ?_, ?_⟩
      · intro c hc hlt
        by_cases hcp : c = nxOf s prevp
        · rw [hcp]; omega
        · have hqp : q ≠ nxOf s prevp := fun e => hit (e ▸ hqfit)
          have d3 := cdist_split hB hp hs hc hcp
          have d4 := cdist_split hB hp hs hq hqp
          exact hfirst c hc (by omega)
      · rw [allocLoop_next (h0 _ hp) hit hpfr]
        exact hres

/-- When no free block fits, the loop walks on to `freep` and turns to the pool. -/
theorem allocLoop_nofit {L : Layout} {s : State} {F A : Finset Nat} {nq : Nat} (ff fuel : Nat)
    (hw : WF L s F A) (hno : ∀ c ∈ F, szOf s c < nq) :
    ∀ j prevp, prevp ∈ F → (nearer F s.freep (nxOf s prevp)).card ≤ j →
      ∃ fuel', fuel ≤ fuel' ∧
        allocLoop L ff nq (j + 1 + fuel) s prevp (nxOf s prevp) = claimStep L ff nq fuel' s := by
  have hB := hw.mem_lt
  have h0 := hw.ne_zero
  have hR := hw.shape.ring
  intro j
  induction j with
  | zero =>
    intro prevp hprev hcard
    have hp : nxOf s prevp ∈ F := ring_next_mem hR hprev
    have hit : ¬ nq ≤ s.mem (sizeAddr (nxOf s prevp)) := by
      have := hno _ hp
      show ¬ nq ≤ szOf s (nxOf s prevp)
      omega
    have hpfr : nxOf s prevp = s.freep := by
      by_contra hne
      have : s.freep ∈ nearer F s.freep (nxOf s prevp) := by
        simp only [nearer, Finset.mem_filter, cdist_self]
        refine ⟨hw.freep_mem, ?_⟩
        by_contra hcon
        exact hne (cdist_eq_zero (hB _ hp) (by omega))
      have := Finset.card_pos.2 ⟨_, this⟩
      omega
    exact ⟨fuel, le_refl _, by rw [Nat.zero_add, Nat.add_comm]; exact allocLoop_claim (h0 _ hp) hit hpfr⟩
  | succ j ih =>
    intro prevp hprev hcard
    have hp : nxOf s prevp ∈ F := ring_next_mem hR hprev
    have hit : ¬ nq ≤ s.mem (sizeAddr (nxOf s prevp)) := by
      have := hno _ hp
      show ¬ nq ≤ szOf s (nxOf s prevp)
      omega
    by_cases hpfr : nxOf s prevp = s.freep
    · refine ⟨j + 1 + fuel, by omega, ?_⟩
      have e : j + 1 + 1 + fuel = (j + 1 + fuel) + 1 := by omega
      rw [e]
      exact allocLoop_claim (h0 _ hp) hit hpfr
    · have hstep := nearer_step hB hR hp hw.freep_mem (fun e => hpfr e.symm)
      obtain ⟨fuel', hle, hres⟩ := ih (nxOf s prevp) hp (by omega)
      refine ⟨fuel', hle, ?_⟩
      have e : j + 1 + 1 + fuel = (j + 1 + fuel) + 1 := by omega
      rw [e, allocLoop_next (h0 _ hp) hit hpfr]
      exact hres

/-! ## Claims from the pool -/

/-- After a release some free block contains the released block. -/
theorem free_fit {L : Layout} {s : State} {top : Nat} {F A : Finset Nat} {b p : Nat}
    (hs : Shape L top F A (nxOf s) (szOf s)) (hL : L.ok)
    (htop : top ≤ POOL_SIZE) (hb : b ∈ A) (hp : p ∈ F) :
    ∃ f ∈ freeSet s F b p, szOf s b ≤ szOf (freedState s b p) f := by
  obtain ⟨_, _, e_sb, _, e_sp⟩ := freed_fields hs hL htop hb hp
  have hpm := freeSet_mem hs hL htop hb hp
  have hsb : szOf s b ≤ szOf (freedState s b p) b := by
    rw [e_sb]; split_ifs <;> omega
  by_cases lo : p + QUANTUM * szOf s p = b
  · refine ⟨p, hpm, ?_⟩
    rw [e_sp, if_pos lo]
    omega
  · refine ⟨b, ?_, hsb⟩
    unfold freeSet
    rw [if_neg lo]
    split_ifs <;> exact Finset.mem_insert_self _ _

theorem claimQuanta_ge (nq : Nat) : nq ≤ claimQuanta nq ∧ 16 ≤ claimQuanta nq := by
  unfold claimQuanta MIN_POOL_ALLOC_QUANTAS
  split_ifs <;> omega

theorem claimed_pfp (L : Layout) (s : State) (n p : Nat) :
    (claimedState L s n p).pool_free_pos = s.pool_free_pos + QUANTUM * n := rfl

theorem claimed_freep (L : Layout) (s : State) (n p : Nat) :
    (claimedState L s n p).freep = p := rfl

theorem claimed_nx (L : Layout) (s : State) (n p : Nat) :
    nxOf (claimedState L s n p) =
      nxOf (freedState (stampedState L s n) (L.pool + s.pool_free_pos) p) := rfl

theorem claimed_sz (L : Layout) (s : State) (n p : Nat) :
    szOf (claimedState L s n p) =
      szOf (freedState (stampedState L s n) (L.pool + s.pool_free_pos) p) := rfl

theorem get_mem_fail {L : Layout} {s : State} {nq ff : Nat}
    (hpfp : s.pool_free_pos ≤ POOL_SIZE)
    (hq : nq * QUANTUM + POOL_SIZE < SIZE_MOD)
    (hfit : ¬ s.pool_free_pos + QUANTUM * claimQuanta nq ≤ POOL_SIZE) :
    get_mem_from_pool L ff s nq = .ok (0, s) := by
  have hc := claimQuanta_ge nq
  have hcq : claimQuanta nq * QUANTUM + POOL_SIZE < SIZE_MOD := by
    unfold claimQuanta MIN_POOL_ALLOC_QUANTAS at *
    simp only [QUANTUM_eq, POOL_SIZE_eq, SIZE_MOD_eq] at *
    split_ifs <;> omega
  have e1 : wrap (claimQuanta nq * QUANTUM) = claimQuanta nq * QUANTUM := wrap_of_lt (by omega)
  have e2 : wrap (s.pool_free_pos + claimQuanta nq * QUANTUM) =
      s.pool_free_pos + claimQuanta nq * QUANTUM := wrap_of_lt (by omega)
  unfold get_mem_from_pool
  rw [e1, e2, if_neg (by rw [Nat.mul_comm]; exact hfit)]

/-- A claim that fits succeeds: the fresh block is released into the free list
and the cursor of the pool advances by the bytes claimed. -/
theorem get_mem_ok {L : Layout} {s : State} {F A : Finset Nat} {nq ff : Nat}
    (hw : WF L s F A) (hq : nq * QUANTUM + POOL_SIZE < SIZE_MOD)
    (hfit : s.pool_free_pos + QUANTUM * claimQuanta nq ≤ POOL_SIZE) (hff : F.card ≤ ff) :
    ∃ p F', p ∈ F ∧ p ≠ 0 ∧
      get_mem_from_pool L ff s nq = .ok (p, claimedState L s (claimQuanta nq) p) ∧
      WF L (claimedState L s (claimQuanta nq) p) F' A ∧
      F'.card ≤ F.card + 1 ∧
      (∃ f ∈ F', claimQuanta nq ≤ szOf (claimedState L s (claimQuanta nq) p) f) ∧
      (∀ x, Owned s A x → (claimedState L s (claimQuanta nq) p).mem x = s.mem x) ∧
      (∀ l ∈ A, szOf (claimedState L s (claimQuanta nq) p) l = szOf s l) := by
  have hc := claimQuanta_ge nq
  have hL := hw.layout
  have hs := hw.shape
  have htop := hw.pfp_le
  have hcq : claimQuanta nq * QUANTUM + POOL_SIZE < SIZE_MOD := by
    unfold claimQuanta MIN_POOL_ALLOC_QUANTAS at *
    simp only [QUANTUM_eq, POOL_SIZE_eq, SIZE_MOD_eq] at *
    split_ifs <;> omega
  have e1 : wrap (claimQuanta nq * QUANTUM) = claimQuanta nq * QUANTUM := wrap_of_lt (by omega)
  have e2 : wrap (s.pool_free_pos + claimQuanta nq * QUANTUM) =
      s.pool_free_pos + QUANTUM * claimQuanta nq := by
    rw [wrap_of_lt (by omega), Nat.mul_comm]
  obtain ⟨l1, l2, l3, l4, l5⟩ := hL
  have e3 : wrap (L.pool + s.pool_free_pos) = L.pool + s.pool_free_pos := wrap_of_lt (by omega)
  have e4 : hdrAdd (L.pool + s.pool_free_pos) 1 = L.pool + s.pool_free_pos + QUANTUM := by
    rw [hdrAdd_of_lt (by simp only [QUANTUM_eq, POOL_SIZE_eq, SIZE_MOD_eq] at *; omega),
      Nat.mul_one]
  have hst : stampedState L s (claimQuanta nq) =
      { s with mem := store s.mem (L.pool + s.pool_free_pos + 8) (claimQuanta nq) } := by
    unfold stampedState
    rw [e3]
    rfl
  -- the state with the size of the fresh header written
  have hfresh : ∀ x, (x ∈ F ∨ x ∈ A) → x ≠ L.pool + s.pool_free_pos + 8 ∧
      x ≠ L.pool + s.pool_free_pos := by
    intro x hx
    have := hw.wnode hx
    simp only [QUANTUM_eq, POOL_SIZE_eq, SIZE_MOD_eq] at *
    omega
  have sh1 : Shape L (s.pool_free_pos + QUANTUM * claimQuanta nq) F
      (insert (L.pool + s.pool_free_pos) A)
      (nxOf (stampedState L s (claimQuanta nq)))
      (szOf (stampedState L s (claimQuanta nq))) := by
    rw [hst]
    refine shape_claim hs hw.layout hw.pfp_al hfit (by omega) ?_ ?_ ?_
    · show store s.mem (L.pool + s.pool_free_pos + 8) (claimQuanta nq)
        (L.pool + s.pool_free_pos + 8) = _
      rw [store_same]
    · intro x hx
      show store s.mem (L.pool + s.pool_free_pos + 8) (claimQuanta nq) (x + 8) = s.mem (x + 8)
      have := (hfresh x hx).2
      rw [store_ne (by omega)]
    · intro a ha
      show store s.mem (L.pool + s.pool_free_pos + 8) (claimQuanta nq) a = s.mem a
      rw [store_ne (hfresh a (Or.inl ha)).1]
  have hhA : L.pool + s.pool_free_pos ∉ A := fun h => (hfresh _ (Or.inr h)).2 rfl
  obtain ⟨p, hp, _, hfree, hpm, sh2⟩ := free_core ff hw.layout hfit sh1 hw.freep_mem
    (Finset.mem_insert_self _ _) hff
    (by simp only [QUANTUM_eq, POOL_SIZE_eq, SIZE_MOD_eq] at *; omega)
  rw [Finset.erase_insert hhA] at sh2
  obtain ⟨f, hfm, hfs⟩ := free_fit sh1 hw.layout hfit (Finset.mem_insert_self _ _) hp
  have hsz1 : szOf (stampedState L s (claimQuanta nq)) (L.pool + s.pool_free_pos) = claimQuanta nq := by
    rw [hst]
    show store s.mem (L.pool + s.pool_free_pos + 8) (claimQuanta nq)
        (L.pool + s.pool_free_pos + 8) = _
    rw [store_same]
  rw [hsz1] at hfs
  have hal : (s.pool_free_pos + QUANTUM * claimQuanta nq) % QUANTUM = 0 := by
    have := hw.pfp_al
    simp only [QUANTUM_eq] at *
    omega
  have hwf : WF L (claimedState L s (claimQuanta nq) p)
      (freeSet (stampedState L s (claimQuanta nq)) F (L.pool + s.pool_free_pos) p) A := by
    refine ⟨hw.layout, ?_, ?_, ?_, ?_⟩
    · rw [claimed_pfp]; exact hfit
    · rw [claimed_pfp]; exact hal
    · rw [claimed_freep]; exact hpm
    · rw [claimed_pfp, claimed_nx, claimed_sz]; exact sh2
  have hget : get_mem_from_pool L ff s nq = .ok (p, claimedState L s (claimQuanta nq) p) := by
    unfold get_mem_from_pool
    rw [e1, e2, if_pos hfit, e3, e4, hfree]
    simp only [claimedState, freedState, stampedState]
    rw [e2]
  have hmem : (claimedState L s (claimQuanta nq) p).mem =
      joinLower (joinUpper (store s.mem (L.pool + s.pool_free_pos + 8) (claimQuanta nq))
        (L.pool + s.pool_free_pos) p) (L.pool + s.pool_free_pos) p := by
    unfold claimedState freedState
    rw [hst]
  have hfs' : claimQuanta nq ≤ szOf (claimedState L s (claimQuanta nq) p) f := by
    rw [claimed_sz]; exact hfs
  refine ⟨p, freeSet (stampedState L s (claimQuanta nq)) F (L.pool + s.pool_free_pos) p, hp,
    hw.ne_zero p hp, hget, hwf, ?_, ⟨f, hfm, hfs'⟩, ?_, ?_⟩
  · unfold freeSet
    split_ifs
    · exact le_trans (Finset.card_erase_le) (Nat.le_succ _)
    · exact Nat.le_succ _
    · exact le_trans (Finset.card_insert_le _ _)
        (Nat.succ_le_succ Finset.card_erase_le)
    · exact Finset.card_insert_le _ _
  · rintro x ⟨l, hl, hx1, hx2⟩
    have nl := hw.wnode (Or.inr hl)
    have np := hw.wnode (Or.inl hp)
    have hlF : l ∉ F := hs.disj l hl
    have hlp : l ≠ p := fun e => hlF (e ▸ hp)
    have sep1 := hs.tiling.2 l p (Or.inr hl)
    have sep2 := hs.tiling.2 p l
    rw [hmem]
    have hx3 : x ≠ p ∧ x ≠ p + 8 := by
      rcases nl with ⟨_, _, h⟩ | nl
      · exact absurd h hlF
      rcases np with ⟨e, _, _⟩ | np
      · simp only [QUANTUM_eq, POOL_SIZE_eq, SIZE_MOD_eq] at *
        omega
      · have s1 := sep1 np.1
        have s2 := sep2 np.1 (Or.inr hl)
        simp only [QUANTUM_eq, POOL_SIZE_eq, SIZE_MOD_eq] at *
        omega
    have hx4 : x ≠ L.pool + s.pool_free_pos ∧ x ≠ L.pool + s.pool_free_pos + 8 := by
      rcases nl with ⟨_, _, h⟩ | nl
      · exact absurd h hlF
      simp only [QUANTUM_eq, POOL_SIZE_eq, SIZE_MOD_eq] at *
      omega
    rw [join_frame hx4.1 hx4.2 hx3.1 hx3.2, store_ne hx4.2]
  · intro l hl
    have hlF : l ∉ F := hs.disj l hl
    have hlp : l ≠ p := fun e => hlF (e ▸ hp)
    have hl1 : l ∈ F ∨ l ∈ insert (L.pool + s.pool_free_pos) A :=
      Or.inr (Finset.mem_insert_of_mem hl)
    have := (freed_fields sh1 hw.layout hfit (Finset.mem_insert_self _ _) hp).1 l hl1
      (hfresh l (Or.inr hl)).2 hlp
    rw [claimed_sz, this.2, hst]
    show store s.mem (L.pool + s.pool_free_pos + 8) (claimQuanta nq) (l + 8) = s.mem (l + 8)
    have := (hfresh l (Or.inr hl)).2
    rw [store_ne (by omega)]

/-! ## Outcome of the search loop -/

/-- No word of an allocated block is a header field of a free-list member. -/
theorem WF.owned_ne {L : Layout} {s : State} {F A : Finset Nat} (hw : WF L s F A) {x a : Nat}
    (hx : Owned s A x) (ha : a ∈ F) : x ≠ a ∧ x ≠ a + 8 := by
  obtain ⟨l, hl, hx1, hx2⟩ := hx
  have hs := hw.shape
  have nl := hw.wnode (Or.inr hl)
  have na := hw.wnode (Or.inl ha)
  have hlF : l ∉ F := hs.disj l hl
  have hL := hw.layout
  have htop := hw.pfp_le
  obtain ⟨l1, l2, l3, l4, l5⟩ := hL
  rcases nl with ⟨_, _, h⟩ | nl
  · exact absurd h hlF
  rcases na with ⟨e, _, _⟩ | na
  · simp only [QUANTUM_eq, POOL_SIZE_eq, SIZE_MOD_eq] at *
    omega
  · have s1 := hs.tiling.2 l a (Or.inr hl) na.1
    have s2 := hs.tiling.2 a l na.1 (Or.inr hl)
    have hla : l ≠ a := fun e => hlF (e ▸ ha)
    simp only [QUANTUM_eq, POOL_SIZE_eq, SIZE_MOD_eq] at *
    omega

/-- No word of an allocated block lies inside a free block. -/
theorem WF.owned_out {L : Layout} {s : State} {F A : Finset Nat} (hw : WF L s F A) {x q : Nat}
    (hx : Owned s A x) (hq : q ∈ F) (hqb : q ≠ L.base) :
    x < q ∨ q + QUANTUM * szOf s q ≤ x := by
  obtain ⟨l, hl, hx1, hx2⟩ := hx
  have hs := hw.shape
  have hlF : l ∉ F := hs.disj l hl
  have s1 := hs.tiling.2 l q (Or.inr hl) (Or.inl ⟨hq, hqb⟩)
  have s2 := hs.tiling.2 q l (Or.inl ⟨hq, hqb⟩) (Or.inr hl)
  have hla : l ≠ q := fun e => hlF (e ▸ hq)
  simp only [QUANTUM_eq] at *
  omega

theorem allocResult_ok {L : Layout} {s : State} {F A : Finset Nat} {nq pq q : Nat}
    (hw : WF L s F A) (hq : q ∈ F) (hpq : pq ∈ F) (hn : nxOf s pq = q)
    (hfit : nq ≤ szOf s q) (hnq : 1 ≤ nq) :
    (allocResult s nq pq q).2.pool_free_pos = s.pool_free_pos ∧
    AllocOk L s A nq (allocResult s nq pq q).1 (allocResult s nq pq q).2 := by
  have hs := hw.shape
  have hqb : q ≠ L.base := by
    intro e
    rw [e, hs.base_size] at hfit
    omega
  unfold allocResult
  by_cases he : s.mem (sizeAddr q) = nq
  · rw [if_pos he]
    obtain ⟨h1, h2, h3⟩ := wf_takeExact hw hq hpq hn he hnq
    refine ⟨h2, q, F.erase q, h1, fun h => hs.disj q h hq, ?_, h3, ?_, ?_⟩
    · show store s.mem pq (s.mem q) (q + 8) = nq
      have : pq ≠ q + 8 := hs.addr_ne hw.layout hw.pfp_le (Or.inl hpq) (Or.inl hq)
      rw [store_ne (fun e => this e.symm)]
      exact he
    · intro x hx
      show store s.mem pq (s.mem q) x = s.mem x
      rw [store_ne (hw.owned_ne hx hpq).1]
    · intro l hl
      show store s.mem pq (s.mem q) (l + 8) = s.mem (l + 8)
      have : pq ≠ l + 8 := hs.addr_ne hw.layout hw.pfp_le (Or.inl hpq) (Or.inr hl)
      rw [store_ne (fun e => this e.symm)]
  · rw [if_neg he]
    have hlt : nq < szOf s q := by
      have : szOf s q ≠ nq := he
      omega
    obtain ⟨h1, h2, h3, h4⟩ := wf_takeSplit hw hq hpq hlt hnq
    have lq := hs.lt_mod hw.layout hw.pfp_le (Or.inl hq)
    have e1 : wrap (SIZE_MOD + s.mem (sizeAddr q) - nq) = szOf s q - nq := by
      unfold wrap
      have : SIZE_MOD + s.mem (sizeAddr q) - nq = (szOf s q - nq) + SIZE_MOD := by
        show SIZE_MOD + szOf s q - nq = _
        omega
      rw [this, Nat.add_mod_right]
      exact Nat.mod_eq_of_lt (by simp only [SIZE_MOD_eq] at *; omega)
    have e2 : hdrAdd q (szOf s q - nq) = q + QUANTUM * (szOf s q - nq) :=
      hdrAdd_of_lt (by simp only [QUANTUM_eq, SIZE_MOD_eq] at *; omega)
    have hmem : (takeSplit s nq pq q).2.mem =
        store (store s.mem (q + 8) (szOf s q - nq)) (q + QUANTUM * (szOf s q - nq) + 8) nq := by
      unfold takeSplit
      simp only [sizeAddr, store_same]
      rw [show wrap (SIZE_MOD + s.mem (q + 8) - nq) = szOf s q - nq from e1, e2]
    refine ⟨h2, _, F, h1, ?_, h3, h4, ?_, ?_⟩
    · intro h
      exact (hw.split_fresh hq hqb (show 1 ≤ szOf s q - nq by omega)
        (show szOf s q - nq < szOf s q by omega) (Or.inr h)).1 rfl
    · intro x hx
      have := hw.owned_out hx hq hqb
      rw [hmem, store_ne (by simp only [QUANTUM_eq] at *; omega),
        store_ne (by simp only [QUANTUM_eq] at *; omega)]
    · intro l hl
      have f := hw.split_fresh hq hqb (show 1 ≤ szOf s q - nq by omega)
        (show szOf s q - nq < szOf s q by omega) (Or.inr hl)
      have g : q ≠ l + 8 := hs.addr_ne hw.layout hw.pfp_le (Or.inl hq) (Or.inr hl)
      have g2 : l ≠ q := fun e => hs.disj l hl (e ▸ hq)
      show (takeSplit s nq pq q).2.mem (l + 8) = s.mem (l + 8)
      rw [hmem, store_ne (by omega), store_ne (by omega)]

/-- The search loop entered at `freep` returns, with one of three outcomes. -/
theorem allocLoop_spec {L : Layout} {s : State} {F A : Finset Nat} {nq ff fuel : Nat}
    (hw : WF L s F A) (hnq : 1 ≤ nq) (hq : nq * QUANTUM + POOL_SIZE < SIZE_MOD)
    (hff : F.card ≤ ff) (hfuel : 2 * F.card + 2 ≤ fuel) :
    ∃ r s', allocLoop L ff nq fuel s s.freep (nxOf s s.freep) = .ok (r, s') ∧
      AllocPost L s F A nq r s' := by
  have hB := hw.mem_lt
  have hR := hw.shape.ring
  by_cases hfit : ∃ f ∈ F, nq ≤ szOf s f
  · obtain ⟨f, hf, hff1⟩ := hfit
    have hrange := cdist_le_pred hB hw.freep_mem (hR _ hw.freep_mem) hf
    have hcard := nearer_card_lt f (nxOf s s.freep) (ring_next_mem hR hw.freep_mem)
    obtain ⟨pq, q, hpq, hqm, hn, hqfit, hfirst, hres⟩ :=
      allocLoop_fit ff hw hf hff1 fuel s.freep hw.freep_mem hrange (by omega)
    obtain ⟨h1, h2⟩ := allocResult_ok hw hqm hpq hn hqfit hnq
    refine ⟨(allocResult s nq pq q).1, (allocResult s nq pq q).2, hres, Or.inl ?_⟩
    exact ⟨⟨f, hf, hff1⟩, h1, h2, pq, q, hpq, hqm, hn, hqfit, hfirst, rfl⟩
  · have hno : ∀ c ∈ F, szOf s c < nq := by
      intro c hc
      by_contra hcon
      exact hfit ⟨c, hc, by omega⟩
    have hcard := nearer_card_lt s.freep (nxOf s s.freep) (ring_next_mem hR hw.freep_mem)
    obtain ⟨fuel', hle, hrun⟩ := allocLoop_nofit ff (fuel - (F.card + 1)) hw hno F.card
      s.freep hw.freep_mem (by omega)
    have efuel : F.card + 1 + (fuel - (F.card + 1)) = fuel := by omega
    rw [efuel] at hrun
    rw [hrun]
    unfold claimStep
    by_cases hcl : s.pool_free_pos + QUANTUM * claimQuanta nq ≤ POOL_SIZE
    · obtain ⟨p, F', hp, hp0, hget, hwf, hcardF, ⟨f, hfm, hfs⟩, hframe, hsizes⟩ :=
        get_mem_ok hw hq hcl hff
      rw [hget]
      simp only [if_neg hp0]
      have hfreep : (claimedState L s (claimQuanta nq) p).freep = p := rfl
      have hpfp : (claimedState L s (claimQuanta nq) p).pool_free_pos =
          s.pool_free_pos + QUANTUM * claimQuanta nq := rfl
      have hnx : (claimedState L s (claimQuanta nq) p).mem (nextAddr p) =
          nxOf (claimedState L s (claimQuanta nq) p) p := rfl
      rw [hnx]
      generalize claimedState L s (claimQuanta nq) p = s3 at *
      have hB' := hwf.mem_lt
      have hR' := hwf.shape.ring
      have hpF' : p ∈ F' := hfreep ▸ hwf.freep_mem
      have hfit' : nq ≤ szOf s3 f := by
        have := (claimQuanta_ge nq).1
        omega
      have hrange : cdist (nxOf s3 p) f ≤ cdist (nxOf s3 p) s3.freep := by
        rw [hfreep]
        exact cdist_le_pred hB' hpF' (hR' _ hpF') hfm
      have hcard' := nearer_card_lt f (nxOf s3 p) (ring_next_mem hR' hpF')
      obtain ⟨pq, q, hpq, hqm, hn, hqfit, _, hres⟩ :=
        allocLoop_fit ff hwf hfm hfit' fuel' p hpF' hrange (by omega)
      obtain ⟨h1, h, F'', e1, e2, e3, e4, e5, e6⟩ := allocResult_ok hwf hqm hpq hn hqfit hnq
      refine ⟨(allocResult s3 nq pq q).1, (allocResult s3 nq pq q).2, hres, ?_⟩
      have hpost : AllocOk L s A nq (allocResult s3 nq pq q).1 (allocResult s3 nq pq q).2 := by
        refine ⟨h, F'', e1, e2, e3, e4, ?_, ?_⟩
        · intro x hx
          have hx' : Owned s3 A x := by
            obtain ⟨l, hl, hx1, hx2⟩ := hx
            exact ⟨l, hl, hx1, by rw [hsizes l hl]; exact hx2⟩
          rw [e5 x hx', hframe x hx]
        · intro l hl
          rw [e6 l hl, hsizes l hl]
      exact Or.inr (Or.inl ⟨hno, hcl, by rw [h1, hpfp], hpost⟩)
    · rw [get_mem_fail hw.pfp_le hq hcl]
      simp only [if_pos]
      exact ⟨0, s, rfl, Or.inr (Or.inr ⟨hno, hcl, rfl, rfl⟩)⟩

/-! ## First use, and the entry points -/

theorem nquantasOf_eq {n : Nat} (h : n + QUANTUM < SIZE_MOD) :
    nquantasOf n = (n + 31) / 32 + 1 := by
  unfold nquantasOf
  have e1 : wrap (n + QUANTUM) = n + QUANTUM := wrap_of_lt h
  have e2 : wrap (SIZE_MOD + (n + QUANTUM) - 1) = n + 31 := by
    unfold wrap
    have : SIZE_MOD + (n + QUANTUM) - 1 = (n + 31) + SIZE_MOD := by
      simp only [QUANTUM_eq]; omega
    rw [this, Nat.add_mod_right]
    exact Nat.mod_eq_of_lt (by simp only [QUANTUM_eq] at h; omega)
  rw [e1, e2]
  simp only [QUANTUM_eq, SIZE_MOD_eq] at *
  exact wrap_of_lt (by simp only [SIZE_MOD_eq]; omega)

/-- The quanta computed for a request are enough for its bytes and the header. -/
theorem nquantasOf_bounds {n : Nat} (h : n + QUANTUM < SIZE_MOD) :
    1 ≤ nquantasOf n ∧ n ≤ QUANTUM * (nquantasOf n - 1) ∧
      QUANTUM * (nquantasOf n - 1) < n + QUANTUM := by
  rw [nquantasOf_eq h]
  simp only [QUANTUM_eq]
  omega

theorem wf_firstState {L : Layout} (hL : L.ok) (s : State) :
    WF L (firstState L s) {L.base} ∅ := by
  have hnx : nxOf (firstState L s) L.base = L.base := by
    show store (store (hackweekmgr_init L s).mem L.base L.base) (L.base + 8) 0 L.base = L.base
    rw [store_ne (by omega), store_same]
  have hsz : szOf (firstState L s) L.base = 0 := by
    show store (store (hackweekmgr_init L s).mem L.base L.base) (L.base + 8) 0 (L.base + 8) = 0
    rw [store_same]
  refine ⟨hL, ?_, ?_, Finset.mem_singleton_self _, ⟨Finset.mem_singleton_self _, hsz, ?_, ?_, ?_⟩⟩
  · show 0 ≤ POOL_SIZE
    omega
  · show 0 % QUANTUM = 0
    rfl
  · intro h hh
    exact absurd hh (Finset.not_mem_empty _)
  · refine ⟨?_, ?_⟩
    · rintro h (⟨h1, h2⟩ | h1)
      · exact absurd (Finset.mem_singleton.1 h1) h2
      · exact absurd h1 (Finset.not_mem_empty _)
    · rintro h1 h2 (⟨h3, h4⟩ | h3)
      · exact absurd (Finset.mem_singleton.1 h3) h4
      · exact absurd h3 (Finset.not_mem_empty _)
  · intro a ha
    rw [Finset.mem_singleton.1 ha, hnx]
    refine ⟨Finset.mem_singleton_self _, Or.inr ⟨le_refl _, ?_⟩⟩
    intro c hc
    rw [Finset.mem_singleton.1 hc]
    exact ⟨le_refl _, le_refl _⟩

theorem allocQuanta_live {L : Layout} {s : State} {fuel nq : Nat} (h : s.freep ≠ 0) :
    allocQuanta L fuel s nq = allocLoop L fuel nq fuel s s.freep (nxOf s s.freep) := by
  unfold allocQuanta
  rw [if_neg h]
  rfl

theorem allocQuanta_first {L : Layout} {s : State} {fuel nq : Nat} (h : s.freep = 0) :
    allocQuanta L fuel s nq =
      allocLoop L fuel nq fuel (firstState L s) (firstState L s).freep
        (nxOf (firstState L s) (firstState L s).freep) := by
  unfold allocQuanta
  rw [if_pos h]
  rfl

/-- The free list never has more members than the pool has quanta, plus the sentinel. -/
theorem WF.card_le {L : Layout} {s : State} {F A : Finset Nat} (hw : WF L s F A) :
    F.card ≤ 33554433 := by
  have h1 : (F.erase L.base).card ≤ (Finset.range 33554432).card := by
    apply Finset.card_le_card_of_injOn (fun h => (h - L.pool) / 32)
    · intro h hh
      have hh' : h ∈ F.erase L.base := hh
      have := hw.wnode (Or.inl (Finset.mem_of_mem_erase hh'))
      have hne := Finset.ne_of_mem_erase hh'
      have := hw.pfp_le
      show (h - L.pool) / 32 ∈ (Finset.range 33554432 : Set Nat)
      rw [Finset.mem_coe, Finset.mem_range]
      simp only [POOL_SIZE_eq] at *
      omega
    · intro x hx y hy hxy
      have hx' : x ∈ F.erase L.base := hx
      have hy' : y ∈ F.erase L.base := hy
      have n1 := hw.wnode (Or.inl (Finset.mem_of_mem_erase hx'))
      have n2 := hw.wnode (Or.inl (Finset.mem_of_mem_erase hy'))
      have := Finset.ne_of_mem_erase hx'
      have := Finset.ne_of_mem_erase hy'
      have hxy' : (x - L.pool) / 32 = (y - L.pool) / 32 := hxy
      omega
  rw [Finset.card_range] at h1
  have := Finset.card_erase_of_mem hw.shape.base_mem
  omega

theorem WF.freep_ne {L : Layout} {s : State} {F A : Finset Nat} (hw : WF L s F A) :
    s.freep ≠ 0 := hw.ne_zero _ hw.freep_mem

/-- Allocation in a well-formed state returns, with one of three outcomes. -/
theorem alloc_spec {L : Layout} {s : State} {F A : Finset Nat} {nbytes fuel : Nat}
    (hw : WF L s F A) (hn : nbytes + 2 * QUANTUM + POOL_SIZE ≤ SIZE_MOD)
    (hfuel : 2 * F.card + 2 ≤ fuel) :
    ∃ r s', hackweekmgr_alloc L fuel s nbytes = .ok (r, s') ∧
      AllocPost L s F A (nquantasOf nbytes) r s' := by
  have hb := nquantasOf_bounds (n := nbytes) (by simp only [QUANTUM_eq, POOL_SIZE_eq] at *; omega)
  unfold hackweekmgr_alloc
  rw [allocQuanta_live hw.freep_ne]
  refine allocLoop_spec hw hb.1 ?_ (by omega) hfuel
  simp only [QUANTUM_eq, POOL_SIZE_eq, SIZE_MOD_eq] at *
  omega

/-- The first allocation sets up the free list and then proceeds as any other. -/
theorem alloc_first_spec {L : Layout} {s : State} {nbytes fuel : Nat} (hL : L.ok)
    (h0 : s.freep = 0) (hn : nbytes + 2 * QUANTUM + POOL_SIZE ≤ SIZE_MOD) (hfuel : 4 ≤ fuel) :
    ∃ r s', hackweekmgr_alloc L fuel s nbytes = .ok (r, s') ∧
      AllocPost L (firstState L s) {L.base} ∅ (nquantasOf nbytes) r s' := by
  have hb := nquantasOf_bounds (n := nbytes) (by simp only [QUANTUM_eq, POOL_SIZE_eq] at *; omega)
  unfold hackweekmgr_alloc
  rw [allocQuanta_first h0]
  refine allocLoop_spec (wf_firstState hL s) hb.1 ?_ (by simp; omega) (by simp; omega)
  simp only [QUANTUM_eq, POOL_SIZE_eq, SIZE_MOD_eq] at *
  omega

/-! ## More fuel never changes a result -/

theorem findInsert_mono {m : Nat → Nat} {b : Nat} :
    ∀ f p x, findInsert m b f p = .ok x → ∀ f', f ≤ f' → findInsert m b f' p = .ok x := by
  intro f
  induction f with
  | zero =>
    intro p x h
    simp [findInsert] at h
  | succ f ih =>
    intro p x h f' hle
    obtain ⟨g, rfl⟩ : ∃ g, f' = g + 1 := ⟨f' - 1, by omega⟩
    unfold findInsert at h ⊢
    by_cases h1 : p = 0
    · rw [if_pos h1] at h ⊢; exact h
    · rw [if_neg h1] at h ⊢
      by_cases h2 : b > p ∧ b < m (nextAddr p)
      · rw [if_pos h2] at h ⊢; exact h
      · rw [if_neg h2] at h ⊢
        by_cases h3 : p ≥ m (nextAddr p) ∧ (b > p ∨ b < m (nextAddr p))
        · rw [if_pos h3] at h ⊢; exact h
        · rw [if_neg h3] at h ⊢
          exact ih _ _ h _ (by omega)

theorem free_mono {L : Layout} {s : State} {ap f f' : Nat} {x : State}
    (h : hackweekmgr_free L f s ap = .ok x) (hle : f ≤ f') :
    hackweekmgr_free L f' s ap = .ok x := by
  unfold hackweekmgr_free at h ⊢
  simp only at h ⊢
  by_cases h1 : ¬(ap < wrap (POOL_SIZE + L.pool) ∧ ap > L.pool)
  · rw [if_pos h1] at h ⊢; exact h
  · rw [if_neg h1] at h ⊢
    by_cases h2 : ap = 0
    · rw [if_pos h2] at h ⊢; exact h
    · rw [if_neg h2] at h ⊢
      cases hfi : findInsert s.mem (hdrPred ap) f s.freep with
      | error e => rw [hfi] at h; simp at h
      | ok p =>
        rw [hfi] at h
        rw [findInsert_mono _ _ _ hfi _ hle]
        exact h

theorem get_mem_mono {L : Layout} {s : State} {nq f f' : Nat} {x : Nat × State}
    (h : get_mem_from_pool L f s nq = .ok x) (hle : f ≤ f') :
    get_mem_from_pool L f' s nq = .ok x := by
  unfold get_mem_from_pool at h ⊢
  by_cases h1 : wrap (s.pool_free_pos + wrap (claimQuanta nq * QUANTUM)) ≤ POOL_SIZE
  · rw [if_pos h1] at h ⊢
    cases hfr : hackweekmgr_free L f (stampedState L s (claimQuanta nq))
        (hdrAdd (wrap (L.pool + s.pool_free_pos)) 1) with
    | error e => rw [hfr] at h; simp at h
    | ok s2 =>
      rw [hfr] at h
      rw [free_mono hfr hle]
      exact h
  · rw [if_neg h1] at h ⊢; exact h

theorem allocLoop_mono {L : Layout} {nq ff ff' : Nat} (hff : ff ≤ ff') :
    ∀ f s pp p x, allocLoop L ff nq f s pp p = .ok x →
      ∀ f', f ≤ f' → allocLoop L ff' nq f' s pp p = .ok x := by
  intro f
  induction f with
  | zero =>
    intro s pp p x h
    simp [allocLoop] at h
  | succ f ih =>
    intro s pp p x h f' hle
    obtain ⟨g, rfl⟩ : ∃ g, f' = g + 1 := ⟨f' - 1, by omega⟩
    by_cases h1 : p = 0
    · unfold allocLoop at h
      rw [if_pos h1] at h
      simp at h
    · by_cases h2 : nq ≤ s.mem (sizeAddr p)
      · rw [allocLoop_hit h1 h2] at h ⊢; exact h
      · by_cases h3 : p = s.freep
        · rw [allocLoop_claim h1 h2 h3] at h ⊢
          unfold claimStep at h ⊢
          cases hg : get_mem_from_pool L ff s nq with
          | error e => rw [hg] at h; simp at h
          | ok y =>
            obtain ⟨p1, s1⟩ := y
            rw [hg] at h
            rw [get_mem_mono hg hff]
            simp only at h ⊢
            by_cases h5 : p1 = 0
            · rw [if_pos h5] at h ⊢; exact h
            · rw [if_neg h5] at h ⊢
              exact ih _ _ _ _ h _ (by omega)
        · rw [allocLoop_next h1 h2 h3] at h ⊢
          exact ih _ _ _ _ h _ (by omega)

theorem alloc_mono {L : Layout} {s : State} {n f f' : Nat} {x : Nat × State}
    (h : hackweekmgr_alloc L f s n = .ok x) (hle : f ≤ f') :
    hackweekmgr_alloc L f' s n = .ok x := by
  unfold hackweekmgr_alloc allocQuanta at h ⊢
  split_ifs at h ⊢ with h1
  · exact allocLoop_mono hle _ _ _ _ _ h _ hle
  · exact allocLoop_mono hle _ _ _ _ _ h _ hle

/-- The result of a returning call does not depend on the fuel given. -/
theorem alloc_det {L : Layout} {s : State} {n f f' : Nat} {x y : Nat × State}
    (h : hackweekmgr_alloc L f s n = .ok x) (h' : hackweekmgr_alloc L f' s n = .ok y) :
    x = y := by
  have e1 := alloc_mono h (Nat.le_max_left f f')
  have e2 := alloc_mono h' (Nat.le_max_right f f')
  rw [e1] at e2
  exact Except.ok.inj e2

theorem free_det {L : Layout} {s : State} {ap f f' : Nat} {x y : State}
    (h : hackweekmgr_free L f s ap = .ok x) (h' : hackweekmgr_free L f' s ap = .ok y) :
    x = y := by
  have e1 := free_mono h (Nat.le_max_left f f')
  have e2 := free_mono h' (Nat.le_max_right f f')
  rw [e1] at e2
  exact Except.ok.inj e2

/-! ## Steps of a history -/

theorem wf_forget {L : Layout} {s : State} {F A : Finset Nat} (hw : WF L s F A) (b : Nat) :
    WF L s F (A.erase b) := by
  refine ⟨hw.layout, hw.pfp_le, hw.pfp_al, hw.freep_mem,
    ⟨hw.shape.base_mem, hw.shape.base_size, ?_, ?_, hw.shape.ring⟩⟩
  · intro h hh
    exact hw.shape.disj h (Finset.mem_of_mem_erase hh)
  · refine tiling_congr hw.shape.tiling ?_ (fun _ _ => rfl) (le_refl _)
    rintro x (h | h)
    · exact Or.inl h
    · exact Or.inr (Finset.mem_of_mem_erase h)

/-- A reference outside the open range of the pool is ignored. -/
theorem free_noop {L : Layout} (hL : L.pool + POOL_SIZE < SIZE_MOD) (fuel : Nat) (s : State)
    {ap : Nat} (h : ap = 0 ∨ ¬ (L.pool < ap ∧ ap < L.pool + POOL_SIZE)) :
    hackweekmgr_free L fuel s ap = .ok s := by
  have hend : wrap (POOL_SIZE + L.pool) = L.pool + POOL_SIZE := by
    rw [Nat.add_comm]; exact wrap_of_lt hL
  unfold hackweekmgr_free
  simp only [hend]
  by_cases h1 : ¬(ap < L.pool + POOL_SIZE ∧ ap > L.pool)
  · rw [if_pos h1]
  · rw [if_neg h1]
    rcases h with h | h
    · rw [if_pos h]
    · exact absurd ⟨(not_not.1 h1).2, (not_not.1 h1).1⟩ h

/-- Release in a well-formed state: the call returns; the heap stays well
formed with the block no longer allocated; no word of another allocated block
changes. -/
theorem free_spec {L : Layout} {s : State} {F A : Finset Nat} {b : Nat}
    (hw : WF L s F A) (hb : b ∈ A) :
    ∃ s', FreeRet L s (b + QUANTUM) s' ∧
      (∀ s'', FreeRet L s (b + QUANTUM) s'' → s'' = s') ∧
      s'.pool_free_pos = s.pool_free_pos ∧
      (∀ x, Owned s (A.erase b) x → s'.mem x = s.mem x) ∧
      (∀ l ∈ A.erase b, szOf s' l = szOf s l) ∧
      ((b + QUANTUM = L.pool + POOL_SIZE ∧ s' = s ∧ WF L s' F (A.erase b)) ∨
       (b + QUANTUM < L.pool + POOL_SIZE ∧ ∃ p ∈ F, InsCond (nxOf s) b p ∧
          s' = freedState s b p ∧ WF L s' (freeSet s F b p) (A.erase b))) := by
  have hL := hw.layout
  have hs := hw.shape
  have nb := hw.wnode (Or.inr hb)
  have hbF : b ∉ F := hs.disj b hb
  have hle : b + QUANTUM ≤ L.pool + POOL_SIZE := by
    have := hw.pfp_le
    rcases nb with ⟨_, _, h⟩ | h
    · exact absurd h hbF
    · simp only [QUANTUM_eq] at *; omega
  by_cases hedge : b + QUANTUM = L.pool + POOL_SIZE
  · have hno : ∀ fuel, hackweekmgr_free L fuel s (b + QUANTUM) = .ok s :=
      fun fuel => free_noop hL.2.1 fuel s (Or.inr (by omega))
    refine ⟨s, ⟨0, hno 0⟩, ?_, rfl, fun _ _ => rfl, fun _ _ => rfl,
      Or.inl ⟨hedge, rfl, wf_forget hw b⟩⟩
    rintro s'' ⟨f, hf⟩
    exact free_det hf (hno f)
  · have hlt : b + QUANTUM < L.pool + POOL_SIZE := by omega
    obtain ⟨p, hp, hc, hfree, hpm, sh⟩ := free_core F.card hL hw.pfp_le hs hw.freep_mem hb
      (le_refl _) hlt
    have hwf : WF L (freedState s b p) (freeSet s F b p) (A.erase b) :=
      ⟨hL, hw.pfp_le, hw.pfp_al, hpm, sh⟩
    refine ⟨freedState s b p, ⟨_, hfree⟩, ?_, rfl, ?_, ?_, Or.inr ⟨hlt, p, hp, hc, rfl, hwf⟩⟩
    · rintro s'' ⟨f, hf⟩
      exact free_det hf hfree
    · intro x hx
      have h1 := (wf_forget hw b).owned_ne hx hp
      obtain ⟨l, hl, hx1, hx2⟩ := hx
      have hlA := Finset.mem_of_mem_erase hl
      have hlb := Finset.ne_of_mem_erase hl
      have nl := hw.wnode (Or.inr hlA)
      have s1 := hs.tiling.2 l b (Or.inr hlA) (Or.inr hb)
      have s2 := hs.tiling.2 b l (Or.inr hb) (Or.inr hlA)
      have h2 : x ≠ b ∧ x ≠ b + 8 := by
        rcases nb with ⟨_, _, h⟩ | nb
        · exact absurd h hbF
        simp only [QUANTUM_eq] at *
        omega
      exact join_frame h2.1 h2.2 h1.1 h1.2
    · intro l hl
      have hlA := Finset.mem_of_mem_erase hl
      have hlb := Finset.ne_of_mem_erase hl
      have hlp : l ≠ p := fun e => hs.disj l hlA (e ▸ hp)
      exact ((freed_fields hs hL hw.pfp_le hb hp).1 l (Or.inr hlA) hlb hlp).2

theorem readyState_live {s : State} (L : Layout) (h : s.freep ≠ 0) : readyState L s = s := by
  unfold readyState
  rw [if_neg h]

theorem readyState_first {s : State} (L : Layout) (h : s.freep = 0) :
    readyState L s = firstState L s := by
  unfold readyState
  rw [if_pos h]

theorem live_ready {L : Layout} {s : State} {A : Finset Nat} (hL : L.ok) (h : Live L s A) :
    ∃ F, WF L (readyState L s) F A := by
  rcases h with ⟨h0, _, hA⟩ | ⟨F, hw⟩
  · rw [readyState_first L h0, hA]
    exact ⟨_, wf_firstState hL s⟩
  · rw [readyState_live L hw.freep_ne]
    exact ⟨F, hw⟩

/-- Allocation from a live state returns, and every result it returns is one
of the three outcomes of the search loop. -/
theorem alloc_total {L : Layout} {s : State} {F A : Finset Nat} {nbytes : Nat}
    (hw : WF L (readyState L s) F A) (hn : nbytes + 2 * QUANTUM + POOL_SIZE ≤ SIZE_MOD) :
    (∃ r s', AllocRet L s nbytes r s') ∧
    ∀ r s', AllocRet L s nbytes r s' → AllocPost L (readyState L s) F A (nquantasOf nbytes) r s' := by
  have key : ∃ r s', hackweekmgr_alloc L (2 * F.card + 4) s nbytes = .ok (r, s') ∧
      AllocPost L (readyState L s) F A (nquantasOf nbytes) r s' := by
    by_cases h0 : s.freep = 0
    · have hb := nquantasOf_bounds (n := nbytes)
        (by simp only [QUANTUM_eq, POOL_SIZE_eq] at *; omega)
      rw [readyState_first L h0] at hw ⊢
      unfold hackweekmgr_alloc
      rw [allocQuanta_first h0]
      refine allocLoop_spec hw hb.1 ?_ (by omega) (by omega)
      simp only [QUANTUM_eq, POOL_SIZE_eq, SIZE_MOD_eq] at *
      omega
    · rw [readyState_live L h0] at hw ⊢
      exact alloc_spec hw hn (by omega)
  obtain ⟨r, s', hrun, hpost⟩ := key
  refine ⟨⟨r, s', _, hrun⟩, ?_⟩
  rintro r2 s2 ⟨f, hf⟩
  have := alloc_det hf hrun
  rw [Prod.mk.injEq] at this
  rw [this.1, this.2]
  exact hpost

theorem allocOk_ptr {L : Layout} {s : State} {A : Finset Nat} {nq r : Nat} {s' : State}
    (h : AllocOk L s A nq r s') : r ≠ 0 ∧ ∃ F', WF L s' F' (afterAlloc A r) := by
  obtain ⟨h1, F', e1, _, _, hwf, _, _⟩ := h
  have hr : r ≠ 0 := by rw [e1]; simp only [QUANTUM_eq]; omega
  refine ⟨hr, F', ?_⟩
  unfold afterAlloc
  rw [if_neg hr, e1, Nat.add_sub_cancel]
  exact hwf

/-- After any outcome of an allocation the heap is well formed. -/
theorem allocPost_wf {L : Layout} {s : State} {F A : Finset Nat} {nq r : Nat} {s' : State}
    (hw : WF L s F A) (h : AllocPost L s F A nq r s') : ∃ F', WF L s' F' (afterAlloc A r) := by
  rcases h with ⟨_, _, hok, _⟩ | ⟨_, _, _, hok⟩ | ⟨_, _, hr, hs⟩
  · exact (allocOk_ptr hok).2
  · exact (allocOk_ptr hok).2
  · refine ⟨F, ?_⟩
    unfold afterAlloc
    rw [if_pos hr, hs]
    exact hw

/-- An allocation leaves the words of the blocks allocated before alone. -/
theorem allocPost_frame {L : Layout} {s : State} {F A : Finset Nat} {nq r : Nat} {s' : State}
    (h : AllocPost L s F A nq r s') :
    (∀ x, Owned s A x → s'.mem x = s.mem x) ∧ (∀ l ∈ A, szOf s' l = szOf s l) := by
  rcases h with ⟨_, _, hok, _⟩ | ⟨_, _, _, hok⟩ | ⟨_, _, hr, hs⟩
  · obtain ⟨_, _, _, _, _, _, h5, h6⟩ := hok
    exact ⟨h5, h6⟩
  · obtain ⟨_, _, _, _, _, _, h5, h6⟩ := hok
    exact ⟨h5, h6⟩
  · rw [hs]
    exact ⟨fun _ _ => rfl, fun _ _ => rfl⟩

theorem pool_le_mod : POOL_SIZE + 2 * QUANTUM + POOL_SIZE ≤ SIZE_MOD := by
  simp only [QUANTUM_eq, POOL_SIZE_eq, SIZE_MOD_eq]
  omega

/-- Every state of a history is live. -/
theorem reach_live {L : Layout} (hL : L.ok) {s : State} {A : Finset Nat} (h : Reach L s A) :
    Live L s A := by
  induction h with
  | init s0 => exact Or.inl ⟨rfl, rfl, rfl⟩
  | @alloc s A nbytes r s' _ hn hret ih =>
    obtain ⟨F, hw⟩ := live_ready hL ih
    have hpost := (alloc_total hw (by have := pool_le_mod; omega)).2 r s' hret
    exact Or.inr (allocPost_wf hw hpost)
  | @free s A b s' _ hb hret ih =>
    rcases ih with ⟨_, _, hA⟩ | ⟨F, hw⟩
    · rw [hA] at hb
      exact absurd hb (Finset.not_mem_empty _)
    · obtain ⟨s1, _, huniq, _, _, _, hcase⟩ := free_spec hw hb
      rw [huniq s' hret]
      rcases hcase with ⟨_, _, hwf⟩ | ⟨_, p, _, _, _, hwf⟩
      · exact Or.inr ⟨_, hwf⟩
      · exact Or.inr ⟨_, hwf⟩

/-! ## The free list as a ring -/

theorem ring_reach {F : Finset Nat} {nx : Nat → Nat} (hB : ∀ c ∈ F, c < SIZE_MOD)
    (hR : Ring F nx) {a : Nat} (ha : a ∈ F) :
    ∀ n p, p ∈ F → (nearer F a p).card ≤ n → ∃ k, nx^[k] p = a := by
  intro n
  induction n with
  | zero =>
    intro p hp hc
    by_cases e : a = p
    · exact ⟨0, e.symm⟩
    · have := nearer_step hB hR hp ha e
      omega
  | succ n ih =>
    intro p hp hc
    by_cases e : a = p
    · exact ⟨0, e.symm⟩
    · have := nearer_step hB hR hp ha e
      obtain ⟨k, hk⟩ := ih (nx p) (ring_next_mem hR hp) (by omega)
      exact ⟨k + 1, by rw [Function.iterate_succ_apply]; exact hk⟩

theorem wf_freeListOK {L : Layout} {s : State} {F A : Finset Nat} (hw : WF L s F A) :
    FreeListOK L s := by
  have hB := hw.mem_lt
  have hR := hw.shape.ring
  refine ⟨F, hw.freep_mem, hw.shape.base_mem, hw.shape.base_size,
    fun a ha => ring_next_mem hR ha, ?_, ?_, ?_⟩
  · intro a ha
    exact ring_reach hB hR ha _ _ hw.freep_mem (le_refl _)
  · intro a ha
    obtain ⟨k, hk⟩ := ring_reach hB hR ha _ _ (ring_next_mem hR ha) (le_refl _)
    exact ⟨k + 1, Nat.succ_pos _, by rw [Function.iterate_succ_apply]; exact hk⟩
  · obtain ⟨t, ht, hmax⟩ := Finset.exists_max_image F id ⟨_, hw.freep_mem⟩
    refine ⟨t, ht, ?_, ?_⟩
    · rcases (hR t ht).2 with ⟨hlt, _⟩ | ⟨hge, _⟩
      · have := hmax _ (hR t ht).1
        simp only [id] at this
        omega
      · exact hge
    · intro a ha hat
      rcases (hR a ha).2 with ⟨hlt, _⟩ | ⟨hge, hall⟩
      · exact hlt
      · have h1 := hall t ht
        have h2 := hmax a ha
        simp only [id] at h2
        omega

/-! ## Claims about single calls and histories -/

/-- C3. Failure of allocate is atomic: in a well-formed state (so `freep` is
non-null) a call `hackweekmgr_alloc(nbytes)` with `nbytes ≤ POOL_SIZE` returns,
and whenever it returns null the whole state, that is `pool_free_pos`, `freep`
and every word of memory (every header field included), is what it was. -/
theorem alloc_failure_atomic {L : Layout} {s : State} {F A : Finset Nat} {nbytes : Nat}
    (hw : WF L s F A) (hn : nbytes ≤ POOL_SIZE) :
    s.freep ≠ 0 ∧ (∃ r s', AllocRet L s nbytes r s') ∧
      ∀ s', AllocRet L s nbytes 0 s' →
        s' = s ∧ s'.pool_free_pos = s.pool_free_pos ∧ s'.freep = s.freep ∧
          ∀ h, szOf s' h = szOf s h ∧ nxOf s' h = nxOf s h := by
  have hw' : WF L (readyState L s) F A := by rw [readyState_live L hw.freep_ne]; exact hw
  have hn2 : nbytes + 2 * QUANTUM + POOL_SIZE ≤ SIZE_MOD := by have := pool_le_mod; omega
  obtain ⟨htot, hpost⟩ := alloc_total hw' hn2
  refine ⟨hw.freep_ne, htot, ?_⟩
  intro s' hret
  have hp := hpost 0 s' hret
  rw [readyState_live L hw.freep_ne] at hp
  have key : s' = s := by
    rcases hp with ⟨_, _, hok, _⟩ | ⟨_, _, _, hok⟩ | ⟨_, _, _, hs⟩
    · exact absurd rfl (allocOk_ptr hok).1
    · exact absurd rfl (allocOk_ptr hok).1
    · exact hs
  rw [key]
  exact ⟨rfl, rfl, rfl, fun _ => ⟨rfl, rfl⟩⟩

/-- Witness of C3: the state right after first use, asked for the whole pool. -/
theorem alloc_failure_atomic_witness :
    WF layoutLow (firstState layoutLow bootState) {layoutLow.base} ∅ ∧ POOL_SIZE ≤ POOL_SIZE ∧
      ((firstState layoutLow bootState).freep ≠ 0 ∧
        (∃ r s', AllocRet layoutLow (firstState layoutLow bootState) POOL_SIZE r s') ∧
        ∀ s', AllocRet layoutLow (firstState layoutLow bootState) POOL_SIZE 0 s' →
          s' = firstState layoutLow bootState ∧
          s'.pool_free_pos = (firstState layoutLow bootState).pool_free_pos ∧
          s'.freep = (firstState layoutLow bootState).freep ∧
          ∀ h, szOf s' h = szOf (firstState layoutLow bootState) h ∧
            nxOf s' h = nxOf (firstState layoutLow bootState) h) :=
  ⟨wf_firstState (by decide) bootState, le_refl _,
    alloc_failure_atomic (wf_firstState (by decide) bootState) (le_refl _)⟩

/-- C4. `hackweekmgr_free` is a no-op on out-of-arena references: for every
state (also one whose `freep` is still null), every amount of fuel and every
reference that is null or not strictly between the start and the end of the
pool, the call returns without a fault and leaves the state as it was. -/
theorem free_outside_arena_noop (L : Layout) (hL : L.pool + POOL_SIZE < SIZE_MOD) (fuel : Nat)
    (s : State) (ap : Nat) (h : ap = 0 ∨ ¬ (L.pool < ap ∧ ap < L.pool + POOL_SIZE)) :
    hackweekmgr_free L fuel s ap = .ok s :=
  free_noop hL fuel s h

/-- Witness of C4: a reference below the pool, released before first use and without fuel. -/
theorem free_outside_arena_noop_witness :
    layoutLow.pool + POOL_SIZE < SIZE_MOD ∧
      ((4096 : Nat) = 0 ∨ ¬ (layoutLow.pool < 4096 ∧ 4096 < layoutLow.pool + POOL_SIZE)) ∧
      hackweekmgr_free layoutLow 0 bootState 4096 = .ok bootState :=
  ⟨by decide, Or.inr (by decide),
    free_outside_arena_noop layoutLow (by decide) 0 bootState 4096 (Or.inr (by decide))⟩

/-- C5. Free-list structural invariant, for a pool and a sentinel placed as
`Layout.ok` says: from every state of a history that starts at
`hackweekmgr_init`, every call `hackweekmgr_alloc(nbytes)` with
`nbytes ≤ POOL_SIZE` and every call of `hackweekmgr_free` on a currently
allocated reference returns, and after it the list reachable from `freep` is
circular, contains the size-0 sentinel `base`, and ascends strictly by address
along `next` except at exactly one seam link. -/
theorem free_list_invariant {L : Layout} (hL : L.ok) {s : State} {A : Finset Nat}
    (hr : Reach L s A) :
    (∀ nbytes, nbytes ≤ POOL_SIZE →
      (∃ r s', AllocRet L s nbytes r s') ∧
      ∀ r s', AllocRet L s nbytes r s' → FreeListOK L s') ∧
    (∀ h ∈ A,
      (∃ s', FreeRet L s (h + QUANTUM) s') ∧
      ∀ s', FreeRet L s (h + QUANTUM) s' → FreeListOK L s') := by
  have hlive := reach_live hL hr
  refine ⟨?_, ?_⟩
  · intro nbytes hn
    obtain ⟨F, hw⟩ := live_ready hL hlive
    have hn2 : nbytes + 2 * QUANTUM + POOL_SIZE ≤ SIZE_MOD := by have := pool_le_mod; omega
    obtain ⟨htot, hpost⟩ := alloc_total hw hn2
    refine ⟨htot, ?_⟩
    intro r s' hret
    obtain ⟨F', hw'⟩ := allocPost_wf hw (hpost r s' hret)
    exact wf_freeListOK hw'
  · intro h hh
    rcases hlive with ⟨_, _, hA⟩ | ⟨F, hw⟩
    · rw [hA] at hh
      exact absurd hh (Finset.not_mem_empty _)
    · obtain ⟨s1, hret1, huniq, _, _, _, hcase⟩ := free_spec hw hh
      refine ⟨⟨s1, hret1⟩, ?_⟩
      intro s' hret
      rw [huniq s' hret]
      rcases hcase with ⟨_, _, hwf⟩ | ⟨_, p, _, _, _, hwf⟩
      · exact wf_freeListOK hwf
      · exact wf_freeListOK hwf

/-! ## Coalescing -/

theorem mem_freeSet {s : State} {F : Finset Nat} {b p x : Nat} (_ : b ∉ F) :
    x ∈ freeSet s F b p ↔
      (x ∈ F ∧ ¬ (b + QUANTUM * szOf s b = nxOf s p ∧ x = nxOf s p)) ∨
      (x = b ∧ ¬ p + QUANTUM * szOf s p = b) := by
  unfold freeSet
  by_cases lo : p + QUANTUM * szOf s p = b <;> by_cases up : b + QUANTUM * szOf s b = nxOf s p
  · rw [if_pos lo, if_pos up, Finset.mem_erase]
    constructor
    · rintro ⟨h1, h2⟩
      exact Or.inl ⟨h2, fun h => h1 h.2⟩
    · rintro (⟨h1, h2⟩ | ⟨_, h2⟩)
      · exact ⟨fun h => h2 ⟨up, h⟩, h1⟩
      · exact absurd lo h2
  · rw [if_pos lo, if_neg up]
    constructor
    · intro h
      exact Or.inl ⟨h, fun h => up h.1⟩
    · rintro (⟨h1, _⟩ | ⟨_, h2⟩)
      · exact h1
      · exact absurd lo h2
  · rw [if_neg lo, if_pos up, Finset.mem_insert, Finset.mem_erase]
    constructor
    · rintro (h | ⟨h1, h2⟩)
      · exact Or.inr ⟨h, lo⟩
      · exact Or.inl ⟨h2, fun h => h1 h.2⟩
    · rintro (⟨h1, h2⟩ | ⟨h1, _⟩)
      · exact Or.inr ⟨fun h => h2 ⟨up, h⟩, h1⟩
      · exact Or.inl h1
  · rw [if_neg lo, if_neg up, Finset.mem_insert]
    constructor
    · rintro (h | h)
      · exact Or.inr ⟨h, lo⟩
      · exact Or.inl ⟨h, fun h => up h.1⟩
    · rintro (⟨h1, _⟩ | ⟨h1, _⟩)
      · exact Or.inr h1
      · exact Or.inl h1

/-- A free block that abuts the released block from above is the successor
of the insertion point. -/
theorem insCond_upper {L : Layout} {s : State} {F A : Finset Nat} {b p u : Nat}
    (hw : WF L s F A) (hb : b ∈ A) (hp : p ∈ F) (hc : InsCond (nxOf s) b p)
    (hu : u ∈ F) (hadj : u = b + QUANTUM * szOf s b) : nxOf s p = u := by
  have hs := hw.shape
  have hL := hw.layout
  have hn := hs.ring p hp
  have nb := hw.wnode (Or.inr hb)
  have nn := hw.wnode (Or.inl hn.1)
  have hbF : b ∉ F := hs.disj b hb
  have htop := hw.pfp_le
  obtain ⟨l1, l2, l3, l4, l5⟩ := hL
  rcases nb with ⟨_, _, h⟩ | nb
  · exact absurd h hbF
  have sep : Hdr L F A (nxOf s p) → b < nxOf s p → b + QUANTUM * szOf s b ≤ nxOf s p :=
    fun h => hs.tiling.2 b (nxOf s p) (Or.inr hb) h
  rcases hn.2 with ⟨hlt, hno⟩ | ⟨hge, hall⟩
  · have e1 := hno u hu
    rcases hc with ⟨c1, c2⟩ | ⟨c1, _⟩
    · rcases nn with ⟨e, _, _⟩ | nn
      · simp only [QUANTUM_eq, POOL_SIZE_eq, SIZE_MOD_eq] at *
        omega
      · have := sep nn.1 c2
        simp only [QUANTUM_eq, POOL_SIZE_eq, SIZE_MOD_eq] at *
        omega
    · omega
  · have e1 := hall u hu
    rcases hc with ⟨c1, c2⟩ | ⟨_, c2 | c2⟩
    · omega
    · simp only [QUANTUM_eq] at *
      omega
    · rcases nn with ⟨e, _, _⟩ | nn
      · simp only [QUANTUM_eq, POOL_SIZE_eq, SIZE_MOD_eq] at *
        omega
      · have := sep nn.1 c2
        simp only [QUANTUM_eq, POOL_SIZE_eq, SIZE_MOD_eq] at *
        omega

/-- A free block that abuts the released block from below is the insertion point. -/
theorem insCond_lower {L : Layout} {s : State} {F A : Finset Nat} {b p q : Nat}
    (hw : WF L s F A) (hb : b ∈ A) (hp : p ∈ F) (hc : InsCond (nxOf s) b p)
    (hq : q ∈ F) (hadj : q + QUANTUM * szOf s q = b) : q = p := by
  have hs := hw.shape
  have hL := hw.layout
  have hn := hs.ring p hp
  have nb := hw.wnode (Or.inr hb)
  have np := hw.wnode (Or.inl hp)
  have nq := hw.wnode (Or.inl hq)
  have hbF : b ∉ F := hs.disj b hb
  have htop := hw.pfp_le
  obtain ⟨l1, l2, l3, l4, l5⟩ := hL
  rcases nb with ⟨_, _, h⟩ | nb
  · exact absurd h hbF
  rcases nq with ⟨e, e0, _⟩ | nq
  · rw [e0] at hadj
    exact absurd (by omega) nb.2.1
  have sep : Hdr L F A p → q < p → q + QUANTUM * szOf s q ≤ p :=
    fun h => hs.tiling.2 q p nq.1 h
  by_contra hne
  rcases hn.2 with ⟨hlt, hno⟩ | ⟨hge, hall⟩
  · have e1 := hno q hq
    rcases hc with ⟨c1, c2⟩ | ⟨c1, _⟩
    · rcases np with ⟨e, _, _⟩ | np
      · simp only [QUANTUM_eq, POOL_SIZE_eq, SIZE_MOD_eq] at *
        omega
      · have := sep np.1
        simp only [QUANTUM_eq, POOL_SIZE_eq, SIZE_MOD_eq] at *
        omega
    · omega
  · have e1 := hall q hq
    rcases hc with ⟨c1, c2⟩ | ⟨_, c2 | c2⟩
    · omega
    · rcases np with ⟨e, _, _⟩ | np
      · simp only [QUANTUM_eq, POOL_SIZE_eq, SIZE_MOD_eq] at *
        omega
      · have := sep np.1
        simp only [QUANTUM_eq, POOL_SIZE_eq, SIZE_MOD_eq] at *
        omega
    · simp only [QUANTUM_eq] at *
      omega

theorem WF.hdrAdd_eq {L : Layout} {s : State} {F A : Finset Nat} (hw : WF L s F A) {x : Nat}
    (hx : x ∈ F) : hdrAdd x (szOf s x) = x + QUANTUM * szOf s x :=
  hdrAdd_of_lt (by
    have := (hw.shape.lt_mod hw.layout hw.pfp_le (Or.inl hx)).2.1
    simpa [QUANTUM_eq] using this)

theorem WF.hdrAdd_eq_alloc {L : Layout} {s : State} {F A : Finset Nat} (hw : WF L s F A)
    {x : Nat} (hx : x ∈ A) : hdrAdd x (szOf s x) = x + QUANTUM * szOf s x :=
  hdrAdd_of_lt (by
    have := (hw.shape.lt_mod hw.layout hw.pfp_le (Or.inr hx)).2.1
    simpa [QUANTUM_eq] using this)

/-- A release keeps the free list free of adjacent blocks. -/
theorem noAdj_free {L : Layout} {s : State} {F A : Finset Nat} {b p : Nat}
    (hw : WF L s F A) (hadj : NoAdj s F) (hb : b ∈ A) (hp : p ∈ F)
    (hc : InsCond (nxOf s) b p)
    (hw' : WF L (freedState s b p) (freeSet s F b p) (A.erase b)) :
    NoAdj (freedState s b p) (freeSet s F b p) := by
  have hs := hw.shape
  have hL := hw.layout
  have hbF : b ∉ F := hs.disj b hb
  have hpb : p ≠ b := fun e => hbF (e ▸ hp)
  have hu := ring_next_mem hs.ring hp
  obtain ⟨e_other, _, e_sb, _, e_sp⟩ := freed_fields hs hL hw.pfp_le hb hp
  have hup := fun u hu' => insCond_upper (u := u) hw hb hp hc hu'
  have hlo := fun q hq' => insCond_lower (q := q) hw hb hp hc hq'
  have nb := hw.wnode (Or.inr hb)
  have nu := hw.wnode (Or.inl hu)
  have old : ∀ x ∈ F, ∀ y ∈ F, x ≠ y → x + QUANTUM * szOf s x ≠ y := by
    intro x hx y hy hxy
    have := hadj x hx y hy hxy
    rwa [hw.hdrAdd_eq hx] at this
  -- size of a member of the new list
  have hsz : ∀ x ∈ F, x ≠ p → szOf (freedState s b p) x = szOf s x :=
    fun x hx hxp => (e_other x (Or.inl hx) (fun e => hbF (e ▸ hx)) hxp).2
  -- the end of the block that now holds `b` is not a member
  have hend : ∀ y ∈ F, ¬ (b + QUANTUM * szOf s b = nxOf s p ∧ y = nxOf s p) →
      b + QUANTUM * szOf (freedState s b p) b ≠ y := by
    intro y hy hny e
    rw [e_sb] at e
    by_cases up : b + QUANTUM * szOf s b = nxOf s p
    · rw [if_pos up] at e
      have hne : nxOf s p ≠ y := fun h => hny ⟨up, h.symm⟩
      have := old _ hu y hy hne
      simp only [QUANTUM_eq] at *
      omega
    · rw [if_neg up] at e
      exact up (hup y hy e.symm ▸ e)
  intro x hx y hy hxy
  rw [hw'.hdrAdd_eq hx]
  rw [mem_freeSet hbF] at hx hy
  intro e
  rcases hx with ⟨hxF, _⟩ | ⟨hxb, hnlo⟩
  · by_cases hxp : x = p
    · subst hxp
      rw [e_sp] at e
      by_cases lo : x + QUANTUM * szOf s x = b
      · rw [if_pos lo] at e
        rcases hy with ⟨hyF, hny⟩ | ⟨_, hnlo⟩
        · refine hend y hyF hny ?_
          simp only [QUANTUM_eq] at *
          omega
        · exact hnlo lo
      · rw [if_neg lo] at e
        rcases hy with ⟨hyF, _⟩ | ⟨hyb, _⟩
        · exact old x hxF y hyF hxy e
        · exact lo (hyb ▸ e)
    · rw [hsz x hxF hxp] at e
      rcases hy with ⟨hyF, _⟩ | ⟨hyb, _⟩
      · exact old x hxF y hyF hxy e
      · exact hxp (hlo x hxF (hyb ▸ e))
  · subst hxb
    rcases hy with ⟨hyF, hny⟩ | ⟨hyb, _⟩
    · exact hend y hyF hny e
    · exact hxy hyb.symm

/-- A state whose free list is just the sentinel has no adjacent free blocks. -/
theorem noAdj_singleton (s : State) (x : Nat) : NoAdj s {x} := by
  intro p hp q hq hpq
  rw [Finset.mem_singleton] at hp hq
  exact absurd (hp.trans hq.symm) hpq

/-! ## Round trips -/

/-- Writing into the payload of an allocated block keeps the state well formed. -/
theorem wf_poke {L : Layout} {s : State} {F A : Finset Nat} {l x : Nat} (hw : WF L s F A)
    (hl : l ∈ A) (h1 : l + QUANTUM ≤ x) (h2 : x < l + QUANTUM * szOf s l) (v : Nat) :
    WF L (pokeState s x v) F A := by
  have hs := hw.shape
  have hx : Owned s A x := ⟨l, hl, by omega, h2⟩
  have key : ∀ y, (y ∈ F ∨ y ∈ A) → x ≠ y ∧ x ≠ y + 8 := by
    intro y hy
    rcases hy with hy | hy
    · exact hw.owned_ne hx hy
    · have nl := hw.wnode (Or.inr hl)
      have ny := hw.wnode (Or.inr hy)
      have hlF : l ∉ F := hs.disj l hl
      have hyF : y ∉ F := hs.disj y hy
      have s1 := hs.tiling.2 l y (Or.inr hl) (Or.inr hy)
      have s2 := hs.tiling.2 y l (Or.inr hy) (Or.inr hl)
      rcases nl with ⟨_, _, h⟩ | nl
      · exact absurd h hlF
      rcases ny with ⟨_, _, h⟩ | ny
      · exact absurd h hyF
      simp only [QUANTUM_eq] at *
      omega
  refine ⟨hw.layout, hw.pfp_le, hw.pfp_al, hw.freep_mem, shape_congr hs ?_ ?_⟩
  · intro a ha
    show store s.mem x v a = s.mem a
    rw [store_ne (fun e => (key a (Or.inl ha)).1 e.symm)]
  · intro y hy
    show store s.mem x v (y + 8) = s.mem (y + 8)
    rw [store_ne (fun e => (key y hy).2 e.symm)]

theorem churn_keeps {L : Layout} {s : State} {F A : Finset Nat} {l : Nat} (hw : WF L s F A)
    (hl : l ∈ A) {s' : State} {A' : Finset Nat} (hc : Churn L l s A s' A') :
    (∃ F', WF L s' F' A') ∧ l ∈ A' ∧ szOf s' l = szOf s l ∧
      ∀ x, l ≤ x → x < l + QUANTUM * szOf s l → s'.mem x = s.mem x := by
  induction hc with
  | refl => exact ⟨⟨F, hw⟩, hl, rfl, fun _ _ _ => rfl⟩
  | @alloc s1 A1 nbytes r s2 _ hn hret ih =>
    obtain ⟨⟨F1, hw1⟩, hl1, hsz1, hmem1⟩ := ih
    have hw1' : WF L (readyState L s1) F1 A1 := by
      rw [readyState_live L hw1.freep_ne]; exact hw1
    have hpost := (alloc_total hw1' (by have := pool_le_mod; omega)).2 r s2 hret
    rw [readyState_live L hw1.freep_ne] at hpost
    obtain ⟨hfr, hszs⟩ := allocPost_frame hpost
    refine ⟨allocPost_wf hw1 hpost, ?_, ?_, ?_⟩
    · unfold afterAlloc
      split_ifs
      · exact hl1
      · exact Finset.mem_insert_of_mem hl1
    · rw [hszs l hl1, hsz1]
    · intro x hx1 hx2
      rw [hfr x ⟨l, hl1, hx1, by rw [hsz1]; exact hx2⟩, hmem1 x hx1 hx2]
  | @free s1 A1 h s2 _ hh hhl hret ih =>
    obtain ⟨⟨F1, hw1⟩, hl1, hsz1, hmem1⟩ := ih
    obtain ⟨s3, _, huniq, _, hfr, hszs, hcase⟩ := free_spec hw1 hh
    have hl2 : l ∈ A1.erase h := Finset.mem_erase.2 ⟨fun e => hhl e.symm, hl1⟩
    rw [huniq s2 hret]
    refine ⟨?_, hl2, ?_, ?_⟩
    · rcases hcase with ⟨_, _, hwf⟩ | ⟨_, p, _, _, _, hwf⟩
      · exact ⟨_, hwf⟩
      · exact ⟨_, hwf⟩
    · rw [hszs l hl2, hsz1]
    · intro x hx1 hx2
      rw [hfr x ⟨l, hl2, hx1, by rw [hsz1]; exact hx2⟩, hmem1 x hx1 hx2]

theorem hdr_iff (L : Layout) (F A : Finset Nat) (h : Nat) :
    Hdr L F A h ↔ h ∈ F.erase L.base ∪ A := by
  unfold Hdr
  rw [Finset.mem_union, Finset.mem_erase]
  constructor
  · rintro (⟨h1, h2⟩ | h1)
    · exact Or.inl ⟨h2, h1⟩
    · exact Or.inr h1
  · rintro (⟨h1, h2⟩ | h1)
    · exact Or.inl ⟨h2, h1⟩
    · exact Or.inr h1

/-- The checkable form implies well-formedness. -/
theorem wf_of_check {L : Layout} {s : State} {F A : Finset Nat} (h : WFcheck L s F A) :
    WF L s F A := by
  obtain ⟨h1, h2, h3, h4, h5, h6, h7, h8, h9, h10⟩ := h
  refine ⟨h1, h2, h3, h4, ⟨h5, h6, h7, ⟨?_, ?_⟩, h10⟩⟩
  · intro x hx
    exact h8 x ((hdr_iff L F A x).1 hx)
  · intro x y hx hy
    exact h9 x ((hdr_iff L F A x).1 hx) y ((hdr_iff L F A y).1 hy)

theorem demo_wf : WF layoutLow demoState demoFree demoAlloc := wf_of_check (by decide)

theorem demo_noAdj : NoAdj demoState demoFree := by decide

/-- C9. Round-trip integrity: for a currently allocated block `l` of a
well-formed state, a word written into its payload keeps the state well
formed, and after any history of `hackweekmgr_alloc` calls for at most
`POOL_SIZE` bytes and `hackweekmgr_free` calls on currently allocated
references other than that of `l` (all of which return), `l` is still
allocated, the size field of its header is unchanged and every word of its
payload reads as before. -/
theorem roundtrip_integrity {L : Layout} {s : State} {F A : Finset Nat} {l : Nat}
    (hw : WF L s F A) (hl : l ∈ A) :
    (∀ x v, l + QUANTUM ≤ x → x < l + QUANTUM * szOf s l →
      WF L (pokeState s x v) F A ∧ szOf (pokeState s x v) l = szOf s l ∧
        (pokeState s x v).mem x = v) ∧
    (∀ s' A', Churn L l s A s' A' →
      l ∈ A' ∧ szOf s' l = szOf s l ∧
      (∀ x, l + QUANTUM ≤ x → x < l + QUANTUM * szOf s l → s'.mem x = s.mem x) ∧
      (∀ nbytes, nbytes ≤ POOL_SIZE → ∃ r s'', AllocRet L s' nbytes r s'') ∧
      (∀ h ∈ A', ∃ s'', FreeRet L s' (h + QUANTUM) s'')) := by
  refine ⟨?_, ?_⟩
  · intro x v h1 h2
    refine ⟨wf_poke hw hl h1 h2 v, ?_, ?_⟩
    · show store s.mem x v (l + 8) = s.mem (l + 8)
      rw [store_ne (by simp only [QUANTUM_eq] at *; omega)]
    · show store s.mem x v x = v
      rw [store_same]
  · intro s' A' hc
    obtain ⟨⟨F', hw'⟩, h1, h2, h3⟩ := churn_keeps hw hl hc
    refine ⟨h1, h2, fun x hx1 hx2 => h3 x (by omega) hx2, ?_, ?_⟩
    · intro nbytes hn
      have hw'' : WF L (readyState L s') F' A' := by
        rw [readyState_live L hw'.freep_ne]; exact hw'
      exact (alloc_total hw'' (by have := pool_le_mod; omega)).1
    · intro h hh
      obtain ⟨s3, hret, _⟩ := free_spec hw' hh
      exact ⟨s3, hret⟩

/-- Witness of C9: the block allocated in `demoState`. -/
theorem roundtrip_integrity_witness :
    WF layoutLow demoState demoFree demoAlloc ∧ (0x1000001C0 : Nat) ∈ demoAlloc ∧
    ((∀ x v, 0x1000001C0 + QUANTUM ≤ x → x < 0x1000001C0 + QUANTUM * szOf demoState 0x1000001C0 →
      WF layoutLow (pokeState demoState x v) demoFree demoAlloc ∧
        szOf (pokeState demoState x v) 0x1000001C0 = szOf demoState 0x1000001C0 ∧
        (pokeState demoState x v).mem x = v) ∧
    (∀ s' A', Churn layoutLow 0x1000001C0 demoState demoAlloc s' A' →
      0x1000001C0 ∈ A' ∧ szOf s' 0x1000001C0 = szOf demoState 0x1000001C0 ∧
      (∀ x, 0x1000001C0 + QUANTUM ≤ x →
        x < 0x1000001C0 + QUANTUM * szOf demoState 0x1000001C0 → s'.mem x = demoState.mem x) ∧
      (∀ nbytes, nbytes ≤ POOL_SIZE → ∃ r s'', AllocRet layoutLow s' nbytes r s'') ∧
      (∀ h ∈ A', ∃ s'', FreeRet layoutLow s' (h + QUANTUM) s''))) :=
  ⟨demo_wf, by decide, roundtrip_integrity demo_wf (by decide)⟩

/-! ## Evaluating calls step by step

Rewrite rules that run the model one control decision at a time; their side
conditions are facts of linear arithmetic about addresses and sizes. -/

theorem store_eq {m : Nat → Nat} {a x v : Nat} (h : x = a) : store m a v x = v := by
  subst h; exact store_same _ _ _

theorem wrap_lit {x : Nat} (h : x < 18446744073709551616) : wrap x = x :=
  wrap_of_lt (by rw [SIZE_MOD_eq]; exact h)

theorem hdrAdd_lit {p k : Nat} (h : p + 32 * k < 18446744073709551616) :
    hdrAdd p k = p + 32 * k :=
  hdrAdd_of_lt (by rw [SIZE_MOD_eq, QUANTUM_eq]; exact h)

theorem fi_stop1 {m : Nat → Nat} {b f p : Nat} (hf : 0 < f) (hp : p ≠ 0)
    (h : b > p ∧ b < m p) : findInsert m b f p = .ok p := by
  obtain ⟨g, rfl⟩ : ∃ g, f = g + 1 := ⟨f - 1, by omega⟩
  unfold findInsert
  simp only [nextAddr]
  rw [if_neg hp, if_pos h]

theorem fi_stop2 {m : Nat → Nat} {b f p : Nat} (hf : 0 < f) (hp : p ≠ 0)
    (h1 : ¬ (b > p ∧ b < m p)) (h : p ≥ m p ∧ (b > p ∨ b < m p)) :
    findInsert m b f p = .ok p := by
  obtain ⟨g, rfl⟩ : ∃ g, f = g + 1 := ⟨f - 1, by omega⟩
  unfold findInsert
  simp only [nextAddr]
  rw [if_neg hp, if_neg h1, if_pos h]

theorem fi_step {m : Nat → Nat} {b f p : Nat} (hf : 0 < f) (hp : p ≠ 0)
    (h1 : ¬ (b > p ∧ b < m p)) (h : ¬ (p ≥ m p ∧ (b > p ∨ b < m p))) :
    findInsert m b f p = findInsert m b (f - 1) (m p) := by
  obtain ⟨g, rfl⟩ : ∃ g, f = g + 1 := ⟨f - 1, by omega⟩
  conv_lhs => unfold findInsert
  simp only [nextAddr]
  rw [if_neg hp, if_neg h1, if_neg h]
  rfl

theorem free_in {L : Layout} {f : Nat} {s : State} {ap : Nat}
    (hL : L.pool + 1073741824 < 18446744073709551616)
    (h1 : ap < L.pool + 1073741824) (h2 : L.pool < ap) (h3 : 32 ≤ ap) :
    hackweekmgr_free L f s ap = freeFinish s (ap - 32) (findInsert s.mem (ap - 32) f s.freep) := by
  have hend : wrap (POOL_SIZE + L.pool) = L.pool + 1073741824 := by
    rw [Nat.add_comm, POOL_SIZE_eq]; exact wrap_lit hL
  have hpred : hdrPred ap = ap - 32 :=
    hdrPred_of_le (by rw [QUANTUM_eq]; exact h3) (by rw [SIZE_MOD_eq]; omega)
  unfold hackweekmgr_free
  simp only [hend, hpred]
  rw [if_neg (by simp only [not_not]; exact ⟨h1, h2⟩), if_neg (by omega)]
  cases findInsert s.mem (ap - 32) f s.freep <;> rfl

theorem freeFinish_ok {s : State} {b p : Nat} (h : s.mem p ≠ 0) :
    freeFinish s b (.ok p) =
      .ok { freep := p, pool_free_pos := s.pool_free_pos,
            mem := joinLower (joinUpper s.mem b p) b p } := by
  unfold freeFinish
  simp only [nextAddr]
  rw [if_neg (fun hc => h hc.2)]
  rfl

theorem ju_merge {m : Nat → Nat} {b p : Nat} (h : b + 32 * m (b + 8) = m p)
    (hb : b + 32 * m (b + 8) < 18446744073709551616)
    (hs : m (b + 8) + m (m p + 8) < 18446744073709551616)
    (h1 : p ≠ b + 8) (h2 : m p ≠ b + 8) :
    joinUpper m b p = store (store m (b + 8) (m (b + 8) + m (m p + 8))) b (m (m p)) := by
  unfold joinUpper
  simp only [nextAddr, sizeAddr]
  rw [hdrAdd_lit hb, if_pos h, wrap_lit hs]
  simp only [store_ne h1, store_ne h2]

theorem ju_plain {m : Nat → Nat} {b p : Nat} (h : b + 32 * m (b + 8) ≠ m p)
    (hb : b + 32 * m (b + 8) < 18446744073709551616) :
    joinUpper m b p = store m b (m p) := by
  unfold joinUpper
  simp only [nextAddr, sizeAddr]
  rw [hdrAdd_lit hb, if_neg h]

theorem jl_merge {m : Nat → Nat} {b p : Nat} (h : p + 32 * m (p + 8) = b)
    (hb : p + 32 * m (p + 8) < 18446744073709551616)
    (hs : m (p + 8) + m (b + 8) < 18446744073709551616)
    (h1 : b ≠ p + 8) :
    joinLower m b p = store (store m (p + 8) (m (p + 8) + m (b + 8))) p (m b) := by
  unfold joinLower
  simp only [nextAddr, sizeAddr]
  rw [hdrAdd_lit hb, if_pos h, wrap_lit hs]
  simp only [store_ne h1]

theorem jl_plain {m : Nat → Nat} {b p : Nat} (h : p + 32 * m (p + 8) ≠ b)
    (hb : p + 32 * m (p + 8) < 18446744073709551616) :
    joinLower m b p = store m p b := by
  unfold joinLower
  simp only [nextAddr, sizeAddr]
  rw [hdrAdd_lit hb, if_neg h]

theorem claimQuanta_small {nq : Nat} (h : nq < 16) : claimQuanta nq = 16 := by
  unfold claimQuanta MIN_POOL_ALLOC_QUANTAS
  rw [if_pos h]

theorem claimQuanta_big {nq : Nat} (h : 16 ≤ nq) : claimQuanta nq = nq := by
  unfold claimQuanta MIN_POOL_ALLOC_QUANTAS
  rw [if_neg (by omega)]

theorem gm_fail {L : Layout} {f : Nat} {s : State} {nq : Nat}
    (hq : 32 * claimQuanta nq < 18446744073709551616)
    (hs : s.pool_free_pos + 32 * claimQuanta nq < 18446744073709551616)
    (h : ¬ s.pool_free_pos + 32 * claimQuanta nq ≤ 1073741824) :
    get_mem_from_pool L f s nq = .ok (0, s) := by
  unfold get_mem_from_pool
  rw [QUANTUM_eq, Nat.mul_comm, wrap_lit hq, wrap_lit hs, POOL_SIZE_eq, if_neg h]

theorem gm_ok {L : Layout} {f : Nat} {s : State} {nq : Nat}
    (hq : 32 * claimQuanta nq < 18446744073709551616)
    (hs : s.pool_free_pos + 32 * claimQuanta nq < 18446744073709551616)
    (h : s.pool_free_pos + 32 * claimQuanta nq ≤ 1073741824)
    (hp : L.pool + s.pool_free_pos + 32 < 18446744073709551616) :
    get_mem_from_pool L f s nq =
      claimFinish (32 * claimQuanta nq) (hackweekmgr_free L f
        { freep := s.freep, pool_free_pos := s.pool_free_pos,
          mem := store s.mem (L.pool + s.pool_free_pos + 8) (claimQuanta nq) }
        (L.pool + s.pool_free_pos + 32)) := by
  have e3 : wrap (L.pool + s.pool_free_pos) = L.pool + s.pool_free_pos := wrap_lit (by omega)
  have e4 : hdrAdd (L.pool + s.pool_free_pos) 1 = L.pool + s.pool_free_pos + 32 := by
    rw [hdrAdd_lit (by omega)]
  unfold get_mem_from_pool stampedState
  rw [QUANTUM_eq, Nat.mul_comm, wrap_lit hq, wrap_lit hs, POOL_SIZE_eq, if_pos h, e3, e4]
  simp only [sizeAddr]
  cases hackweekmgr_free L f
    { freep := s.freep, pool_free_pos := s.pool_free_pos,
      mem := store s.mem (L.pool + s.pool_free_pos + 8) (claimQuanta nq) }
    (L.pool + s.pool_free_pos + 32) <;> rfl

theorem claimFinish_ok {total : Nat} {s2 : State}
    (h : s2.pool_free_pos + total < 18446744073709551616) :
    claimFinish total (.ok s2) =
      .ok (s2.freep, { freep := s2.freep, pool_free_pos := s2.pool_free_pos + total,
                       mem := s2.mem }) := by
  simp only [claimFinish, wrap_lit h]

theorem al_exact {L : Layout} {ff nq f : Nat} {s : State} {pp p : Nat} (hf : 0 < f)
    (hp : p ≠ 0) (h : s.mem (p + 8) = nq) (hb : p + 32 < 18446744073709551616) :
    allocLoop L ff nq f s pp p =
      .ok (p + 32, { freep := pp, pool_free_pos := s.pool_free_pos,
                     mem := store s.mem pp (s.mem p) }) := by
  obtain ⟨g, rfl⟩ : ∃ g, f = g + 1 := ⟨f - 1, by omega⟩
  unfold allocLoop
  simp only [nextAddr, sizeAddr]
  rw [if_neg hp, if_pos (by omega), if_pos h, hdrAdd_lit (by omega)]

theorem al_split {L : Layout} {ff nq f : Nat} {s : State} {pp p : Nat} (hf : 0 < f)
    (hp : p ≠ 0) (h : nq < s.mem (p + 8))
    (hb : p + 32 * s.mem (p + 8) + 32 < 18446744073709551616) :
    allocLoop L ff nq f s pp p =
      .ok (p + 32 * (s.mem (p + 8) - nq) + 32,
        { freep := pp, pool_free_pos := s.pool_free_pos,
          mem := store (store s.mem (p + 8) (s.mem (p + 8) - nq))
            (p + 32 * (s.mem (p + 8) - nq) + 8) nq }) := by
  obtain ⟨g, rfl⟩ : ∃ g, f = g + 1 := ⟨f - 1, by omega⟩
  have e1 : wrap (SIZE_MOD + s.mem (p + 8) - nq) = s.mem (p + 8) - nq := by
    unfold wrap
    have : SIZE_MOD + s.mem (p + 8) - nq = (s.mem (p + 8) - nq) + SIZE_MOD := by omega
    rw [this, Nat.add_mod_right]
    exact Nat.mod_eq_of_lt (by rw [SIZE_MOD_eq]; omega)
  unfold allocLoop
  simp only [nextAddr, sizeAddr]
  rw [if_neg hp, if_pos (by omega), if_neg (by omega)]
  have e2 : hdrAdd p (s.mem (p + 8) - nq) = p + 32 * (s.mem (p + 8) - nq) :=
    hdrAdd_lit (by omega)
  have e3 : hdrAdd (p + 32 * (s.mem (p + 8) - nq)) 1 = p + 32 * (s.mem (p + 8) - nq) + 32 := by
    rw [hdrAdd_lit (by omega)]
  simp only [e1, store_same, e2, e3]

theorem al_next {L : Layout} {ff nq f : Nat} {s : State} {pp p : Nat} (hf : 0 < f)
    (hp : p ≠ 0) (h : s.mem (p + 8) < nq) (hfp : p ≠ s.freep) :
    allocLoop L ff nq f s pp p = allocLoop L ff nq (f - 1) s p (s.mem p) := by
  obtain ⟨g, rfl⟩ : ∃ g, f = g + 1 := ⟨f - 1, by omega⟩
  exact allocLoop_next hp (by show ¬ nq ≤ s.mem (p + 8); omega) hfp

theorem al_claim {L : Layout} {ff nq f : Nat} {s : State} {pp p : Nat} (hf : 0 < f)
    (hp : p ≠ 0) (h : s.mem (p + 8) < nq) (hfp : p = s.freep) :
    allocLoop L ff nq f s pp p = claimCont L ff nq (f - 1) (get_mem_from_pool L ff s nq) := by
  obtain ⟨g, rfl⟩ : ∃ g, f = g + 1 := ⟨f - 1, by omega⟩
  rw [allocLoop_claim hp (by show ¬ nq ≤ s.mem (p + 8); omega) hfp]
  unfold claimStep claimCont
  cases get_mem_from_pool L ff s nq <;> rfl

theorem claimCont_null {L : Layout} {ff nq f : Nat} {s1 : State} :
    claimCont L ff nq f (.ok (0, s1)) = .ok (0, s1) := by
  simp only [claimCont, if_true]

theorem claimCont_go {L : Layout} {ff nq f p1 : Nat} {s1 : State} (h : p1 ≠ 0) :
    claimCont L ff nq f (.ok (p1, s1)) = allocLoop L ff nq f s1 p1 (s1.mem p1) := by
  simp only [claimCont, nextAddr]
  rw [if_neg h]

theorem aq_first {L : Layout} {f nq : Nat} {s : State} (h : s.freep = 0) :
    allocQuanta L f s nq =
      allocLoop L f nq f
        { freep := L.base, pool_free_pos := 0,
          mem := store (store (store (store s.mem L.base 0) (L.base + 8) 0) L.base L.base)
            (L.base + 8) 0 } L.base L.base := by
  unfold allocQuanta
  rw [if_pos h]
  simp only [hackweekmgr_init, nextAddr, sizeAddr, store_same]
  rw [store_ne (by omega), store_same]

theorem aq_live {L : Layout} {f nq : Nat} {s : State} (h : s.freep ≠ 0) :
    allocQuanta L f s nq = allocLoop L f nq f s s.freep (s.mem s.freep) := by
  unfold allocQuanta
  rw [if_neg h]
  rfl

/-! ## The coalescing scenario, path by path

The scenario takes one of six paths, by the number of quanta of a block; each
is run here for a sentinel below the pool and for one above it. -/

set_option maxHeartbeats 1000000 in
theorem run_low_a (L : Layout) (hL : L.ok) (hside : L.base + 32 ≤ L.pool) (s : State)
    (f n k : Nat) (hf : 8 ≤ f) (hn : 1 ≤ n) (hn2 : n ≤ 3) (hk1 : 1 ≤ k) (hk : k ≤ 2 * n - 1) :
    ∃ o, scenario L f s n k = some o ∧ Served n k o ∧ Spare k o := by
  obtain ⟨l1, l2, l3, l4, -⟩ := hL
  simp only [QUANTUM_eq, POOL_SIZE_eq, SIZE_MOD_eq] at l1 l2 l3 l4
  unfold scenario
  simp (disch := first | omega | (simp (disch := omega) only [store_eq, store_ne, claimQuanta_small, claimQuanta_big] <;> omega) | skip) only
    [fi_stop1, fi_stop2, fi_step, free_in, freeFinish_ok, ju_merge, ju_plain, jl_merge, jl_plain,
     claimQuanta_small, claimQuanta_big, gm_fail, gm_ok, claimFinish_ok, al_exact, al_split, al_next,
     al_claim, claimCont_null, claimCont_go, aq_first, aq_live, store_eq, store_ne, hackweekmgr_init,
     nextAddr, sizeAddr, Nat.add_zero, Nat.zero_add, Nat.add_sub_cancel, Nat.reduceMul,
     Nat.reduceAdd, Nat.reduceSub]
  refine ⟨_, rfl, ?_, ?_⟩
  · unfold Served Apart
    refine ⟨?_, rfl, ?_⟩ <;> simp only [QUANTUM_eq] <;> omega
  · unfold Spare
    simp only [QUANTUM_eq]
    omega

set_option maxHeartbeats 1000000 in
theorem run_low_b (L : Layout) (hL : L.ok) (hside : L.base + 32 ≤ L.pool) (s : State)
    (f n k : Nat) (hf : 8 ≤ f) (hn : 4 ≤ n) (hn2 : n ≤ 5) (hk1 : 2 * n - 2 ≤ k) (hk : k ≤ 2 * n - 1) :
    ∃ o, scenario L f s n k = some o ∧ Served n k o ∧ Reused n k o := by
  obtain ⟨l1, l2, l3, l4, -⟩ := hL
  simp only [QUANTUM_eq, POOL_SIZE_eq, SIZE_MOD_eq] at l1 l2 l3 l4
  unfold scenario
  simp (disch := first | omega | (simp (disch := omega) only [store_eq, store_ne, claimQuanta_small, claimQuanta_big] <;> omega) | skip) only
    [fi_stop1, fi_stop2, fi_step, free_in, freeFinish_ok, ju_merge, ju_plain, jl_merge, jl_plain,
     claimQuanta_small, claimQuanta_big, gm_fail, gm_ok, claimFinish_ok, al_exact, al_split, al_next,
     al_claim, claimCont_null, claimCont_go, aq_first, aq_live, store_eq, store_ne, hackweekmgr_init,
     nextAddr, sizeAddr, Nat.add_zero, Nat.zero_add, Nat.add_sub_cancel, Nat.reduceMul,
     Nat.reduceAdd, Nat.reduceSub]
  refine ⟨_, rfl, ?_, ?_⟩
  · unfold Served Apart
    refine ⟨?_, rfl, ?_⟩ <;> simp only [QUANTUM_eq] <;> omega
  · unfold Reused Holds Within szOf nxOf sizeAddr nextAddr
    left
    simp (disch := omega) only [store_eq, store_ne, QUANTUM_eq]
    omega

set_option maxHeartbeats 1000000 in
theorem run_low_c (L : Layout) (hL : L.ok) (hside : L.base + 32 ≤ L.pool) (s : State)
    (f n k : Nat) (hf : 8 ≤ f) (hn : 6 ≤ n) (hn2 : n ≤ 7) (hk1 : 1 ≤ k) (hk : k ≤ 2 * n - 1) :
    ∃ o, scenario L f s n k = some o ∧ Served n k o ∧ Reused n k o := by
  obtain ⟨l1, l2, l3, l4, -⟩ := hL
  simp only [QUANTUM_eq, POOL_SIZE_eq, SIZE_MOD_eq] at l1 l2 l3 l4
  unfold scenario
  simp (disch := first | omega | (simp (disch := omega) only [store_eq, store_ne, claimQuanta_small, claimQuanta_big] <;> omega) | skip) only
    [fi_stop1, fi_stop2, fi_step, free_in, freeFinish_ok, ju_merge, ju_plain, jl_merge, jl_plain,
     claimQuanta_small, claimQuanta_big, gm_fail, gm_ok, claimFinish_ok, al_exact, al_split, al_next,
     al_claim, claimCont_null, claimCont_go, aq_first, aq_live, store_eq, store_ne, hackweekmgr_init,
     nextAddr, sizeAddr, Nat.add_zero, Nat.zero_add, Nat.add_sub_cancel, Nat.reduceMul,
     Nat.reduceAdd, Nat.reduceSub]
  refine ⟨_, rfl, ?_, ?_⟩
  · unfold Served Apart
    refine ⟨?_, rfl, ?_⟩ <;> simp only [QUANTUM_eq] <;> omega
  · unfold Reused Holds Within szOf nxOf sizeAddr nextAddr
    left
    simp (disch := omega) only [store_eq, store_ne, QUANTUM_eq]
    omega

set_option maxHeartbeats 1000000 in
theorem run_low_d (L : Layout) (hL : L.ok) (hside : L.base + 32 ≤ L.pool) (s : State)
    (f n k : Nat) (hf : 8 ≤ f) (hn : n = 8) (hk1 : 1 ≤ k) (hk : k ≤ 2 * n - 1) :
    ∃ o, scenario L f s n k = some o ∧ Served n k o ∧ Reused n k o := by
  obtain ⟨l1, l2, l3, l4, -⟩ := hL
  simp only [QUANTUM_eq, POOL_SIZE_eq, SIZE_MOD_eq] at l1 l2 l3 l4
  unfold scenario
  simp (disch := first | omega | (simp (disch := omega) only [store_eq, store_ne, claimQuanta_small, claimQuanta_big] <;> omega) | skip) only
    [fi_stop1, fi_stop2, fi_step, free_in, freeFinish_ok, ju_merge, ju_plain, jl_merge, jl_plain,
     claimQuanta_small, claimQuanta_big, gm_fail, gm_ok, claimFinish_ok, al_exact, al_split, al_next,
     al_claim, claimCont_null, claimCont_go, aq_first, aq_live, store_eq, store_ne, hackweekmgr_init,
     nextAddr, sizeAddr, Nat.add_zero, Nat.zero_add, Nat.add_sub_cancel, Nat.reduceMul,
     Nat.reduceAdd, Nat.reduceSub]
  refine ⟨_, rfl, ?_, ?_⟩
  · unfold Served Apart
    refine ⟨?_, rfl, ?_⟩ <;> simp only [QUANTUM_eq] <;> omega
  · unfold Reused Holds Within szOf nxOf sizeAddr nextAddr
    left
    simp (disch := omega) only [store_eq, store_ne, QUANTUM_eq]
    omega

set_option maxHeartbeats 1000000 in
theorem run_low_e (L : Layout) (hL : L.ok) (hside : L.base + 32 ≤ L.pool) (s : State)
    (f n k : Nat) (hf : 8 ≤ f) (hn : 9 ≤ n) (hn2 : n ≤ 15) (hk1 : 1 ≤ k) (hk : k ≤ 2 * n - 1) :
    ∃ o, scenario L f s n k = some o ∧ Served n k o ∧ Reused n k o := by
  obtain ⟨l1, l2, l3, l4, -⟩ := hL
  simp only [QUANTUM_eq, POOL_SIZE_eq, SIZE_MOD_eq] at l1 l2 l3 l4
  unfold scenario
  simp (disch := first | omega | (simp (disch := omega) only [store_eq, store_ne, claimQuanta_small, claimQuanta_big] <;> omega) | skip) only
    [fi_stop1, fi_stop2, fi_step, free_in, freeFinish_ok, ju_merge, ju_plain, jl_merge, jl_plain,
     claimQuanta_small, claimQuanta_big, gm_fail, gm_ok, claimFinish_ok, al_exact, al_split, al_next,
     al_claim, claimCont_null, claimCont_go, aq_first, aq_live, store_eq, store_ne, hackweekmgr_init,
     nextAddr, sizeAddr, Nat.add_zero, Nat.zero_add, Nat.add_sub_cancel, Nat.reduceMul,
     Nat.reduceAdd, Nat.reduceSub]
  refine ⟨_, rfl, ?_, ?_⟩
  · unfold Served Apart
    refine ⟨?_, rfl, ?_⟩ <;> simp only [QUANTUM_eq] <;> omega
  · unfold Reused Holds Within szOf nxOf sizeAddr nextAddr
    left
    simp (disch := omega) only [store_eq, store_ne, QUANTUM_eq]
    omega

set_option maxHeartbeats 1000000 in
theorem run_low_g (L : Layout) (hL : L.ok) (hside : L.base + 32 ≤ L.pool) (s : State)
    (f n k : Nat) (hf : 8 ≤ f) (hn : 16 ≤ n) (hn2 : n ≤ 4194305) (hk1 : 1 ≤ k) (hk : k ≤ 2 * n - 1) :
    ∃ o, scenario L f s n k = some o ∧ Served n k o ∧ Reused n k o := by
  obtain ⟨l1, l2, l3, l4, -⟩ := hL
  simp only [QUANTUM_eq, POOL_SIZE_eq, SIZE_MOD_eq] at l1 l2 l3 l4
  unfold scenario
  simp (disch := first | omega | (simp (disch := omega) only [store_eq, store_ne, claimQuanta_small, claimQuanta_big] <;> omega) | skip) only
    [fi_stop1, fi_stop2, fi_step, free_in, freeFinish_ok, ju_merge, ju_plain, jl_merge, jl_plain,
     claimQuanta_small, claimQuanta_big, gm_fail, gm_ok, claimFinish_ok, al_exact, al_split, al_next,
     al_claim, claimCont_null, claimCont_go, aq_first, aq_live, store_eq, store_ne, hackweekmgr_init,
     nextAddr, sizeAddr, Nat.add_zero, Nat.zero_add, Nat.add_sub_cancel, Nat.reduceMul,
     Nat.reduceAdd, Nat.reduceSub]
  refine ⟨_, rfl, ?_, ?_⟩
  · unfold Served Apart
    refine ⟨?_, rfl, ?_⟩ <;> simp only [QUANTUM_eq] <;> omega
  · unfold Reused Holds Within szOf nxOf sizeAddr nextAddr
    right
    simp (disch := omega) only [store_eq, store_ne, QUANTUM_eq]
    omega

set_option maxHeartbeats 1000000 in
theorem run_high_a (L : Layout) (hL : L.ok) (hside : L.pool + 1073741824 < L.base) (s : State)
    (f n k : Nat) (hf : 8 ≤ f) (hn : 1 ≤ n) (hn2 : n ≤ 3) (hk1 : 1 ≤ k) (hk : k ≤ 2 * n - 1) :
    ∃ o, scenario L f s n k = some o ∧ Served n k o ∧ Spare k o := by
  obtain ⟨l1, l2, l3, l4, -⟩ := hL
  simp only [QUANTUM_eq, POOL_SIZE_eq, SIZE_MOD_eq] at l1 l2 l3 l4
  unfold scenario
  simp (disch := first | omega | (simp (disch := omega) only [store_eq, store_ne, claimQuanta_small, claimQuanta_big] <;> omega) | skip) only
    [fi_stop1, fi_stop2, fi_step, free_in, freeFinish_ok, ju_merge, ju_plain, jl_merge, jl_plain,
     claimQuanta_small, claimQuanta_big, gm_fail, gm_ok, claimFinish_ok, al_exact, al_split, al_next,
     al_claim, claimCont_null, claimCont_go, aq_first, aq_live, store_eq, store_ne, hackweekmgr_init,
     nextAddr, sizeAddr, Nat.add_zero, Nat.zero_add, Nat.add_sub_cancel, Nat.reduceMul,
     Nat.reduceAdd, Nat.reduceSub]
  refine ⟨_, rfl, ?_, ?_⟩
  · unfold Served Apart
    refine ⟨?_, rfl, ?_⟩ <;> simp only [QUANTUM_eq] <;> omega
  · unfold Spare
    simp only [QUANTUM_eq]
    omega

set_option maxHeartbeats 1000000 in
theorem run_high_b (L : Layout) (hL : L.ok) (hside : L.pool + 1073741824 < L.base) (s : State)
    (f n k : Nat) (hf : 8 ≤ f) (hn : 4 ≤ n) (hn2 : n ≤ 5) (hk1 : 2 * n - 2 ≤ k) (hk : k ≤ 2 * n - 1) :
    ∃ o, scenario L f s n k = some o ∧ Served n k o ∧ Reused n k o := by
  obtain ⟨l1, l2, l3, l4, -⟩ := hL
  simp only [QUANTUM_eq, POOL_SIZE_eq, SIZE_MOD_eq] at l1 l2 l3 l4
  unfold scenario
  simp (disch := first | omega | (simp (disch := omega) only [store_eq, store_ne, claimQuanta_small, claimQuanta_big] <;> omega) | skip) only
    [fi_stop1, fi_stop2, fi_step, free_in, freeFinish_ok, ju_merge, ju_plain, jl_merge, jl_plain,
     claimQuanta_small, claimQuanta_big, gm_fail, gm_ok, claimFinish_ok, al_exact, al_split, al_next,
     al_claim, claimCont_null, claimCont_go, aq_first, aq_live, store_eq, store_ne, hackweekmgr_init,
     nextAddr, sizeAddr, Nat.add_zero, Nat.zero_add, Nat.add_sub_cancel, Nat.reduceMul,
     Nat.reduceAdd, Nat.reduceSub]
  refine ⟨_, rfl, ?_, ?_⟩
  · unfold Served Apart
    refine ⟨?_, rfl, ?_⟩ <;> simp only [QUANTUM_eq] <;> omega
  · unfold Reused Holds Within szOf nxOf sizeAddr nextAddr
    left
    simp (disch := omega) only [store_eq, store_ne, QUANTUM_eq]
    omega

set_option maxHeartbeats 1000000 in
theorem run_high_c (L : Layout) (hL : L.ok) (hside : L.pool + 1073741824 < L.base) (s : State)
    (f n k : Nat) (hf : 8 ≤ f) (hn : 6 ≤ n) (hn2 : n ≤ 7) (hk1 : 1 ≤ k) (hk : k ≤ 2 * n - 1) :
    ∃ o, scenario L f s n k = some o ∧ Served n k o ∧ Reused n k o := by
  obtain ⟨l1, l2, l3, l4, -⟩ := hL
  simp only [QUANTUM_eq, POOL_SIZE_eq, SIZE_MOD_eq] at l1 l2 l3 l4
  unfold scenario
  simp (disch := first | omega | (simp (disch := omega) only [store_eq, store_ne, claimQuanta_small, claimQuanta_big] <;> omega) | skip) only
    [fi_stop1, fi_stop2, fi_step, free_in, freeFinish_ok, ju_merge, ju_plain, jl_merge, jl_plain,
     claimQuanta_small, claimQuanta_big, gm_fail, gm_ok, claimFinish_ok, al_exact, al_split, al_next,
     al_claim, claimCont_null, claimCont_go, aq_first, aq_live, store_eq, store_ne, hackweekmgr_init,
     nextAddr, sizeAddr, Nat.add_zero, Nat.zero_add, Nat.add_sub_cancel, Nat.reduceMul,
     Nat.reduceAdd, Nat.reduceSub]
  refine ⟨_, rfl, ?_, ?_⟩
  · unfold Served Apart
    refine ⟨?_, rfl, ?_⟩ <;> simp only [QUANTUM_eq] <;> omega
  · unfold Reused Holds Within szOf nxOf sizeAddr nextAddr
    left
    simp (disch := omega) only [store_eq, store_ne, QUANTUM_eq]
    omega

set_option maxHeartbeats 1000000 in
theorem run_high_d (L : Layout) (hL : L.ok) (hside : L.pool + 1073741824 < L.base) (s : State)
    (f n k : Nat) (hf : 8 ≤ f) (hn : n = 8) (hk1 : 1 ≤ k) (hk : k ≤ 2 * n - 1) :
    ∃ o, scenario L f s n k = some o ∧ Served n k o ∧ Reused n k o := by
  obtain ⟨l1, l2, l3, l4, -⟩ := hL
  simp only [QUANTUM_eq, POOL_SIZE_eq, SIZE_MOD_eq] at l1 l2 l3 l4
  unfold scenario
  simp (disch := first | omega | (simp (disch := omega) only [store_eq, store_ne, claimQuanta_small, claimQuanta_big] <;> omega) | skip) only
    [fi_stop1, fi_stop2, fi_step, free_in, freeFinish_ok, ju_merge, ju_plain, jl_merge, jl_plain,
     claimQuanta_small, claimQuanta_big, gm_fail, gm_ok, claimFinish_ok, al_exact, al_split, al_next,
     al_claim, claimCont_null, claimCont_go, aq_first, aq_live, store_eq, store_ne, hackweekmgr_init,
     nextAddr, sizeAddr, Nat.add_zero, Nat.zero_add, Nat.add_sub_cancel, Nat.reduceMul,
     Nat.reduceAdd, Nat.reduceSub]
  refine ⟨_, rfl, ?_, ?_⟩
  · unfold Served Apart
    refine ⟨?_, rfl, ?_⟩ <;> simp only [QUANTUM_eq] <;> omega
  · unfold Reused Holds Within szOf nxOf sizeAddr nextAddr
    left
    simp (disch := omega) only [store_eq, store_ne, QUANTUM_eq]
    omega

set_option maxHeartbeats 1000000 in
theorem run_high_e (L : Layout) (hL : L.ok) (hside : L.pool + 1073741824 < L.base) (s : State)
    (f n k : Nat) (hf : 8 ≤ f) (hn : 9 ≤ n) (hn2 : n ≤ 15) (hk1 : 1 ≤ k) (hk : k ≤ 2 * n - 1) :
    ∃ o, scenario L f s n k = some o ∧ Served n k o ∧ Reused n k o := by
  obtain ⟨l1, l2, l3, l4, -⟩ := hL
  simp only [QUANTUM_eq, POOL_SIZE_eq, SIZE_MOD_eq] at l1 l2 l3 l4
  unfold scenario
  simp (disch := first | omega | (simp (disch := omega) only [store_eq, store_ne, claimQuanta_small, claimQuanta_big] <;> omega) | skip) only
    [fi_stop1, fi_stop2, fi_step, free_in, freeFinish_ok, ju_merge, ju_plain, jl_merge, jl_plain,
     claimQuanta_small, claimQuanta_big, gm_fail, gm_ok, claimFinish_ok, al_exact, al_split, al_next,
     al_claim, claimCont_null, claimCont_go, aq_first, aq_live, store_eq, store_ne, hackweekmgr_init,
     nextAddr, sizeAddr, Nat.add_zero, Nat.zero_add, Nat.add_sub_cancel, Nat.reduceMul,
     Nat.reduceAdd, Nat.reduceSub]
  refine ⟨_, rfl, ?_, ?_⟩
  · unfold Served Apart
    refine ⟨?_, rfl, ?_⟩ <;> simp only [QUANTUM_eq] <;> omega
  · unfold Reused Holds Within szOf nxOf sizeAddr nextAddr
    left
    simp (disch := omega) only [store_eq, store_ne, QUANTUM_eq]
    omega

set_option maxHeartbeats 1000000 in
theorem run_high_g (L : Layout) (hL : L.ok) (hside : L.pool + 1073741824 < L.base) (s : State)
    (f n k : Nat) (hf : 8 ≤ f) (hn : 16 ≤ n) (hn2 : n ≤ 4194305) (hk1 : 1 ≤ k) (hk : k ≤ 2 * n - 1) :
    ∃ o, scenario L f s n k = some o ∧ Served n k o ∧ Reused n k o := by
  obtain ⟨l1, l2, l3, l4, -⟩ := hL
  simp only [QUANTUM_eq, POOL_SIZE_eq, SIZE_MOD_eq] at l1 l2 l3 l4
  unfold scenario
  simp (disch := first | omega | (simp (disch := omega) only [store_eq, store_ne, claimQuanta_small, claimQuanta_big] <;> omega) | skip) only
    [fi_stop1, fi_stop2, fi_step, free_in, freeFinish_ok, ju_merge, ju_plain, jl_merge, jl_plain,
     claimQuanta_small, claimQuanta_big, gm_fail, gm_ok, claimFinish_ok, al_exact, al_split, al_next,
     al_claim, claimCont_null, claimCont_go, aq_first, aq_live, store_eq, store_ne, hackweekmgr_init,
     nextAddr, sizeAddr, Nat.add_zero, Nat.zero_add, Nat.add_sub_cancel, Nat.reduceMul,
     Nat.reduceAdd, Nat.reduceSub]
  refine ⟨_, rfl, ?_, ?_⟩
  · unfold Served Apart
    refine ⟨?_, rfl, ?_⟩ <;> simp only [QUANTUM_eq] <;> omega
  · unfold Reused Holds Within szOf nxOf sizeAddr nextAddr
    right
    simp (disch := omega) only [store_eq, store_ne, QUANTUM_eq]
    omega

/-! ## The coalescing scenario for every request size -/

theorem coalesce_eq (L : Layout) (fuel : Nat) (s : State) (nbytes : Nat) :
    coalesce L fuel s nbytes =
      scenario L fuel s (nquantasOf nbytes) (nquantasOf (2 * nbytes)) := rfl

/-- Every path of the scenario ends with a block served from the free list
clear of C: out of the merged block from four quanta on, below C before that. -/
theorem scenario_all (L : Layout) (hL : L.ok) (s : State) (f n k : Nat) (hf : 8 ≤ f)
    (hn : 1 ≤ n) (hn2 : n ≤ 4194305) (hk1 : 1 ≤ k) (hk : k ≤ 2 * n - 1)
    (hk2 : 4 ≤ n → 2 * n - 2 ≤ k) :
    ∃ o, scenario L f s n k = some o ∧ Served n k o ∧ (4 ≤ n → Reused n k o) ∧
      (n ≤ 3 → Spare k o) := by
  have hside := hL.2.2.2.2
  simp only [QUANTUM_eq, POOL_SIZE_eq] at hside
  rcases hside with hside | hside
  · by_cases c0 : n ≤ 3
    · obtain ⟨o, e, h1, h2⟩ := run_low_a L hL hside s f n k hf hn c0 hk1 hk
      exact ⟨o, e, h1, fun h => absurd h (by omega), fun _ => h2⟩
    · by_cases c1 : n ≤ 5
      · obtain ⟨o, e, h1, h2⟩ := run_low_b L hL hside s f n k hf (by omega) c1 (hk2 (by omega)) hk
        exact ⟨o, e, h1, fun _ => h2, fun h => absurd h (by omega)⟩
      · by_cases c2 : n ≤ 7
        · obtain ⟨o, e, h1, h2⟩ := run_low_c L hL hside s f n k hf (by omega) c2 hk1 hk
          exact ⟨o, e, h1, fun _ => h2, fun h => absurd h (by omega)⟩
        · by_cases c3 : n ≤ 8
          · obtain ⟨o, e, h1, h2⟩ := run_low_d L hL hside s f n k hf (by omega) hk1 hk
            exact ⟨o, e, h1, fun _ => h2, fun h => absurd h (by omega)⟩
          · by_cases c4 : n ≤ 15
            · obtain ⟨o, e, h1, h2⟩ := run_low_e L hL hside s f n k hf (by omega) c4 hk1 hk
              exact ⟨o, e, h1, fun _ => h2, fun h => absurd h (by omega)⟩
            · obtain ⟨o, e, h1, h2⟩ := run_low_g L hL hside s f n k hf (by omega) hn2 hk1 hk
              exact ⟨o, e, h1, fun _ => h2, fun h => absurd h (by omega)⟩
  · by_cases c0 : n ≤ 3
    · obtain ⟨o, e, h1, h2⟩ := run_high_a L hL hside s f n k hf hn c0 hk1 hk
      exact ⟨o, e, h1, fun h => absurd h (by omega), fun _ => h2⟩
    · by_cases c1 : n ≤ 5
      · obtain ⟨o, e, h1, h2⟩ := run_high_b L hL hside s f n k hf (by omega) c1 (hk2 (by omega)) hk
        exact ⟨o, e, h1, fun _ => h2, fun h => absurd h (by omega)⟩
      · by_cases c2 : n ≤ 7
        · obtain ⟨o, e, h1, h2⟩ := run_high_c L hL hside s f n k hf (by omega) c2 hk1 hk
          exact ⟨o, e, h1, fun _ => h2, fun h => absurd h (by omega)⟩
        · by_cases c3 : n ≤ 8
          · obtain ⟨o, e, h1, h2⟩ := run_high_d L hL hside s f n k hf (by omega) hk1 hk
            exact ⟨o, e, h1, fun _ => h2, fun h => absurd h (by omega)⟩
          · by_cases c4 : n ≤ 15
            · obtain ⟨o, e, h1, h2⟩ := run_high_e L hL hside s f n k hf (by omega) c4 hk1 hk
              exact ⟨o, e, h1, fun _ => h2, fun h => absurd h (by omega)⟩
            · obtain ⟨o, e, h1, h2⟩ := run_high_g L hL hside s f n k hf (by omega) hn2 hk1 hk
              exact ⟨o, e, h1, fun _ => h2, fun h => absurd h (by omega)⟩

theorem coalesce_spec (L : Layout) (hL : L.ok) (s : State) (fuel nbytes : Nat) (hf : 8 ≤ fuel)
    (hs : nbytes ≤ POOL_SIZE / 8) :
    ∃ o, coalesce L fuel s nbytes = some o ∧ o.d ≠ 0 ∧
      o.after.pool_free_pos = o.before.pool_free_pos ∧
      Apart o.d (nquantasOf (2 * nbytes)) o.c (nquantasOf nbytes) ∧
      (o.d + 2 * nbytes ≤ o.c - QUANTUM ∨ o.c + nbytes ≤ o.d - QUANTUM) ∧
      (64 < nbytes → Reused (nquantasOf nbytes) (nquantasOf (2 * nbytes)) o) ∧
      (nbytes ≤ 64 → Spare (nquantasOf (2 * nbytes)) o) := by
  simp only [POOL_SIZE_eq] at hs
  have e1 : nquantasOf nbytes = (nbytes + 31) / 32 + 1 :=
    nquantasOf_eq (by simp only [QUANTUM_eq, SIZE_MOD_eq]; omega)
  have e2 : nquantasOf (2 * nbytes) = (2 * nbytes + 31) / 32 + 1 :=
    nquantasOf_eq (by simp only [QUANTUM_eq, SIZE_MOD_eq]; omega)
  rw [coalesce_eq]
  obtain ⟨o, e, ⟨h1, h2, h3⟩, h4, h5⟩ := scenario_all L hL s fuel (nquantasOf nbytes)
    (nquantasOf (2 * nbytes)) hf (by omega) (by omega) (by omega) (by omega) (by omega)
  refine ⟨o, e, h1, h2, h3, ?_, fun h => h4 (by omega), fun h => h5 (by omega)⟩
  unfold Apart at h3
  simp only [QUANTUM_eq] at h3 ⊢
  omega

/-! ## Requests whose size arithmetic wraps, and the remaining claims -/

theorem claimQuanta_max (nq : Nat) : claimQuanta nq = max nq MIN_POOL_ALLOC_QUANTAS := by
  unfold claimQuanta
  by_cases h : nq < MIN_POOL_ALLOC_QUANTAS
  · rw [if_pos h, max_eq_right (Nat.le_of_lt h)]
  · rw [if_neg h, max_eq_left (Nat.le_of_not_lt h)]

theorem full_wf : WF layoutLow fullState fullFree fullAlloc := wf_of_check (by decide)

/-- Allocation in a well-formed state, for a request whose size arithmetic does
not wrap: the call returns, and null exactly when no free block fits and the
claim, of at least `MIN_POOL_ALLOC_QUANTAS` quanta, does not fit in the pool. -/
theorem alloc_null_spec {L : Layout} {s : State} {F A : Finset Nat} {nbytes : Nat}
    (hw : WF L s F A) (hn : nbytes + 2 * QUANTUM + POOL_SIZE ≤ SIZE_MOD) :
    (∃ r s', AllocRet L s nbytes r s') ∧
    nquantasOf nbytes = (nbytes + QUANTUM - 1) / QUANTUM + 1 ∧
    ∀ r s', AllocRet L s nbytes r s' →
      (r = 0 ↔ (∀ f ∈ F, szOf s f < nquantasOf nbytes) ∧
        POOL_SIZE - s.pool_free_pos <
          max (nquantasOf nbytes) MIN_POOL_ALLOC_QUANTAS * QUANTUM) := by
  have hw' : WF L (readyState L s) F A := by rw [readyState_live L hw.freep_ne]; exact hw
  obtain ⟨htot, hpost⟩ := alloc_total hw' hn
  refine ⟨htot, ?_, ?_⟩
  · rw [nquantasOf_eq (by simp only [QUANTUM_eq, POOL_SIZE_eq, SIZE_MOD_eq] at *; omega)]
    simp only [QUANTUM_eq]
    omega
  · intro r s' hret
    have hp := hpost r s' hret
    rw [readyState_live L hw.freep_ne] at hp
    rw [← claimQuanta_max]
    have hle := hw.pfp_le
    rcases hp with ⟨⟨f, hf, hfit⟩, _, hok, _⟩ | ⟨_, hcap, _, hok⟩ | ⟨hno, hcap, hr, _⟩
    · refine ⟨fun h0 => absurd h0 (allocOk_ptr hok).1, ?_⟩
      rintro ⟨h1, _⟩
      have := h1 f hf
      omega
    · refine ⟨fun h0 => absurd h0 (allocOk_ptr hok).1, ?_⟩
      rintro ⟨_, h2⟩
      simp only [QUANTUM_eq] at *
      omega
    · refine ⟨fun _ => ⟨hno, ?_⟩, fun _ => hr⟩
      simp only [QUANTUM_eq] at *
      omega

/-- C1, run at the failing input. With the pool at `0x100000000`, two calls
`hackweekmgr_alloc(2^64 - 40)` right after `hackweekmgr_init`: the request
rounds to `2^59` quanta, whose byte count wraps to 0, so each call claims a
block at the start of the pool without moving the cursor; both calls return
the same non-null reference `pool + 32`, and the region of `2^64 - 40` bytes
that starts there runs past the end of the pool. -/
theorem alloc_huge_requests_overlap :
    nquantasOf 18446744073709551576 = 576460752303423488 ∧
    wrap (576460752303423488 * QUANTUM) = 0 ∧
    retPtr (hackweekmgr_alloc layoutLow 8 (hackweekmgr_init layoutLow bootState)
      18446744073709551576) = some 0x100000020 ∧
    (retState bootState (hackweekmgr_alloc layoutLow 8 (hackweekmgr_init layoutLow bootState)
      18446744073709551576)).pool_free_pos = 0 ∧
    retPtr (hackweekmgr_alloc layoutLow 8
      (retState bootState (hackweekmgr_alloc layoutLow 8 (hackweekmgr_init layoutLow bootState)
        18446744073709551576)) 18446744073709551576) = some 0x100000020 ∧
    layoutLow.pool + POOL_SIZE < 0x100000020 + 18446744073709551576 := by
  decide

/-- C2. In a well-formed state, for a request whose size arithmetic does not
wrap (`nbytes + 2 * QUANTUM + POOL_SIZE ≤ 2^64`), `hackweekmgr_alloc(nbytes)`
returns; the quanta it requires are `(nbytes + QUANTUM - 1) / QUANTUM + 1`;
and it returns null if and only if no free-list block has that many quanta
and the unclaimed capacity `POOL_SIZE - pool_free_pos` is smaller than the
claim, which is the larger of the required quanta and
`MIN_POOL_ALLOC_QUANTAS`, times the quantum.  So a request whose claim fits
in the unclaimed capacity succeeds. -/
theorem alloc_null_iff {L : Layout} {s : State} {F A : Finset Nat} {nbytes : Nat}
    (hw : WF L s F A) (hn : nbytes + 2 * QUANTUM + POOL_SIZE ≤ SIZE_MOD) :
    (∃ r s', AllocRet L s nbytes r s') ∧
    nquantasOf nbytes = (nbytes + QUANTUM - 1) / QUANTUM + 1 ∧
    ∀ r s', AllocRet L s nbytes r s' →
      (r = 0 ↔ (∀ f ∈ F, szOf s f < nquantasOf nbytes) ∧
        POOL_SIZE - s.pool_free_pos <
          max (nquantasOf nbytes) MIN_POOL_ALLOC_QUANTAS * QUANTUM) :=
  alloc_null_spec hw hn

/-- Witness of C2: one byte asked of `fullState`. -/
theorem alloc_null_iff_witness :
    WF layoutLow fullState fullFree fullAlloc ∧ 1 + 2 * QUANTUM + POOL_SIZE ≤ SIZE_MOD ∧
    ((∃ r s', AllocRet layoutLow fullState 1 r s') ∧
    nquantasOf 1 = (1 + QUANTUM - 1) / QUANTUM + 1 ∧
    ∀ r s', AllocRet layoutLow fullState 1 r s' →
      (r = 0 ↔ (∀ f ∈ fullFree, szOf fullState f < nquantasOf 1) ∧
        POOL_SIZE - fullState.pool_free_pos <
          max (nquantasOf 1) MIN_POOL_ALLOC_QUANTAS * QUANTUM)) :=
  ⟨full_wf, by decide, alloc_null_iff full_wf (by decide)⟩

/-- Counterexample to C2 as stated: `fullState` is well formed and has 64
unclaimed bytes, the two quanta that a request of one byte requires, yet
`hackweekmgr_alloc(1)` returns null, because a claim is never smaller than
`MIN_POOL_ALLOC_QUANTAS` quanta. -/
theorem alloc_null_with_room :
    WF layoutLow fullState fullFree fullAlloc ∧
    retPtr (hackweekmgr_alloc layoutLow 8 fullState 1) = some 0 ∧
    (1 + QUANTUM - 1) / QUANTUM + 1 = 2 ∧ POOL_SIZE - fullState.pool_free_pos = 64 ∧
    ¬ (POOL_SIZE - fullState.pool_free_pos < ((1 + QUANTUM - 1) / QUANTUM + 1) * QUANTUM) :=
  ⟨wf_of_check (by decide), by decide, by decide, by decide, by decide⟩

/-- Counterexample to C6 as stated: `edgeState` is well formed, no two of its
free blocks are adjacent, and its allocated block is the last quantum of the
pool, so that its reference is the end of the pool.  The free block at the
start of the pool abuts it from below, yet `hackweekmgr_free` takes the
reference for one outside the arena and returns with the state as it was: the
block is not merged with its lower neighbour. -/
theorem free_edge_block_not_merged :
    WF layoutLow edgeState edgeFree edgeAlloc ∧ NoAdj edgeState edgeFree ∧
    (0x13FFFFFE0 : Nat) ∈ edgeAlloc ∧ (0x100000000 : Nat) ∈ edgeFree ∧
    hdrAdd 0x100000000 (szOf edgeState 0x100000000) = 0x13FFFFFE0 ∧
    0x13FFFFFE0 + QUANTUM = layoutLow.pool + POOL_SIZE ∧
    hackweekmgr_free layoutLow 8 edgeState (0x13FFFFFE0 + QUANTUM) = .ok edgeState :=
  ⟨wf_of_check (by decide), by decide, by decide, by decide, by decide, by decide,
    free_noop (by decide) 8 edgeState (Or.inr (by decide))⟩

/-- C7, run at the failing input. `demoState` is well formed with the cursor
of the pool at 512; the call `hackweekmgr_alloc(2^64 - 64)` rounds to
`2^59 - 1` quanta, whose byte count is `2^64 - 32`, so the sum with the
cursor wraps to 480 and passes the capacity test: the call returns a non-null
reference and leaves the cursor at 480, below its value before the call. -/
theorem alloc_huge_request_rewinds_cursor :
    WF layoutLow demoState demoFree demoAlloc ∧ demoState.pool_free_pos = 512 ∧
    nquantasOf 18446744073709551552 = 576460752303423487 ∧
    wrap (512 + wrap (576460752303423487 * QUANTUM)) = 480 ∧
    retPtr (hackweekmgr_alloc layoutLow 8 demoState 18446744073709551552) = some 0x100000220 ∧
    (retState demoState
      (hackweekmgr_alloc layoutLow 8 demoState 18446744073709551552)).pool_free_pos = 480 :=
  ⟨wf_of_check (by decide), by decide, by decide, by decide, by decide, by decide⟩

/-- C8, run at the failing input. For `nbytes = 2^64 - 1` the sum
`nbytes + quantum - 1` wraps, and `hackweekmgr_alloc` computes 1 quantum where
`ceil(nbytes / quantum) + 1` is `2^59 + 1`; right after `hackweekmgr_init` the
call returns a non-null reference to a block of size 1, whose payload capacity
`(size - 1) * quantum` is 0. -/
theorem quanta_rounding_wraps :
    nquantasOf 18446744073709551615 = 1 ∧
    (18446744073709551615 + QUANTUM - 1) / QUANTUM + 1 = 576460752303423489 ∧
    retPtr (hackweekmgr_alloc layoutLow 8 (hackweekmgr_init layoutLow bootState)
      18446744073709551615) = some 0x100000200 ∧
    szOf (retState bootState (hackweekmgr_alloc layoutLow 8
      (hackweekmgr_init layoutLow bootState) 18446744073709551615)) (0x100000200 - QUANTUM) = 1 ∧
    (1 - 1) * QUANTUM < 18446744073709551615 := by
  decide

/-- C10. The coalescing scenario, for every placement of the pool and the
sentinel that `Layout.ok` admits, every state before `hackweekmgr_init` and every
`nbytes ≤ POOL_SIZE / 8`: the six calls return, the last call
`hackweekmgr_alloc(2 * nbytes)` returns a non-null reference and leaves
`pool_free_pos` where it was, and the block it hands out does not overlap the
block of C, nor its payload of `2 * nbytes` bytes that of C.  For
`nbytes > 64` the block is cut from the merged free block that holds the
former blocks of A and B; for `nbytes ≤ 64` it is cut from the free remainder
of the first claim, below C, while B and A lie above C. -/
theorem coalescing_scenario (L : Layout) (hL : L.ok) (s : State) (fuel nbytes : Nat)
    (hf : 8 ≤ fuel) (hs : nbytes ≤ POOL_SIZE / 8) :
    ∃ o, coalesce L fuel s nbytes = some o ∧ o.d ≠ 0 ∧
      o.after.pool_free_pos = o.before.pool_free_pos ∧
      Apart o.d (nquantasOf (2 * nbytes)) o.c (nquantasOf nbytes) ∧
      (o.d + 2 * nbytes ≤ o.c - QUANTUM ∨ o.c + nbytes ≤ o.d - QUANTUM) ∧
      (64 < nbytes → Reused (nquantasOf nbytes) (nquantasOf (2 * nbytes)) o) ∧
      (nbytes ≤ 64 → Spare (nquantasOf (2 * nbytes)) o) :=
  coalesce_spec L hL s fuel nbytes hf hs

/-- Witness of C10: blocks of 100 bytes, with the sentinel below the pool. -/
theorem coalescing_scenario_witness :
    layoutLow.ok ∧ 8 ≤ 8 ∧ 100 ≤ POOL_SIZE / 8 ∧
    ∃ o, coalesce layoutLow 8 bootState 100 = some o ∧ o.d ≠ 0 ∧
      o.after.pool_free_pos = o.before.pool_free_pos ∧
      Apart o.d (nquantasOf (2 * 100)) o.c (nquantasOf 100) ∧
      (o.d + 2 * 100 ≤ o.c - QUANTUM ∨ o.c + 100 ≤ o.d - QUANTUM) ∧
      (64 < 100 → Reused (nquantasOf 100) (nquantasOf (2 * 100)) o) ∧
      (100 ≤ 64 → Spare (nquantasOf (2 * 100)) o) :=
  ⟨by decide, by decide, by decide,
    coalescing_scenario layoutLow (by decide) bootState 8 100 (by decide) (by decide)⟩

/-- Counterexample to C10 as stated: with blocks of one byte, A, B and C are cut
from the tail of the first claim of 16 quanta, at quanta 14, 12 and 10 of the
pool, and the last call `hackweekmgr_alloc(2)` is served from the free
remainder in front of C, at quantum 8: its block lies below C while the merged
block of A and B lies above C, so the merged block is not reused. -/
theorem coalescing_small_request_below :
    ∃ o ∈ coalesce layoutLow 8 bootState 1,
      o.a = 0x1000001E0 ∧ o.b = 0x1000001A0 ∧ o.c = 0x100000160 ∧ o.d = 0x100000120 ∧
      Spare (nquantasOf (2 * 1)) o ∧ ¬ Reused (nquantasOf 1) (nquantasOf (2 * 1)) o := by
  decide

/-! ## A request that never returns -/

/-- With one quantum of the pool unclaimed and an empty free list, a request
whose byte count wraps to zero claims that quantum over and over: the release
inside `get_mem_from_pool` takes the end of the pool for a foreign reference,
the cursor stays, and the search loop starts another lap. -/
theorem alloc_spins (ff : Nat) : ∀ (fuel : Nat) (s : State), s.freep = 0x1000 →
    s.mem 0x1000 = 0x1000 → s.mem 0x1008 = 0 → s.pool_free_pos = 1073741792 →
    allocLoop layoutLow ff 576460752303423488 fuel s 0x1000 0x1000 = .error .outOfFuel := by
  intro fuel
  induction fuel with
  | zero => intro s _ _ _ _; rfl
  | succ n ih =>
    intro s h1 h2 h3 h4
    have hfit : ¬ 576460752303423488 ≤ s.mem (sizeAddr 0x1000) := by
      show ¬ 576460752303423488 ≤ s.mem 0x1008
      rw [h3]; decide
    rw [allocLoop_claim (by decide) hfit h1.symm]
    have e1 : wrap (claimQuanta 576460752303423488 * QUANTUM) = 0 := by decide
    have e2 : wrap (1073741792 + 0) ≤ POOL_SIZE := by decide
    have e3 : hdrAdd (wrap (layoutLow.pool + 1073741792)) 1 = 5368709120 := by decide
    have e4 : wrap (1073741792 + 0) = 1073741792 := by decide
    unfold claimStep get_mem_from_pool
    rw [e1, h4, if_pos e2, e3,
      free_noop (by decide) ff (stampedState layoutLow s (claimQuanta 576460752303423488))
        (Or.inr (by decide))]
    simp only
    have hs : (stampedState layoutLow s (claimQuanta 576460752303423488)).freep = 0x1000 := h1
    rw [hs, if_neg (by decide)]
    have hm : (stampedState layoutLow s (claimQuanta 576460752303423488)).mem (nextAddr 4096)
        = 4096 := by
      show store s.mem (sizeAddr (wrap (layoutLow.pool + s.pool_free_pos))) _ 0x1000 = 0x1000
      rw [h4, store_ne (by decide)]
      exact h2
    have hz : (stampedState layoutLow s (claimQuanta 576460752303423488)).mem 0x1008 = 0 := by
      show store s.mem (sizeAddr (wrap (layoutLow.pool + s.pool_free_pos))) _ 0x1008 = 0
      rw [h4, store_ne (by decide)]
      exact h3
    have hc : wrap ((stampedState layoutLow s (claimQuanta 576460752303423488)).pool_free_pos + 0)
        = 1073741792 := by
      have : (stampedState layoutLow s (claimQuanta 576460752303423488)).pool_free_pos
          = 1073741792 := h4
      rw [this]
      exact e4
    rw [hm]
    exact ih _ rfl hm hz hc

/-- C11, run at the failing input.  `brimState` is well formed, with an empty
free list and the cursor of the pool one quantum short of `POOL_SIZE`.  The
request `hackweekmgr_alloc(2^64 - 40)` rounds to `2^59` quanta, whose byte count
wraps to 0: the claim passes the capacity test, the release of the claimed
block is ignored because its reference is the end of the pool, the cursor
stays, and the walk goes round the ring again.  Whatever the fuel, the call
does not return. -/
theorem alloc_huge_request_never_returns :
    WF layoutLow brimState {0x1000} {0x100000000} ∧
    brimState.pool_free_pos + QUANTUM = POOL_SIZE ∧
    nquantasOf 18446744073709551576 = 576460752303423488 ∧
    ∀ fuel, hackweekmgr_alloc layoutLow fuel brimState 18446744073709551576 =
      .error .outOfFuel := by
  refine ⟨wf_of_check (by decide), by decide, by decide, ?_⟩
  intro fuel
  have hq : nquantasOf 18446744073709551576 = 576460752303423488 := by decide
  have h1 : brimState.freep = 0x1000 := by decide
  have h2 : brimState.mem 0x1000 = 0x1000 := by decide
  have h3 : brimState.mem 0x1008 = 0 := by decide
  have h4 : brimState.pool_free_pos = 1073741792 := by decide
  unfold hackweekmgr_alloc allocQuanta
  rw [hq, if_neg (by rw [h1]; decide), h1]
  show allocLoop layoutLow fuel 576460752303423488 fuel brimState 4096 (brimState.mem 0x1000) = _
  rw [h2]
  exact alloc_spins fuel fuel brimState h1 h2 h3 h4

/-! ## The wrappers at exhaustion and at the end of a block -/

/-- C14, run at the failing inputs.  `fullState` is well formed and
`hackweekmgr_alloc(1)` returns null in it.  There `hackweekmgr_calloc(1, 1)`
goes on to `memset` one byte through the null result, and
`hackweekmgr_realloc(old, 1)` on the allocated block goes on to `memcpy` one
byte through it: both end in a null dereference.  With a new size of 0
nothing is copied, and `hackweekmgr_realloc(old, 0)` returns null after it has
released the old block, which the free list then holds. -/
theorem wrappers_use_null_result :
    WF layoutLow fullState fullFree fullAlloc ∧ (0x100000000 : Nat) ∈ fullAlloc ∧
    retPtr (hackweekmgr_alloc layoutLow 8 fullState 1) = some 0 ∧
    faultOf (hackweekmgr_calloc layoutLow 8 fullState 1 1) = some Fault.nullDeref ∧
    faultOf (hackweekmgr_realloc layoutLow 8 fullState (0x100000000 + QUANTUM) 1) =
      some Fault.nullDeref ∧
    retPtr (hackweekmgr_alloc layoutLow 8 fullState 0) = some 0 ∧
    retVal (hackweekmgr_realloc layoutLow 8 fullState (0x100000000 + QUANTUM) 0) = some 0 ∧
    nxOf fullState layoutLow.base = layoutLow.base ∧
    nxOf (retState fullState
      (hackweekmgr_realloc layoutLow 8 fullState (0x100000000 + QUANTUM) 0)) layoutLow.base =
        0x100000000 :=
  ⟨wf_of_check (by decide), by decide, by decide, by decide, by decide, by decide, by decide,
    by decide, by decide⟩

/-- C19, run at the failing inputs.  In `demoState` the allocated block has 2
quanta, so 32 bytes of payload; `hackweekmgr_realloc(old, 64)` succeeds and
copies 64 bytes from `old`, the size of the whole block with its header, so
the copy reads 32 bytes past the end of the block.  In `edgeState` the
allocated block is the last quantum of the pool, with no payload;
`hackweekmgr_realloc(old, 32)` succeeds and copies 32 bytes from `old`, which
is the end of the pool. -/
theorem realloc_copies_past_block :
    WF layoutLow demoState demoFree demoAlloc ∧ (0x1000001C0 : Nat) ∈ demoAlloc ∧
    (szOf demoState 0x1000001C0 - 1) * QUANTUM = 32 ∧
    retVal (hackweekmgr_realloc layoutLow 8 demoState (0x1000001C0 + QUANTUM) 64) =
      some 0x100000180 ∧
    copyCount (retState demoState (malloc layoutLow 8 demoState 64)).mem
      (0x1000001C0 + QUANTUM) 64 = 64 ∧
    0x1000001C0 + QUANTUM * szOf demoState 0x1000001C0 < 0x1000001C0 + QUANTUM + 64 ∧
    WF layoutLow edgeState edgeFree edgeAlloc ∧ (0x13FFFFFE0 : Nat) ∈ edgeAlloc ∧
    (szOf edgeState 0x13FFFFFE0 - 1) * QUANTUM = 0 ∧
    retVal (hackweekmgr_realloc layoutLow 8 edgeState (0x13FFFFFE0 + QUANTUM) 32) =
      some 0x13FFFFFC0 ∧
    copyCount (retState edgeState (malloc layoutLow 8 edgeState 32)).mem
      (0x13FFFFFE0 + QUANTUM) 32 = 32 ∧
    0x13FFFFFE0 + QUANTUM = layoutLow.pool + POOL_SIZE :=
  ⟨wf_of_check (by decide), by decide, by decide, by decide, by decide, by decide,
    wf_of_check (by decide), by decide, by decide, by decide, by decide, by decide⟩

/-- C20, run at the failing input.  `oddState` is well formed, and the pool
starts at a multiple of 64.  The call `xxxposix_memalign(&r, 64, 1)` returns 0;
it first allocates 33 bytes and stores that reference, then falls through to
`*retval = hackweekmgr_alloc(size)`, which allocates one byte more and stores
`0x100000120`, an odd multiple of 32.  Afterwards both new blocks are
allocated next to the one that was. -/
theorem memalign_64_falls_through :
    WF layoutLow oddState {0x1000, 0x100000000} {0x1000001A0} ∧ layoutLow.pool % 64 = 0 ∧
    retVal (xxxposix_memalign layoutLow 8 oddState 0x2000 64 1) = some 0 ∧
    (retState oddState (xxxposix_memalign layoutLow 8 oddState 0x2000 64 1)).mem 0x2000 =
      0x100000120 ∧
    0x100000120 % 64 = 32 ∧
    retPtr (hackweekmgr_alloc layoutLow 8 oddState (wrap (1 + 32))) = some 0x100000160 ∧
    WF layoutLow (retState oddState (xxxposix_memalign layoutLow 8 oddState 0x2000 64 1))
      {0x1000, 0x100000000} {0x1000001A0, 0x100000140, 0x100000100} :=
  ⟨wf_of_check (by decide), by decide, by decide, by decide, by decide, by decide,
    wf_of_check (by decide)⟩

/-! ## Writes into a payload, and `hackweekmgr_calloc` -/

/-- No payload word of an allocated block is a header field of any block. -/
theorem WF.payload_clear {L : Layout} {s : State} {F A : Finset Nat} {l x : Nat}
    (hw : WF L s F A) (hl : l ∈ A) (h1 : l + QUANTUM ≤ x) (h2 : x < l + QUANTUM * szOf s l) :
    ∀ y, (y ∈ F ∨ y ∈ A) → x ≠ y ∧ x ≠ y + 8 := by
  have hs := hw.shape
  have hx : Owned s A x := ⟨l, hl, by omega, h2⟩
  intro y hy
  rcases hy with hy | hy
  · exact hw.owned_ne hx hy
  · have nl := hw.wnode (Or.inr hl)
    have ny := hw.wnode (Or.inr hy)
    have hlF : l ∉ F := hs.disj l hl
    have hyF : y ∉ F := hs.disj y hy
    have s1 := hs.tiling.2 l y (Or.inr hl) (Or.inr hy)
    have s2 := hs.tiling.2 y l (Or.inr hy) (Or.inr hl)
    rcases nl with ⟨_, _, h⟩ | nl
    · exact absurd h hlF
    rcases ny with ⟨_, _, h⟩ | ny
    · exact absurd h hyF
    simp only [QUANTUM_eq] at *
    omega

/-- A state that differs only inside the payload of one allocated block is
still well formed, with the same header fields. -/
theorem wf_payload {L : Layout} {s s' : State} {F A : Finset Nat} {l : Nat} (hw : WF L s F A)
    (hl : l ∈ A) (hf : s'.freep = s.freep) (hp : s'.pool_free_pos = s.pool_free_pos)
    (hm : ∀ x, ¬ (l + QUANTUM ≤ x ∧ x < l + QUANTUM * szOf s l) → s'.mem x = s.mem x) :
    WF L s' F A ∧ (∀ y, (y ∈ F ∨ y ∈ A) → szOf s' y = szOf s y ∧ nxOf s' y = nxOf s y) := by
  have key : ∀ y, (y ∈ F ∨ y ∈ A) → szOf s' y = szOf s y ∧ nxOf s' y = nxOf s y := by
    intro y hy
    constructor
    · exact hm (y + 8) (fun hx => (hw.payload_clear hl hx.1 hx.2 y hy).2 rfl)
    · exact hm y (fun hx => (hw.payload_clear hl hx.1 hx.2 y hy).1 rfl)
  refine ⟨⟨hw.layout, hp ▸ hw.pfp_le, hp ▸ hw.pfp_al, hf ▸ hw.freep_mem, ?_⟩, key⟩
  rw [hp]
  exact shape_congr hw.shape (fun a ha => (key a (Or.inl ha)).2) (fun y hy => (key y hy).1)

theorem ok_retState {x : Except Fault (Nat × State)} {r : Nat} (d : State)
    (h : retVal x = some r) : x = .ok (r, retState d x) := by
  cases x with
  | error e => exact absurd h (by simp [retVal])
  | ok v =>
    obtain ⟨a, b⟩ := v
    have : a = r := by simpa [retVal] using h
    rw [this]
    rfl

/-- What `hackweekmgr_calloc` does when it returns a non-null reference. -/
theorem calloc_spec {L : Layout} {s : State} {F A : Finset Nat} {a size r : Nat} {s' : State}
    (hw : WF L s F A) (hov : a * size < SIZE_MOD) (hcap : a * size ≤ POOL_SIZE)
    (hret : CallocRet L s a size r s') (hr : r ≠ 0) :
    ∃ s1, AllocRet L s (a * size) r s1 ∧
      (∀ r2 s2, AllocRet L s (a * size) r2 s2 → r2 = r ∧ s2 = s1) ∧
      (∀ x, r ≤ x → x < r + a * size → s'.mem x = 0) ∧
      (∀ x, ¬ (r ≤ x ∧ x < r + a * size) → s'.mem x = s1.mem x) ∧
      s'.freep = s1.freep ∧ s'.pool_free_pos = s1.pool_free_pos ∧
      r - QUANTUM ∉ A ∧ QUANTUM ≤ r ∧
      r + a * size ≤ r - QUANTUM + QUANTUM * szOf s1 (r - QUANTUM) ∧
      ∃ F', WF L s' F' (insert (r - QUANTUM) A) := by
  obtain ⟨fuel, hrun⟩ := hret
  have hwr : wrap (a * size) = a * size := wrap_of_lt hov
  unfold hackweekmgr_calloc at hrun
  rw [hwr] at hrun
  cases hal : hackweekmgr_alloc L fuel s (a * size) with
  | error e => rw [hal] at hrun; exact absurd hrun (by simp)
  | ok v =>
    obtain ⟨rv, s1⟩ := v
    rw [hal] at hrun
    simp only at hrun
    by_cases hc : rv = 0 ∧ 0 < a * size
    · rw [if_pos hc] at hrun; exact absurd hrun (by simp)
    · rw [if_neg hc] at hrun
      have hinj := Except.ok.inj hrun
      rw [Prod.mk.injEq] at hinj
      obtain ⟨e1, e2⟩ := hinj
      subst e1
      have hreta : AllocRet L s (a * size) rv s1 := ⟨fuel, hal⟩
      have hw' : WF L (readyState L s) F A := by
        rw [readyState_live L hw.freep_ne]; exact hw
      have hn2 : a * size + 2 * QUANTUM + POOL_SIZE ≤ SIZE_MOD := by
        have := pool_le_mod; omega
      have hpost := (alloc_total hw' hn2).2 rv s1 hreta
      rw [readyState_live L hw.freep_ne] at hpost
      have hb := nquantasOf_bounds (n := a * size)
        (by simp only [QUANTUM_eq, POOL_SIZE_eq, SIZE_MOD_eq] at *; omega)
      have hok : AllocOk L s A (nquantasOf (a * size)) rv s1 := by
        rcases hpost with ⟨_, _, hok, _⟩ | ⟨_, _, _, hok⟩ | ⟨_, _, h0, _⟩
        · exact hok
        · exact hok
        · exact absurd h0 hr
      obtain ⟨h0, F', er, hnA, hsz, hwf, _, _⟩ := hok
      have eh : rv - QUANTUM = h0 := by rw [er]; exact Nat.add_sub_cancel _ _
      rw [eh]
      have hmem : s'.mem = zeroFill s1.mem rv (a * size) := by rw [← e2]
      have hrange : rv + a * size ≤ h0 + QUANTUM * szOf s1 h0 := by
        rw [hsz, er]
        simp only [QUANTUM_eq] at *
        omega
      refine ⟨s1, hreta, ?_, ?_, ?_, by rw [← e2], by rw [← e2], hnA,
        by rw [er]; exact Nat.le_add_left _ _, hrange, F', ?_⟩
      · intro r2 s2 ⟨f2, hf2⟩
        have := alloc_det hf2 hal
        rw [Prod.mk.injEq] at this
        exact this
      · intro x hx1 hx2
        rw [hmem]
        unfold zeroFill
        rw [if_pos ⟨hx1, by omega⟩]
      · intro x hx
        rw [hmem]
        unfold zeroFill
        rw [if_neg (fun h => hx ⟨h.1, by omega⟩)]
      · refine (wf_payload hwf (Finset.mem_insert_self _ _) (by rw [← e2]) (by rw [← e2])
          ?_).1
        intro x hx
        rw [hmem]
        unfold zeroFill
        rw [if_neg]
        intro h
        apply hx
        rw [er] at h
        omega

/-! ## Next fit -/

theorem nquantasOf_pos (nbytes : Nat) : 1 ≤ nquantasOf nbytes := by
  unfold nquantasOf
  have h1 : wrap (SIZE_MOD + wrap (nbytes + QUANTUM) - 1) < SIZE_MOD :=
    Nat.mod_lt _ (by decide)
  have h2 : wrap (SIZE_MOD + wrap (nbytes + QUANTUM) - 1) / QUANTUM + 1 < SIZE_MOD := by
    simp only [QUANTUM_eq, SIZE_MOD_eq] at *
    omega
  rw [wrap_of_lt h2]
  exact Nat.le_add_left _ _

theorem ring_iter_mem {F : Finset Nat} {nx : Nat → Nat} (hR : Ring F nx) {a : Nat} (ha : a ∈ F) :
    ∀ k, nx^[k] a ∈ F := by
  intro k
  induction k with
  | zero => exact ha
  | succ n ih =>
    rw [Function.iterate_succ_apply']
    exact ring_next_mem hR ih

/-- The search loop walks on from `a` over blocks that are too small and are
not `freep`, and hands out the first block that fits. -/
theorem allocLoop_walk {L : Layout} {s : State} {nq ff : Nat} :
    ∀ j fuel a, j < fuel → (∀ i ≤ j, (nxOf s)^[i + 1] a ≠ 0) →
      (∀ i < j, szOf s ((nxOf s)^[i + 1] a) < nq ∧ (nxOf s)^[i + 1] a ≠ s.freep) →
      nq ≤ szOf s ((nxOf s)^[j + 1] a) →
      allocLoop L ff nq fuel s a (nxOf s a) =
        .ok (allocResult s nq ((nxOf s)^[j] a) ((nxOf s)^[j + 1] a)) := by
  intro j
  induction j with
  | zero =>
    intro fuel a hf h0 _ hfit
    obtain ⟨g, rfl⟩ : ∃ g, fuel = g + 1 := ⟨fuel - 1, by omega⟩
    exact allocLoop_hit (h0 0 (le_refl _)) hfit
  | succ n ih =>
    intro fuel a hf h0 hsmall hfit
    obtain ⟨g, rfl⟩ : ∃ g, fuel = g + 1 := ⟨fuel - 1, by omega⟩
    have h1 := hsmall 0 (Nat.succ_pos _)
    have hnf : ¬ nq ≤ s.mem (sizeAddr (nxOf s a)) := by
      have : szOf s (nxOf s a) < nq := h1.1
      exact Nat.not_le.2 this
    have hne : nxOf s a ≠ 0 := h0 0 (Nat.zero_le _)
    have hnfp : nxOf s a ≠ s.freep := h1.2
    rw [allocLoop_next hne hnf hnfp]
    have e : ∀ i, (nxOf s)^[i + 1] (nxOf s a) = (nxOf s)^[i + 1 + 1] a := fun i =>
      (Function.iterate_succ_apply (nxOf s) (i + 1) a).symm
    have := ih g (nxOf s a) (by omega)
      (fun i hi => by rw [e]; exact h0 (i + 1) (by omega))
      (fun i hi => by rw [e]; exact hsmall (i + 1) (by omega))
      (by rw [e]; exact hfit)
    rw [e, ← Function.iterate_succ_apply (nxOf s) n a] at this
    exact this

/-- If some iterate from `a` on satisfies `P`, the first one that does comes
before the walk is back at `a`. -/
theorem first_iter {nx : Nat → Nat} {P : Nat → Prop} [DecidablePred P] {a : Nat}
    (h : ∃ m, P (nx^[m + 1] a)) :
    ∃ j, P (nx^[j + 1] a) ∧ ∀ i < j, ¬ P (nx^[i + 1] a) ∧ nx^[i + 1] a ≠ a := by
  classical
  refine ⟨Nat.find h, Nat.find_spec h, ?_⟩
  intro i hi
  refine ⟨Nat.find_min h hi, ?_⟩
  intro hp
  -- the walk has period `i + 1`, so the hit at `find` shows up `i + 1` steps earlier
  have hper : nx^[Nat.find h + 1] a = nx^[Nat.find h - i - 1 + 1] a := by
    have e : Nat.find h + 1 = (Nat.find h - i - 1 + 1) + (i + 1) := by omega
    have := Function.iterate_add_apply nx (Nat.find h - i - 1 + 1) (i + 1) a
    rw [hp, ← e] at this
    exact this
  have hlt : Nat.find h - i - 1 < Nat.find h := by omega
  exact Nat.find_min h hlt (hper ▸ Nat.find_spec h)

/-- When some free block fits, the call returns the first block that fits on
the walk from `freep.next`, found before the walk is back at `freep`. -/
theorem next_fit_spec {L : Layout} {s : State} {F A : Finset Nat} {nbytes : Nat}
    (hw : WF L s F A) (hfit : ∃ f ∈ F, nquantasOf nbytes ≤ szOf s f) :
    ∃ j, (nxOf s)^[j] s.freep ∈ F ∧ (nxOf s)^[j + 1] s.freep ∈ F ∧
      nxOf s ((nxOf s)^[j] s.freep) = (nxOf s)^[j + 1] s.freep ∧
      nquantasOf nbytes ≤ szOf s ((nxOf s)^[j + 1] s.freep) ∧
      (∀ i < j, szOf s ((nxOf s)^[i + 1] s.freep) < nquantasOf nbytes ∧
        (nxOf s)^[i + 1] s.freep ≠ s.freep) ∧
      (∀ f ∈ F, ∃ m, (nxOf s)^[m + 1] s.freep = f) ∧
      AllocRet L s nbytes
        (allocResult s (nquantasOf nbytes) ((nxOf s)^[j] s.freep) ((nxOf s)^[j + 1] s.freep)).1
        (allocResult s (nquantasOf nbytes) ((nxOf s)^[j] s.freep) ((nxOf s)^[j + 1] s.freep)).2 ∧
      ∀ r s', AllocRet L s nbytes r s' →
        r = (allocResult s (nquantasOf nbytes) ((nxOf s)^[j] s.freep)
          ((nxOf s)^[j + 1] s.freep)).1 ∧
        s' = (allocResult s (nquantasOf nbytes) ((nxOf s)^[j] s.freep)
          ((nxOf s)^[j + 1] s.freep)).2 := by
  have hB := hw.mem_lt
  have hR := hw.shape.ring
  have hreach : ∀ f ∈ F, ∃ m, (nxOf s)^[m + 1] s.freep = f := by
    intro f hf
    obtain ⟨k, hk⟩ := ring_reach hB hR hf _ _ (ring_next_mem hR hw.freep_mem) (le_refl _)
    exact ⟨k, by rw [Function.iterate_succ_apply]; exact hk⟩
  obtain ⟨f, hf, hff⟩ := hfit
  obtain ⟨m, hm⟩ := hreach f hf
  have hex : ∃ m, nquantasOf nbytes ≤ szOf s ((nxOf s)^[m + 1] s.freep) := ⟨m, by rw [hm]; exact hff⟩
  obtain ⟨j, hj, hmin⟩ := first_iter (P := fun x => nquantasOf nbytes ≤ szOf s x) hex
  have hsmall : ∀ i < j, szOf s ((nxOf s)^[i + 1] s.freep) < nquantasOf nbytes ∧
      (nxOf s)^[i + 1] s.freep ≠ s.freep :=
    fun i hi => ⟨Nat.not_le.1 (hmin i hi).1, (hmin i hi).2⟩
  have hrun : hackweekmgr_alloc L (j + 1) s nbytes =
      .ok (allocResult s (nquantasOf nbytes) ((nxOf s)^[j] s.freep)
        ((nxOf s)^[j + 1] s.freep)) := by
    unfold hackweekmgr_alloc
    rw [allocQuanta_live hw.freep_ne]
    exact allocLoop_walk j (j + 1) s.freep (Nat.lt_succ_self _)
      (fun i _ => hw.ne_zero _ (ring_iter_mem hR hw.freep_mem _)) hsmall hj
  refine ⟨j, ring_iter_mem hR hw.freep_mem _, ring_iter_mem hR hw.freep_mem _,
    (Function.iterate_succ_apply' (nxOf s) j s.freep).symm, hj, hsmall, hreach, ⟨j + 1, hrun⟩, ?_⟩
  rintro r s' ⟨f2, hf2⟩
  have := alloc_det hf2 hrun
  rw [← this]
  exact ⟨rfl, rfl⟩

theorem takeExact_mem (s : State) (pq q : Nat) :
    (takeExact s pq q).2.mem = store s.mem pq (s.mem q) ∧ (takeExact s pq q).2.freep = pq :=
  ⟨rfl, rfl⟩

theorem takeSplit_mem {L : Layout} {s : State} {F A : Finset Nat} {nq pq q : Nat}
    (hw : WF L s F A) (hq : q ∈ F) (hsz : nq < szOf s q) :
    (takeSplit s nq pq q).2.mem =
      store (store s.mem (q + 8) (szOf s q - nq)) (q + QUANTUM * (szOf s q - nq) + 8) nq ∧
    (takeSplit s nq pq q).2.freep = pq := by
  have lq := hw.shape.lt_mod hw.layout hw.pfp_le (Or.inl hq)
  have e1 : wrap (SIZE_MOD + s.mem (sizeAddr q) - nq) = szOf s q - nq := by
    unfold wrap
    have : SIZE_MOD + s.mem (sizeAddr q) - nq = (szOf s q - nq) + SIZE_MOD := by
      show SIZE_MOD + szOf s q - nq = _
      omega
    rw [this, Nat.add_mod_right]
    exact Nat.mod_eq_of_lt (by simp only [SIZE_MOD_eq] at *; omega)
  have e2 : hdrAdd q (szOf s q - nq) = q + QUANTUM * (szOf s q - nq) :=
    hdrAdd_of_lt (by simp only [QUANTUM_eq, SIZE_MOD_eq] at *; omega)
  refine ⟨?_, rfl⟩
  show store (store s.mem (sizeAddr q) (wrap (SIZE_MOD + s.mem (sizeAddr q) - nq)))
    (sizeAddr (hdrAdd q (store s.mem (sizeAddr q)
      (wrap (SIZE_MOD + s.mem (sizeAddr q) - nq)) (sizeAddr q)))) nq = _
  rw [store_same, e1, e2]
  rfl

/-- What handing out a block that fits exactly writes. -/
theorem take_exact_spec {L : Layout} {s : State} {F A : Finset Nat} {nq pq q : Nat}
    (hw : WF L s F A) (hq : q ∈ F) (hpq : pq ∈ F) (hn : nxOf s pq = q)
    (hsz : szOf s q = nq) (hnq : 1 ≤ nq) :
    (allocResult s nq pq q).1 = q + QUANTUM ∧
    (allocResult s nq pq q).2.pool_free_pos = s.pool_free_pos ∧
    (allocResult s nq pq q).2.freep = pq ∧
    szOf (allocResult s nq pq q).2 q = nq ∧
    nxOf (allocResult s nq pq q).2 pq = nxOf s q ∧
    (∀ x, x ≠ pq → (allocResult s nq pq q).2.mem x = s.mem x) ∧
    WF L (allocResult s nq pq q).2 (F.erase q) (insert q A) := by
  have hres : allocResult s nq pq q = takeExact s pq q := by
    unfold allocResult
    rw [if_pos (show s.mem (sizeAddr q) = nq from hsz)]
  rw [hres]
  obtain ⟨h1, h2, h3⟩ := wf_takeExact hw hq hpq hn hsz hnq
  have hne : pq ≠ q + 8 := hw.shape.addr_ne hw.layout hw.pfp_le (Or.inl hpq) (Or.inl hq)
  refine ⟨h1, h2, rfl, ?_, ?_, ?_, h3⟩
  · show store s.mem pq (s.mem q) (q + 8) = nq
    rw [store_ne (fun e => hne e.symm)]
    exact hsz
  · show store s.mem pq (s.mem q) pq = s.mem q
    rw [store_same]
  · intro x hx
    show store s.mem pq (s.mem q) x = s.mem x
    rw [store_ne hx]

/-- What cutting the tail off a bigger block writes. -/
theorem take_split_spec {L : Layout} {s : State} {F A : Finset Nat} {nq pq q : Nat}
    (hw : WF L s F A) (hq : q ∈ F) (hpq : pq ∈ F) (hsz : nq < szOf s q) (hnq : 1 ≤ nq) :
    (allocResult s nq pq q).1 = q + QUANTUM * (szOf s q - nq) + QUANTUM ∧
    (allocResult s nq pq q).2.pool_free_pos = s.pool_free_pos ∧
    (allocResult s nq pq q).2.freep = pq ∧
    szOf (allocResult s nq pq q).2 q = szOf s q - nq ∧
    nxOf (allocResult s nq pq q).2 q = nxOf s q ∧
    szOf (allocResult s nq pq q).2 (q + QUANTUM * (szOf s q - nq)) = nq ∧
    (∀ x, x ≠ q + 8 → x ≠ q + QUANTUM * (szOf s q - nq) + 8 →
      (allocResult s nq pq q).2.mem x = s.mem x) ∧
    WF L (allocResult s nq pq q).2 F (insert (q + QUANTUM * (szOf s q - nq)) A) := by
  have hres : allocResult s nq pq q = takeSplit s nq pq q := by
    unfold allocResult
    rw [if_neg (show ¬ s.mem (sizeAddr q) = nq from fun e => by
      have : szOf s q = nq := e
      omega)]
  rw [hres]
  obtain ⟨h1, h2, h3, h4⟩ := wf_takeSplit hw hq hpq hsz hnq
  obtain ⟨hmem, hfp⟩ := @takeSplit_mem L s F A nq pq q hw hq hsz
  refine ⟨h1, h2, hfp, ?_, ?_, h3, ?_, h4⟩
  · show (takeSplit s nq pq q).2.mem (q + 8) = _
    rw [hmem, store_ne (by simp only [QUANTUM_eq]; omega), store_same]
  · show (takeSplit s nq pq q).2.mem q = s.mem q
    rw [hmem, store_ne (by simp only [QUANTUM_eq]; omega), store_ne (by omega)]
  · intro x hx1 hx2
    rw [hmem, store_ne hx2, store_ne hx1]

/-! ## Selection and splitting, as claimed -/

/-- C15. Next-fit selection: in a well-formed state, for a request of
`nquantasOf nbytes` quanta (any `nbytes`), if some free-list block has at
least that size then `hackweekmgr_alloc` returns, with one result whatever the
fuel, and makes no pool claim (`pool_free_pos` is unchanged).  With the free
list enumerated from `freep.next` by `next` (every member is reached that
way), the block selected is the first one of sufficient size: every block
examined before it is too small and is not `freep`, so `freep` itself comes
last.  The reference returned is one quantum past the header of the block
handed out, which has the size asked for and is the selected block or its
tail, and `freep` is left at the list predecessor of the selected block. -/
theorem next_fit_selection {L : Layout} {s : State} {F A : Finset Nat} {nbytes : Nat}
    (hw : WF L s F A) (hfit : ∃ f ∈ F, nquantasOf nbytes ≤ szOf s f) :
    ∃ j r s',
      AllocRet L s nbytes r s' ∧ (∀ r2 s2, AllocRet L s nbytes r2 s2 → r2 = r ∧ s2 = s') ∧
      s'.pool_free_pos = s.pool_free_pos ∧
      (nxOf s)^[j + 1] s.freep ∈ F ∧
      nquantasOf nbytes ≤ szOf s ((nxOf s)^[j + 1] s.freep) ∧
      (∀ i < j, szOf s ((nxOf s)^[i + 1] s.freep) < nquantasOf nbytes ∧
        (nxOf s)^[i + 1] s.freep ≠ s.freep) ∧
      (∀ f ∈ F, ∃ m, (nxOf s)^[m + 1] s.freep = f) ∧
      (∃ h, r = h + QUANTUM ∧ szOf s' h = nquantasOf nbytes ∧ (nxOf s)^[j + 1] s.freep ≤ h ∧
        h + QUANTUM * nquantasOf nbytes =
          (nxOf s)^[j + 1] s.freep + QUANTUM * szOf s ((nxOf s)^[j + 1] s.freep)) ∧
      s'.freep = (nxOf s)^[j] s.freep ∧ nxOf s s'.freep = (nxOf s)^[j + 1] s.freep := by
  obtain ⟨j, hpq, hq, hn, hsz, hfirst, hreach, hret, huniq⟩ := next_fit_spec hw hfit
  have hnq := nquantasOf_pos nbytes
  by_cases hex : szOf s ((nxOf s)^[j + 1] s.freep) = nquantasOf nbytes
  · obtain ⟨e1, e2, e3, e4, _, _, _⟩ := take_exact_spec hw hq hpq hn hex hnq
    refine ⟨j, _, _, hret, huniq, e2, hq, hsz, hfirst, hreach,
      ⟨_, e1, e4, le_refl _, by rw [hex]⟩, e3, by rw [e3]; exact hn⟩
  · have hlt : nquantasOf nbytes < szOf s ((nxOf s)^[j + 1] s.freep) := by omega
    obtain ⟨e1, e2, e3, _, _, e6, _, _⟩ := take_split_spec hw hq hpq hlt hnq
    refine ⟨j, _, _, hret, huniq, e2, hq, hsz, hfirst, hreach,
      ⟨_, e1, e6, Nat.le_add_right _ _, ?_⟩, e3, by rw [e3]; exact hn⟩
    simp only [QUANTUM_eq]
    omega

/-- Witness of C15: one byte asked of `demoState`, whose free block has 14 quanta. -/
theorem next_fit_selection_witness :
    WF layoutLow demoState demoFree demoAlloc ∧
    (∃ f ∈ demoFree, nquantasOf 1 ≤ szOf demoState f) ∧
    ∃ j r s',
      AllocRet layoutLow demoState 1 r s' ∧
      (∀ r2 s2, AllocRet layoutLow demoState 1 r2 s2 → r2 = r ∧ s2 = s') ∧
      s'.pool_free_pos = demoState.pool_free_pos ∧
      (nxOf demoState)^[j + 1] demoState.freep ∈ demoFree ∧
      nquantasOf 1 ≤ szOf demoState ((nxOf demoState)^[j + 1] demoState.freep) ∧
      (∀ i < j, szOf demoState ((nxOf demoState)^[i + 1] demoState.freep) < nquantasOf 1 ∧
        (nxOf demoState)^[i + 1] demoState.freep ≠ demoState.freep) ∧
      (∀ f ∈ demoFree, ∃ m, (nxOf demoState)^[m + 1] demoState.freep = f) ∧
      (∃ h, r = h + QUANTUM ∧ szOf s' h = nquantasOf 1 ∧
        (nxOf demoState)^[j + 1] demoState.freep ≤ h ∧
        h + QUANTUM * nquantasOf 1 =
          (nxOf demoState)^[j + 1] demoState.freep +
            QUANTUM * szOf demoState ((nxOf demoState)^[j + 1] demoState.freep)) ∧
      s'.freep = (nxOf demoState)^[j] demoState.freep ∧
      nxOf demoState s'.freep = (nxOf demoState)^[j + 1] demoState.freep :=
  ⟨demo_wf, ⟨0x100000000, by decide, by decide⟩,
    next_fit_selection demo_wf ⟨0x100000000, by decide, by decide⟩⟩

/-- The upper neighbour that a release absorbs is never the insertion point. -/
theorem upper_ne_point {L : Layout} {s : State} {top : Nat} {F A : Finset Nat} {b p : Nat}
    (hs : Shape L top F A (nxOf s) (szOf s)) (hL : L.ok) (htop : top ≤ POOL_SIZE)
    (hb : b ∈ A) (hp : p ∈ F) (up : b + QUANTUM * szOf s b = nxOf s p) : nxOf s p ≠ p := by
  intro e
  have hbF : b ∉ F := hs.disj b hb
  have nb := hs.node hL htop (Or.inr hb)
  have hr := hs.ring p hp
  rw [e] at hr up
  rcases hr.2 with ⟨hlt, _⟩ | ⟨_, hall⟩
  · omega
  · have hbase := hall L.base hs.base_mem
    obtain ⟨_, _, _, _, l5⟩ := hL
    rcases nb with ⟨_, _, h⟩ | nb
    · exact hbF h
    · simp only [QUANTUM_eq, POOL_SIZE_eq] at *
      omega

/-- The bytes and the quanta of the free list after a release: those before,
and those of the released block. -/
theorem free_account {L : Layout} {s : State} {top : Nat} {F A : Finset Nat} {b p : Nat}
    (hs : Shape L top F A (nxOf s) (szOf s)) (hL : L.ok) (htop : top ≤ POOL_SIZE)
    (hb : b ∈ A) (hp : p ∈ F) :
    (∀ x, covered (freedState s b p) (freeSet s F b p) x ↔
      covered s F x ∨ (b ≤ x ∧ x < b + QUANTUM * szOf s b)) ∧
    quantaOf (freedState s b p) (freeSet s F b p) = quantaOf s F + szOf s b := by
  have hbF : b ∉ F := hs.disj b hb
  have hu : nxOf s p ∈ F := ring_next_mem hs.ring hp
  have hpb : p ≠ b := fun e => hbF (e ▸ hp)
  have hune := fun up => upper_ne_point hs hL htop hb hp up
  obtain ⟨e_other, _, e_sb, _, e_sp⟩ := freed_fields hs hL htop hb hp
  have hsame : ∀ x ∈ F, x ≠ p → szOf (freedState s b p) x = szOf s x :=
    fun x hx hxp => (e_other x (Or.inl hx) (fun e => hbF (e ▸ hx)) hxp).2
  have hm := fun x => mem_freeSet (s := s) (p := p) (x := x) hbF
  constructor
  · intro x
    unfold covered
    constructor
    · rintro ⟨h, hh, hx1, hx2⟩
      rw [hm] at hh
      have inb : b ≤ x → x < b + QUANTUM * szOf (freedState s b p) b →
          (∃ h ∈ F, h ≤ x ∧ x < h + QUANTUM * szOf s h) ∨
            (b ≤ x ∧ x < b + QUANTUM * szOf s b) := by
        intro g1 g2
        rw [e_sb] at g2
        by_cases up : b + QUANTUM * szOf s b = nxOf s p
        · rw [if_pos up] at g2
          by_cases hx : x < b + QUANTUM * szOf s b
          · exact Or.inr ⟨g1, hx⟩
          · refine Or.inl ⟨nxOf s p, hu, by omega, ?_⟩
            simp only [QUANTUM_eq] at *
            omega
        · rw [if_neg up] at g2
          exact Or.inr ⟨g1, g2⟩
      rcases hh with ⟨hF, _⟩ | ⟨e, _⟩
      · by_cases hhp : h = p
        · subst hhp
          rw [e_sp] at hx2
          by_cases lo : h + QUANTUM * szOf s h = b
          · rw [if_pos lo] at hx2
            by_cases hx : x < h + QUANTUM * szOf s h
            · exact Or.inl ⟨h, hF, hx1, hx⟩
            · refine inb (by omega) ?_
              simp only [QUANTUM_eq] at *
              omega
          · rw [if_neg lo] at hx2
            exact Or.inl ⟨h, hF, hx1, hx2⟩
        · rw [hsame h hF hhp] at hx2
          exact Or.inl ⟨h, hF, hx1, hx2⟩
      · subst e
        exact inb hx1 hx2
    · have big : b ≤ x → x < b + QUANTUM * szOf (freedState s b p) b →
          ∃ h ∈ freeSet s F b p, h ≤ x ∧ x < h + QUANTUM * szOf (freedState s b p) h := by
        intro g1 g2
        by_cases lo : p + QUANTUM * szOf s p = b
        · refine ⟨p, (hm p).2 (Or.inl ⟨hp, fun h => hune h.1 h.2.symm⟩), by omega, ?_⟩
          rw [e_sp, if_pos lo]
          simp only [QUANTUM_eq] at *
          omega
        · exact ⟨b, (hm b).2 (Or.inr ⟨rfl, lo⟩), g1, g2⟩
      have hge : szOf s b ≤ szOf (freedState s b p) b := by
        rw [e_sb]
        split_ifs <;> omega
      rintro (⟨h, hF, hx1, hx2⟩ | ⟨hx1, hx2⟩)
      · by_cases hup : b + QUANTUM * szOf s b = nxOf s p ∧ h = nxOf s p
        · obtain ⟨up, e⟩ := hup
          subst e
          refine big (by omega) ?_
          rw [e_sb, if_pos up]
          simp only [QUANTUM_eq] at *
          omega
        · refine ⟨h, (hm h).2 (Or.inl ⟨hF, hup⟩), hx1, ?_⟩
          by_cases hhp : h = p
          · subst hhp
            rw [e_sp]
            split_ifs
            · simp only [QUANTUM_eq] at *
              omega
            · exact hx2
          · rw [hsame h hF hhp]
            exact hx2
      · refine big hx1 ?_
        simp only [QUANTUM_eq] at *
        omega
  · unfold quantaOf freeSet
    by_cases lo : p + QUANTUM * szOf s p = b <;>
      by_cases up : b + QUANTUM * szOf s b = nxOf s p
    · rw [if_pos lo, if_pos up]
      have hpe : p ∈ F.erase (nxOf s p) := Finset.mem_erase.2 ⟨fun e => hune up e.symm, hp⟩
      rw [← Finset.add_sum_erase _ _ hpe, ← Finset.add_sum_erase F _ hu,
        ← Finset.add_sum_erase (F.erase (nxOf s p)) (szOf s) hpe, e_sp, if_pos lo, e_sb,
        if_pos up]
      have : ∑ x ∈ (F.erase (nxOf s p)).erase p, szOf (freedState s b p) x =
          ∑ x ∈ (F.erase (nxOf s p)).erase p, szOf s x := by
        refine Finset.sum_congr rfl (fun x hx => ?_)
        have h1 := Finset.mem_erase.1 hx
        exact hsame x (Finset.mem_erase.1 h1.2).2 h1.1
      rw [this]
      omega
    · rw [if_pos lo, if_neg up]
      rw [← Finset.add_sum_erase _ _ hp, ← Finset.add_sum_erase F (szOf s) hp, e_sp, if_pos lo,
        e_sb, if_neg up]
      have : ∑ x ∈ F.erase p, szOf (freedState s b p) x = ∑ x ∈ F.erase p, szOf s x := by
        refine Finset.sum_congr rfl (fun x hx => ?_)
        have h1 := Finset.mem_erase.1 hx
        exact hsame x h1.2 h1.1
      rw [this]
      omega
    · rw [if_neg lo, if_pos up]
      have hbe : b ∉ F.erase (nxOf s p) := fun h => hbF (Finset.mem_erase.1 h).2
      rw [Finset.sum_insert hbe, ← Finset.add_sum_erase F (szOf s) hu, e_sb, if_pos up]
      have : ∑ x ∈ F.erase (nxOf s p), szOf (freedState s b p) x =
          ∑ x ∈ F.erase (nxOf s p), szOf s x := by
        refine Finset.sum_congr rfl (fun x hx => ?_)
        have h1 := Finset.mem_erase.1 hx
        by_cases hxp : x = p
        · rw [hxp, e_sp, if_neg lo]
        · exact hsame x h1.2 hxp
      rw [this]
      omega
    · rw [if_neg lo, if_neg up, Finset.sum_insert hbF, e_sb, if_neg up]
      have : ∑ x ∈ F, szOf (freedState s b p) x = ∑ x ∈ F, szOf s x := by
        refine Finset.sum_congr rfl (fun x hx => ?_)
        by_cases hxp : x = p
        · rw [hxp, e_sp, if_neg lo]
        · exact hsame x hx hxp
      rw [this]
      exact Nat.add_comm _ _

/-! ## Release, as claimed -/

theorem insPoint_of_cond {F : Finset Nat} {nx : Nat → Nat} {b p : Nat} (hR : Ring F nx)
    (hp : p ∈ F) (hbF : b ∉ F) (hc : InsCond nx b p) : InsPoint F b p := by
  have hr := hR p hp
  have hne : ∀ c ∈ F, c ≠ b := fun c hc e => hbF (e ▸ hc)
  refine ⟨hp, ?_⟩
  rcases hc with ⟨h1, h2⟩ | ⟨h1, h2⟩
  · rcases hr.2 with ⟨_, hno⟩ | ⟨hle, _⟩
    · refine Or.inl ⟨h1, fun c hc hcb => ?_⟩
      by_contra hcon
      exact hno c hc ⟨by omega, by omega⟩
    · omega
  · rcases hr.2 with ⟨hlt, _⟩ | ⟨_, hall⟩
    · omega
    · rcases h2 with h2 | h2
      · exact Or.inl ⟨h2, fun c hc _ => (hall c hc).2⟩
      · refine Or.inr ⟨fun c hc => ?_, fun c hc => (hall c hc).2⟩
        have := (hall c hc).1
        omega

/-- No byte of an allocated block lies in a free-list block. -/
theorem WF.free_apart {L : Layout} {s : State} {F A : Finset Nat} (hw : WF L s F A) {x : Nat}
    (hx : Owned s A x) : ¬ covered s F x := by
  rintro ⟨q, hq, h1, h2⟩
  by_cases hqb : q = L.base
  · rw [hqb, hw.shape.base_size] at h2
    omega
  · have := hw.owned_out hx hq hqb
    omega

/-- Release of a block the arena guard accepts. -/
theorem free_adds_spec {L : Layout} {s : State} {F A : Finset Nat} {b : Nat}
    (hw : WF L s F A) (hb : b ∈ A) (hlt : b + QUANTUM < L.pool + POOL_SIZE) :
    ∃ p s' F', FreeRet L s (b + QUANTUM) s' ∧
      (∀ s'', FreeRet L s (b + QUANTUM) s'' → s'' = s') ∧
      WF L s' F' (A.erase b) ∧
      (∀ x, covered s' F' x ↔ covered s F x ∨ (b ≤ x ∧ x < b + QUANTUM * szOf s b)) ∧
      (∀ x, b ≤ x → x < b + QUANTUM * szOf s b → ¬ covered s F x) ∧
      quantaOf s' F' = quantaOf s F + szOf s b ∧
      s'.pool_free_pos = s.pool_free_pos ∧ s'.freep = p ∧ InsPoint F b p := by
  obtain ⟨s1, hret, huniq, hpfp, _, _, hcase⟩ := free_spec hw hb
  rcases hcase with ⟨hedge, _, _⟩ | ⟨_, p, hp, hc, hs1, hwf⟩
  · omega
  · obtain ⟨hcov, hsum⟩ := free_account hw.shape hw.layout hw.pfp_le hb hp
    subst hs1
    exact ⟨p, _, _, hret, huniq, hwf, hcov,
      fun x h1 h2 => hw.free_apart ⟨b, hb, h1, h2⟩, hsum, hpfp, rfl,
      insPoint_of_cond hw.shape.ring hp (hw.shape.disj b hb) hc⟩

/-- C17. Release adds exactly the released block to the free memory: in a
well-formed state, for a currently allocated block `b` of size `k` whose
reference the arena guard accepts (`b + QUANTUM < pool + POOL_SIZE`),
`hackweekmgr_free` returns, with one result whatever the fuel, in a
well-formed state in which `b` is no longer allocated.  The bytes covered by
free-list blocks afterwards are those covered before together with the range
of `b`, none of which was covered before; the sum of the free-list sizes has
grown by exactly `k`; `pool_free_pos` is unchanged; and `freep` is the
insertion point `p`, the free-list member of highest address below `b`, or
the member of highest address of all when `b` lies below every member. -/
theorem free_adds_block {L : Layout} {s : State} {F A : Finset Nat} {b : Nat}
    (hw : WF L s F A) (hb : b ∈ A) (hlt : b + QUANTUM < L.pool + POOL_SIZE) :
    ∃ p s' F', FreeRet L s (b + QUANTUM) s' ∧
      (∀ s'', FreeRet L s (b + QUANTUM) s'' → s'' = s') ∧
      WF L s' F' (A.erase b) ∧
      (∀ x, covered s' F' x ↔ covered s F x ∨ (b ≤ x ∧ x < b + QUANTUM * szOf s b)) ∧
      (∀ x, b ≤ x → x < b + QUANTUM * szOf s b → ¬ covered s F x) ∧
      quantaOf s' F' = quantaOf s F + szOf s b ∧
      s'.pool_free_pos = s.pool_free_pos ∧ s'.freep = p ∧ InsPoint F b p :=
  free_adds_spec hw hb hlt

/-- Witness of C17: the block allocated in `demoState`. -/
theorem free_adds_block_witness :
    WF layoutLow demoState demoFree demoAlloc ∧ (0x1000001C0 : Nat) ∈ demoAlloc ∧
    0x1000001C0 + QUANTUM < layoutLow.pool + POOL_SIZE ∧
    ∃ p s' F', FreeRet layoutLow demoState (0x1000001C0 + QUANTUM) s' ∧
      (∀ s'', FreeRet layoutLow demoState (0x1000001C0 + QUANTUM) s'' → s'' = s') ∧
      WF layoutLow s' F' (demoAlloc.erase 0x1000001C0) ∧
      (∀ x, covered s' F' x ↔ covered demoState demoFree x ∨
        (0x1000001C0 ≤ x ∧ x < 0x1000001C0 + QUANTUM * szOf demoState 0x1000001C0)) ∧
      (∀ x, 0x1000001C0 ≤ x → x < 0x1000001C0 + QUANTUM * szOf demoState 0x1000001C0 →
        ¬ covered demoState demoFree x) ∧
      quantaOf s' F' = quantaOf demoState demoFree + szOf demoState 0x1000001C0 ∧
      s'.pool_free_pos = demoState.pool_free_pos ∧ s'.freep = p ∧
      InsPoint demoFree 0x1000001C0 p :=
  ⟨demo_wf, by decide, by decide, free_adds_block demo_wf (by decide) (by decide)⟩

/-- Counterexample to C17 as stated: in `edgeState` the allocated block is the
last quantum of the pool, of size 1, and its byte range is not covered by the
free list, whose sizes add up to `2^25 - 1`.  `hackweekmgr_free` takes its
reference, the end of the pool, for one outside the arena and returns with the
state as it was, so the free list has gained nothing. -/
theorem free_edge_block_adds_nothing :
    WF layoutLow edgeState edgeFree edgeAlloc ∧ (0x13FFFFFE0 : Nat) ∈ edgeAlloc ∧
    szOf edgeState 0x13FFFFFE0 = 1 ∧ ¬ covered edgeState edgeFree 0x13FFFFFE0 ∧
    quantaOf edgeState edgeFree = 33554431 ∧
    hackweekmgr_free layoutLow 8 edgeState (0x13FFFFFE0 + QUANTUM) = .ok edgeState :=
  ⟨wf_of_check (by decide), by decide, by decide, by decide, by decide,
    free_noop (by decide) 8 edgeState (Or.inr (by decide))⟩

/-! ## The blocks tile the claimed part of the pool -/

/-- A claim keeps the claimed part of the pool covered by blocks. -/
theorem get_mem_exact {L : Layout} {s : State} {F A : Finset Nat} {nq ff : Nat}
    (hw : WF L s F A) (hex : Exact L s F A) (hq : nq * QUANTUM + POOL_SIZE < SIZE_MOD)
    (hfit : s.pool_free_pos + QUANTUM * claimQuanta nq ≤ POOL_SIZE) (hff : F.card ≤ ff) :
    ∃ p F', p ∈ F ∧ p ≠ 0 ∧
      get_mem_from_pool L ff s nq = .ok (p, claimedState L s (claimQuanta nq) p) ∧
      WF L (claimedState L s (claimQuanta nq) p) F' A ∧
      F'.card ≤ F.card + 1 ∧
      (∃ f ∈ F', claimQuanta nq ≤ szOf (claimedState L s (claimQuanta nq) p) f) ∧
      (∀ x, Owned s A x → (claimedState L s (claimQuanta nq) p).mem x = s.mem x) ∧
      (∀ l ∈ A, szOf (claimedState L s (claimQuanta nq) p) l = szOf s l) ∧
      Exact L (claimedState L s (claimQuanta nq) p) F' A := by
  have hc := claimQuanta_ge nq
  have hL := hw.layout
  have hs := hw.shape
  have htop := hw.pfp_le
  have hcq : claimQuanta nq * QUANTUM + POOL_SIZE < SIZE_MOD := by
    unfold claimQuanta MIN_POOL_ALLOC_QUANTAS at *
    simp only [QUANTUM_eq, POOL_SIZE_eq, SIZE_MOD_eq] at *
    split_ifs <;> omega
  have e1 : wrap (claimQuanta nq * QUANTUM) = claimQuanta nq * QUANTUM := wrap_of_lt (by omega)
  have e2 : wrap (s.pool_free_pos + claimQuanta nq * QUANTUM) =
      s.pool_free_pos + QUANTUM * claimQuanta nq := by
    rw [wrap_of_lt (by omega), Nat.mul_comm]
  obtain ⟨l1, l2, l3, l4, l5⟩ := hL
  have e3 : wrap (L.pool + s.pool_free_pos) = L.pool + s.pool_free_pos := wrap_of_lt (by omega)
  have e4 : hdrAdd (L.pool + s.pool_free_pos) 1 = L.pool + s.pool_free_pos + QUANTUM := by
    rw [hdrAdd_of_lt (by simp only [QUANTUM_eq, POOL_SIZE_eq, SIZE_MOD_eq] at *; omega),
      Nat.mul_one]
  have hst : stampedState L s (claimQuanta nq) =
      { s with mem := store s.mem (L.pool + s.pool_free_pos + 8) (claimQuanta nq) } := by
    unfold stampedState
    rw [e3]
    rfl
  -- the state with the size of the fresh header written
  have hfresh : ∀ x, (x ∈ F ∨ x ∈ A) → x ≠ L.pool + s.pool_free_pos + 8 ∧
      x ≠ L.pool + s.pool_free_pos := by
    intro x hx
    have := hw.wnode hx
    simp only [QUANTUM_eq, POOL_SIZE_eq, SIZE_MOD_eq] at *
    omega
  have sh1 : Shape L (s.pool_free_pos + QUANTUM * claimQuanta nq) F
      (insert (L.pool + s.pool_free_pos) A)
      (nxOf (stampedState L s (claimQuanta nq)))
      (szOf (stampedState L s (claimQuanta nq))) := by
    rw [hst]
    refine shape_claim hs hw.layout hw.pfp_al hfit (by omega) ?_ ?_ ?_
    · show store s.mem (L.pool + s.pool_free_pos + 8) (claimQuanta nq)
        (L.pool + s.pool_free_pos + 8) = _
      rw [store_same]
    · intro x hx
      show store s.mem (L.pool + s.pool_free_pos + 8) (claimQuanta nq) (x + 8) = s.mem (x + 8)
      have := (hfresh x hx).2
      rw [store_ne (by omega)]
    · intro a ha
      show store s.mem (L.pool + s.pool_free_pos + 8) (claimQuanta nq) a = s.mem a
      rw [store_ne (hfresh a (Or.inl ha)).1]
  have hhA : L.pool + s.pool_free_pos ∉ A := fun h => (hfresh _ (Or.inr h)).2 rfl
  obtain ⟨p, hp, _, hfree, hpm, sh2⟩ := free_core ff hw.layout hfit sh1 hw.freep_mem
    (Finset.mem_insert_self _ _) hff
    (by simp only [QUANTUM_eq, POOL_SIZE_eq, SIZE_MOD_eq] at *; omega)
  rw [Finset.erase_insert hhA] at sh2
  obtain ⟨f, hfm, hfs⟩ := free_fit sh1 hw.layout hfit (Finset.mem_insert_self _ _) hp
  have hsz1 : szOf (stampedState L s (claimQuanta nq)) (L.pool + s.pool_free_pos) = claimQuanta nq := by
    rw [hst]
    show store s.mem (L.pool + s.pool_free_pos + 8) (claimQuanta nq)
        (L.pool + s.pool_free_pos + 8) = _
    rw [store_same]
  rw [hsz1] at hfs
  have hal : (s.pool_free_pos + QUANTUM * claimQuanta nq) % QUANTUM = 0 := by
    have := hw.pfp_al
    simp only [QUANTUM_eq] at *
    omega
  have hwf : WF L (claimedState L s (claimQuanta nq) p)
      (freeSet (stampedState L s (claimQuanta nq)) F (L.pool + s.pool_free_pos) p) A := by
    refine ⟨hw.layout, ?_, ?_, ?_, ?_⟩
    · rw [claimed_pfp]; exact hfit
    · rw [claimed_pfp]; exact hal
    · rw [claimed_freep]; exact hpm
    · rw [claimed_pfp, claimed_nx, claimed_sz]; exact sh2
  have hget : get_mem_from_pool L ff s nq = .ok (p, claimedState L s (claimQuanta nq) p) := by
    unfold get_mem_from_pool
    rw [e1, e2, if_pos hfit, e3, e4, hfree]
    simp only [claimedState, freedState, stampedState]
    rw [e2]
  have hmem : (claimedState L s (claimQuanta nq) p).mem =
      joinLower (joinUpper (store s.mem (L.pool + s.pool_free_pos + 8) (claimQuanta nq))
        (L.pool + s.pool_free_pos) p) (L.pool + s.pool_free_pos) p := by
    unfold claimedState freedState
    rw [hst]
  have hfs' : claimQuanta nq ≤ szOf (claimedState L s (claimQuanta nq) p) f := by
    rw [claimed_sz]; exact hfs
  have hAsz : ∀ l ∈ A, szOf (claimedState L s (claimQuanta nq) p) l = szOf s l := by
    intro l hl
    have hlF : l ∉ F := hs.disj l hl
    have hlp : l ≠ p := fun e => hlF (e ▸ hp)
    have hl1 : l ∈ F ∨ l ∈ insert (L.pool + s.pool_free_pos) A :=
      Or.inr (Finset.mem_insert_of_mem hl)
    have := (freed_fields sh1 hw.layout hfit (Finset.mem_insert_self _ _) hp).1 l hl1
      (hfresh l (Or.inr hl)).2 hlp
    rw [claimed_sz, this.2, hst]
    show store s.mem (L.pool + s.pool_free_pos + 8) (claimQuanta nq) (l + 8) = s.mem (l + 8)
    have := (hfresh l (Or.inr hl)).2
    rw [store_ne (by omega)]
  have hFsz : ∀ y ∈ F, szOf (stampedState L s (claimQuanta nq)) y = szOf s y := by
    intro y hy
    rw [hst]
    show store s.mem (L.pool + s.pool_free_pos + 8) (claimQuanta nq) (y + 8) = s.mem (y + 8)
    have := (hfresh y (Or.inl hy)).2
    rw [store_ne (by omega)]
  have hexact : Exact L (claimedState L s (claimQuanta nq) p)
      (freeSet (stampedState L s (claimQuanta nq)) F (L.pool + s.pool_free_pos) p) A := by
    obtain ⟨hcov, _⟩ := free_account sh1 hw.layout hfit (Finset.mem_insert_self _ _) hp
    have hco : ∀ x, covered (claimedState L s (claimQuanta nq) p)
        (freeSet (stampedState L s (claimQuanta nq)) F (L.pool + s.pool_free_pos) p) x ↔
        covered (freedState (stampedState L s (claimQuanta nq)) (L.pool + s.pool_free_pos) p)
        (freeSet (stampedState L s (claimQuanta nq)) F (L.pool + s.pool_free_pos) p) x := by
      intro x
      unfold covered
      rw [claimed_sz]
    intro x hx1 hx2
    rw [claimed_pfp] at hx2
    by_cases hx : x < L.pool + s.pool_free_pos
    · rcases hex x hx1 hx with ⟨h, hh, g1, g2⟩ | ⟨h, hh, g1, g2⟩
      · exact Or.inl ((hco x).2 ((hcov x).2 (Or.inl ⟨h, hh, g1, by rw [hFsz h hh]; exact g2⟩)))
      · exact Or.inr ⟨h, hh, g1, by rw [hAsz h hh]; exact g2⟩
    · refine Or.inl ((hco x).2 ((hcov x).2 (Or.inr ⟨by omega, ?_⟩)))
      rw [hsz1]
      omega
  refine ⟨p, freeSet (stampedState L s (claimQuanta nq)) F (L.pool + s.pool_free_pos) p, hp,
    hw.ne_zero p hp, hget, hwf, ?_, ⟨f, hfm, hfs'⟩, ?_, hAsz, hexact⟩
  · unfold freeSet
    split_ifs
    · exact le_trans (Finset.card_erase_le) (Nat.le_succ _)
    · exact Nat.le_succ _
    · exact le_trans (Finset.card_insert_le _ _)
        (Nat.succ_le_succ Finset.card_erase_le)
    · exact Finset.card_insert_le _ _
  · rintro x ⟨l, hl, hx1, hx2⟩
    have nl := hw.wnode (Or.inr hl)
    have np := hw.wnode (Or.inl hp)
    have hlF : l ∉ F := hs.disj l hl
    have hlp : l ≠ p := fun e => hlF (e ▸ hp)
    have sep1 := hs.tiling.2 l p (Or.inr hl)
    have sep2 := hs.tiling.2 p l
    rw [hmem]
    have hx3 : x ≠ p ∧ x ≠ p + 8 := by
      rcases nl with ⟨_, _, h⟩ | nl
      · exact absurd h hlF
      rcases np with ⟨e, _, _⟩ | np
      · simp only [QUANTUM_eq, POOL_SIZE_eq, SIZE_MOD_eq] at *
        omega
      · have s1 := sep1 np.1
        have s2 := sep2 np.1 (Or.inr hl)
        simp only [QUANTUM_eq, POOL_SIZE_eq, SIZE_MOD_eq] at *
        omega
    have hx4 : x ≠ L.pool + s.pool_free_pos ∧ x ≠ L.pool + s.pool_free_pos + 8 := by
      rcases nl with ⟨_, _, h⟩ | nl
      · exact absurd h hlF
      simp only [QUANTUM_eq, POOL_SIZE_eq, SIZE_MOD_eq] at *
      omega
    rw [join_frame hx4.1 hx4.2 hx3.1 hx3.2, store_ne hx4.2]

/-- Handing out a free block keeps the claimed part of the pool covered. -/
theorem exact_take {L : Layout} {s : State} {F A : Finset Nat} {nq pq q : Nat}
    (hw : WF L s F A) (hex : Exact L s F A) (hq : q ∈ F) (hpq : pq ∈ F) (hn : nxOf s pq = q)
    (hfit : nq ≤ szOf s q) (hnq : 1 ≤ nq) :
    ∃ h F', (allocResult s nq pq q).1 = h + QUANTUM ∧ h ∉ A ∧
      (allocResult s nq pq q).2.pool_free_pos = s.pool_free_pos ∧
      WF L (allocResult s nq pq q).2 F' (insert h A) ∧
      Exact L (allocResult s nq pq q).2 F' (insert h A) := by
  have hs := hw.shape
  have hqA : q ∉ A := fun h => hs.disj q h hq
  by_cases hsz : szOf s q = nq
  · obtain ⟨e1, e2, _, _, _, e6, e7⟩ := take_exact_spec hw hq hpq hn hsz hnq
    have hsame : ∀ y, (y ∈ F ∨ y ∈ A) → szOf (allocResult s nq pq q).2 y = szOf s y := by
      intro y hy
      have : pq ≠ y + 8 := hs.addr_ne hw.layout hw.pfp_le (Or.inl hpq) hy
      exact e6 (y + 8) (fun e => this e.symm)
    refine ⟨q, F.erase q, e1, hqA, e2, e7, ?_⟩
    intro x hx1 hx2
    rw [e2] at hx2
    rcases hex x hx1 hx2 with ⟨h, hh, g1, g2⟩ | ⟨h, hh, g1, g2⟩
    · by_cases hhq : h = q
      · refine Or.inr ⟨h, hhq ▸ Finset.mem_insert_self _ _, g1, ?_⟩
        rw [hsame h (Or.inl hh)]
        exact g2
      · refine Or.inl ⟨h, Finset.mem_erase.2 ⟨hhq, hh⟩, g1, ?_⟩
        rw [hsame h (Or.inl hh)]
        exact g2
    · refine Or.inr ⟨h, Finset.mem_insert_of_mem hh, g1, ?_⟩
      rw [hsame h (Or.inr hh)]
      exact g2
  · have hlt : nq < szOf s q := by omega
    have hqb : q ≠ L.base := by
      intro e
      rw [e, hs.base_size] at hlt
      omega
    obtain ⟨e1, e2, _, e4, _, e6, e7, e8⟩ := take_split_spec hw hq hpq hlt hnq
    have fresh := fun y hy => hw.split_fresh (x := y) hq hqb
      (show 1 ≤ szOf s q - nq by omega) (show szOf s q - nq < szOf s q by omega) hy
    have hsame : ∀ y, (y ∈ F ∨ y ∈ A) → y ≠ q →
        szOf (allocResult s nq pq q).2 y = szOf s y := by
      intro y hy hyq
      have := fresh y hy
      exact e7 (y + 8) (by omega) (by omega)
    refine ⟨_, F, e1, fun h => (fresh _ (Or.inr h)).1 rfl, e2, e8, ?_⟩
    intro x hx1 hx2
    rw [e2] at hx2
    rcases hex x hx1 hx2 with ⟨h, hh, g1, g2⟩ | ⟨h, hh, g1, g2⟩
    · by_cases hhq : h = q
      · subst hhq
        by_cases hx : x < h + QUANTUM * (szOf s h - nq)
        · refine Or.inl ⟨h, hh, g1, ?_⟩
          rw [e4]
          exact hx
        · refine Or.inr ⟨_, Finset.mem_insert_self _ _, by omega, ?_⟩
          rw [e6]
          simp only [QUANTUM_eq] at *
          omega
      · refine Or.inl ⟨h, hh, g1, ?_⟩
        rw [hsame h (Or.inl hh) hhq]
        exact g2
    · refine Or.inr ⟨h, Finset.mem_insert_of_mem hh, g1, ?_⟩
      rw [hsame h (Or.inr hh) (fun e => hqA (e ▸ hh))]
      exact g2

theorem afterAlloc_succ (A : Finset Nat) (h : Nat) : afterAlloc A (h + QUANTUM) = insert h A := by
  unfold afterAlloc
  rw [if_neg (by simp only [QUANTUM_eq]; omega), Nat.add_sub_cancel]

/-- The search loop keeps the claimed part of the pool covered by blocks. -/
theorem allocLoop_exact {L : Layout} {s : State} {F A : Finset Nat} {nq ff fuel : Nat}
    (hw : WF L s F A) (hex : Exact L s F A) (hnq : 1 ≤ nq)
    (hq : nq * QUANTUM + POOL_SIZE < SIZE_MOD)
    (hff : F.card ≤ ff) (hfuel : 2 * F.card + 2 ≤ fuel) :
    ∃ r s' F', allocLoop L ff nq fuel s s.freep (nxOf s s.freep) = .ok (r, s') ∧
      WF L s' F' (afterAlloc A r) ∧ Exact L s' F' (afterAlloc A r) ∧
      (r ≠ 0 → r - QUANTUM ∉ A) := by
  have hB := hw.mem_lt
  have hR := hw.shape.ring
  by_cases hfit : ∃ f ∈ F, nq ≤ szOf s f
  · obtain ⟨f, hf, hff1⟩ := hfit
    have hrange := cdist_le_pred hB hw.freep_mem (hR _ hw.freep_mem) hf
    have hcard := nearer_card_lt f (nxOf s s.freep) (ring_next_mem hR hw.freep_mem)
    obtain ⟨pq, q, hpq, hqm, hn, hqfit, _, hres⟩ :=
      allocLoop_fit ff hw hf hff1 fuel s.freep hw.freep_mem hrange (by omega)
    obtain ⟨h, F', e1, e2, _, e4, e5⟩ := exact_take hw hex hqm hpq hn hqfit hnq
    refine ⟨(allocResult s nq pq q).1, (allocResult s nq pq q).2, F', hres, ?_, ?_, ?_⟩
    · rw [e1, afterAlloc_succ]; exact e4
    · rw [e1, afterAlloc_succ]; exact e5
    · intro _; rw [e1, Nat.add_sub_cancel]; exact e2
  · have hno : ∀ c ∈ F, szOf s c < nq := by
      intro c hc
      by_contra hcon
      exact hfit ⟨c, hc, by omega⟩
    have hcard := nearer_card_lt s.freep (nxOf s s.freep) (ring_next_mem hR hw.freep_mem)
    obtain ⟨fuel', hle, hrun⟩ := allocLoop_nofit ff (fuel - (F.card + 1)) hw hno F.card
      s.freep hw.freep_mem (by omega)
    have efuel : F.card + 1 + (fuel - (F.card + 1)) = fuel := by omega
    rw [efuel] at hrun
    rw [hrun]
    unfold claimStep
    by_cases hcl : s.pool_free_pos + QUANTUM * claimQuanta nq ≤ POOL_SIZE
    · obtain ⟨p, F', hp, hp0, hget, hwf, hcardF, ⟨f, hfm, hfs⟩, _, _, hex3⟩ :=
        get_mem_exact hw hex hq hcl hff
      rw [hget]
      simp only [if_neg hp0]
      have hfreep : (claimedState L s (claimQuanta nq) p).freep = p := rfl
      have hnx : (claimedState L s (claimQuanta nq) p).mem (nextAddr p) =
          nxOf (claimedState L s (claimQuanta nq) p) p := rfl
      rw [hnx]
      generalize claimedState L s (claimQuanta nq) p = s3 at *
      have hB' := hwf.mem_lt
      have hR' := hwf.shape.ring
      have hpF' : p ∈ F' := hfreep ▸ hwf.freep_mem
      have hfit' : nq ≤ szOf s3 f := by
        have := (claimQuanta_ge nq).1
        omega
      have hrange : cdist (nxOf s3 p) f ≤ cdist (nxOf s3 p) s3.freep := by
        rw [hfreep]
        exact cdist_le_pred hB' hpF' (hR' _ hpF') hfm
      have hcard' := nearer_card_lt f (nxOf s3 p) (ring_next_mem hR' hpF')
      obtain ⟨pq, q, hpq, hqm, hn, hqfit, _, hres⟩ :=
        allocLoop_fit ff hwf hfm hfit' fuel' p hpF' hrange (by omega)
      obtain ⟨h, F'', e1, e2, _, e4, e5⟩ := exact_take hwf hex3 hqm hpq hn hqfit hnq
      refine ⟨(allocResult s3 nq pq q).1, (allocResult s3 nq pq q).2, F'', hres, ?_, ?_, ?_⟩
      · rw [e1, afterAlloc_succ]; exact e4
      · rw [e1, afterAlloc_succ]; exact e5
      · intro _; rw [e1, Nat.add_sub_cancel]; exact e2
    · rw [get_mem_fail hw.pfp_le hq hcl]
      simp only [if_pos]
      refine ⟨0, s, F, rfl, ?_, ?_, fun h => absurd rfl h⟩
      · unfold afterAlloc; rw [if_pos rfl]; exact hw
      · unfold afterAlloc; rw [if_pos rfl]; exact hex

/-- Allocation keeps the claimed part of the pool covered by blocks. -/
theorem alloc_exact {L : Layout} {s : State} {F A : Finset Nat} {nbytes r : Nat} {s' : State}
    (hw : WF L (readyState L s) F A) (hex : Exact L (readyState L s) F A)
    (hn : nbytes + 2 * QUANTUM + POOL_SIZE ≤ SIZE_MOD) (hret : AllocRet L s nbytes r s') :
    ∃ F', WF L s' F' (afterAlloc A r) ∧ Exact L s' F' (afterAlloc A r) ∧
      (r ≠ 0 → r - QUANTUM ∉ A) := by
  have hb := nquantasOf_bounds (n := nbytes)
    (by simp only [QUANTUM_eq, POOL_SIZE_eq] at *; omega)
  have hq : nquantasOf nbytes * QUANTUM + POOL_SIZE < SIZE_MOD := by
    simp only [QUANTUM_eq, POOL_SIZE_eq, SIZE_MOD_eq] at *
    omega
  have key : ∃ r1 s1 F', hackweekmgr_alloc L (2 * F.card + 4) s nbytes = .ok (r1, s1) ∧
      WF L s1 F' (afterAlloc A r1) ∧ Exact L s1 F' (afterAlloc A r1) ∧
      (r1 ≠ 0 → r1 - QUANTUM ∉ A) := by
    by_cases h0 : s.freep = 0
    · rw [readyState_first L h0] at hw hex
      unfold hackweekmgr_alloc
      rw [allocQuanta_first h0]
      exact allocLoop_exact hw hex hb.1 hq (by omega) (by omega)
    · rw [readyState_live L h0] at hw hex
      unfold hackweekmgr_alloc
      rw [allocQuanta_live h0]
      exact allocLoop_exact hw hex hb.1 hq (by omega) (by omega)
  obtain ⟨r1, s1, F', hrun, h1, h2, h3⟩ := key
  obtain ⟨f, hf⟩ := hret
  have := alloc_det hf hrun
  rw [Prod.mk.injEq] at this
  rw [this.1, this.2]
  exact ⟨F', h1, h2, h3⟩

/-! ## The tiling along a history, and the walk of `hackweekmgr_print_stats` -/

/-- A release keeps the claimed part of the pool covered by blocks. -/
theorem exact_free {L : Layout} {s : State} {F A : Finset Nat} {b p : Nat}
    (hw : WF L s F A) (hex : Exact L s F A) (hb : b ∈ A) (hp : p ∈ F) :
    Exact L (freedState s b p) (freeSet s F b p) (A.erase b) := by
  obtain ⟨hcov, _⟩ := free_account hw.shape hw.layout hw.pfp_le hb hp
  have hfields := (freed_fields hw.shape hw.layout hw.pfp_le hb hp).1
  intro x hx1 hx2
  have hx2' : x < L.pool + s.pool_free_pos := hx2
  rcases hex x hx1 hx2' with hF | ⟨a, ha, g1, g2⟩
  · exact Or.inl ((hcov x).2 (Or.inl hF))
  · by_cases hab : a = b
    · subst hab
      exact Or.inl ((hcov x).2 (Or.inr ⟨g1, g2⟩))
    · have hap : a ≠ p := fun e => hw.shape.disj a ha (e ▸ hp)
      refine Or.inr ⟨a, Finset.mem_erase.2 ⟨hab, ha⟩, g1, ?_⟩
      rw [(hfields a (Or.inr ha) hab hap).2]
      exact g2

theorem afterAlloc_union (A G : Finset Nat) (r : Nat) :
    afterAlloc (A ∪ G) r = afterAlloc A r ∪ G := by
  unfold afterAlloc
  by_cases h : r = 0
  · rw [if_pos h, if_pos h]
  · rw [if_neg h, if_neg h, Finset.insert_union]

/-- Every state of a history is fresh or tiled. -/
theorem reach_tiled {L : Layout} (hL : L.ok) {s : State} {A : Finset Nat} (h : Reach L s A) :
    Tiled L s A := by
  induction h with
  | init s0 => exact Or.inl ⟨rfl, rfl, rfl⟩
  | @alloc s A nbytes r s' _ hn hret ih =>
    have hn2 : nbytes + 2 * QUANTUM + POOL_SIZE ≤ SIZE_MOD := by
      have := pool_le_mod; omega
    have key : ∃ F G, WF L (readyState L s) F (A ∪ G) ∧ Disjoint A G ∧
        (∀ g ∈ G, g + QUANTUM = L.pool + POOL_SIZE) ∧ Exact L (readyState L s) F (A ∪ G) := by
      rcases ih with ⟨h0, _, hA⟩ | ⟨F, G, hw, hd, hg, hex⟩
      · refine ⟨{L.base}, ∅, ?_, Finset.disjoint_empty_right _, fun g hg => absurd hg
          (Finset.not_mem_empty g), ?_⟩
        · rw [readyState_first L h0, hA, Finset.union_empty]
          exact wf_firstState hL s
        · rw [readyState_first L h0]
          intro x hx1 hx2
          have : (firstState L s).pool_free_pos = 0 := rfl
          rw [this] at hx2
          omega
      · rw [readyState_live L hw.freep_ne]
        exact ⟨F, G, hw, hd, hg, hex⟩
    obtain ⟨F, G, hw, hd, hg, hex⟩ := key
    obtain ⟨F', h1, h2, h3⟩ := alloc_exact hw hex hn2 hret
    rw [afterAlloc_union] at h1 h2
    refine Or.inr ⟨F', G, h1, ?_, hg, h2⟩
    unfold afterAlloc
    by_cases hr0 : r = 0
    · rw [if_pos hr0]; exact hd
    · rw [if_neg hr0, Finset.disjoint_insert_left]
      exact ⟨fun hm => h3 hr0 (Finset.mem_union_right _ hm), hd⟩
  | @free s A b s' _ hb hret ih =>
    rcases ih with ⟨_, _, hA⟩ | ⟨F, G, hw, hd, hg, hex⟩
    · rw [hA] at hb
      exact absurd hb (Finset.not_mem_empty _)
    · have hbG : b ∉ G := fun h => (Finset.disjoint_left.1 hd) hb h
      obtain ⟨s1, _, huniq, _, _, _, hcase⟩ := free_spec hw (Finset.mem_union_left G hb)
      rw [huniq s' hret]
      rcases hcase with ⟨hedge, hs1, _⟩ | ⟨_, p, hp, _, hs1, hwf⟩
      · rw [hs1]
        have hun : A.erase b ∪ insert b G = A ∪ G := by
          ext x
          simp only [Finset.mem_union, Finset.mem_erase, Finset.mem_insert]
          constructor
          · rintro (⟨_, h⟩ | h | h)
            · exact Or.inl h
            · exact Or.inl (h ▸ hb)
            · exact Or.inr h
          · rintro (h | h)
            · by_cases e : x = b
              · exact Or.inr (Or.inl e)
              · exact Or.inl ⟨e, h⟩
            · exact Or.inr (Or.inr h)
        refine Or.inr ⟨F, insert b G, by rw [hun]; exact hw, ?_, ?_, by rw [hun]; exact hex⟩
        · rw [Finset.disjoint_insert_right]
          exact ⟨fun h => (Finset.mem_erase.1 h).1 rfl,
            Finset.disjoint_of_subset_left (Finset.erase_subset _ _) hd⟩
        · intro g hgm
          rcases Finset.mem_insert.1 hgm with e | h
          · rw [e]; exact hedge
          · exact hg g h
      · have hun : (A ∪ G).erase b = A.erase b ∪ G := by
          rw [Finset.erase_union_distrib, Finset.erase_eq_of_not_mem hbG]
        rw [hs1]
        rw [hs1, hun] at hwf
        refine Or.inr ⟨_, G, hwf, Finset.disjoint_of_subset_left (Finset.erase_subset _ _) hd,
          hg, ?_⟩
        rw [← hun]
        exact exact_free hw hex (Finset.mem_union_left G hb) hp

theorem statsWalk_step (L : Layout) (s : State) (fuel p : Nat) :
    statsWalk L s (fuel + 1) p =
      if p < wrap (L.pool + s.pool_free_pos) then
        match statsWalk L s fuel (hdrAdd p (s.mem (sizeAddr p))) with
        | .error e => .error e
        | .ok (vs, q) => .ok (p :: vs, q)
      else .ok ([], p) := rfl

/-- From a block boundary the walk visits the headers from there on, each
once and in ascending order, and ends on the cursor of the pool. -/
theorem walk_from {L : Layout} {s : State} {F A : Finset Nat} (hw : WF L s F A)
    (hex : Exact L s F A) :
    ∀ n x, L.pool + s.pool_free_pos - x ≤ n → L.pool ≤ x →
      (x = L.pool + s.pool_free_pos ∨ Hdr L F A x) →
      ∃ fuel vs, statsWalk L s fuel x = .ok (vs, L.pool + s.pool_free_pos) ∧
        (∀ h, h ∈ vs ↔ Hdr L F A h ∧ x ≤ h) ∧ vs.Pairwise (· < ·) := by
  have hL := hw.layout
  have htop := hw.pfp_le
  have hwr : wrap (L.pool + s.pool_free_pos) = L.pool + s.pool_free_pos := by
    obtain ⟨_, l2, _⟩ := hL
    exact wrap_of_lt (by omega)
  have hnode : ∀ h, Hdr L F A h → L.pool ≤ h ∧ 1 ≤ szOf s h ∧
      h + QUANTUM * szOf s h ≤ L.pool + s.pool_free_pos := by
    intro h hh
    have := hw.shape.tiling.1 h hh
    exact ⟨this.1, this.2.2.1, this.2.2.2⟩
  intro n
  induction n with
  | zero =>
    intro x hn hx hb
    have hxe : x = L.pool + s.pool_free_pos := by
      rcases hb with e | hh
      · exact e
      · have := hnode x hh
        simp only [QUANTUM_eq] at *
        omega
    refine ⟨1, [], ?_, ?_, List.Pairwise.nil⟩
    · rw [statsWalk_step, hwr, if_neg (by omega), hxe]
    · intro h
      constructor
      · intro hm; exact absurd hm (List.not_mem_nil h)
      · rintro ⟨hh, hle⟩
        have := hnode h hh
        simp only [QUANTUM_eq] at *
        omega
  | succ n ih =>
    intro x hn hx hb
    rcases hb with hxe | hh
    · refine ⟨1, [], ?_, ?_, List.Pairwise.nil⟩
      · rw [statsWalk_step, hwr, if_neg (by omega), hxe]
      · intro h
        constructor
        · intro hm; exact absurd hm (List.not_mem_nil h)
        · rintro ⟨hh, hle⟩
          have := hnode h hh
          simp only [QUANTUM_eq] at *
          omega
    · have nx := hnode x hh
      have hmem : x ∈ F ∨ x ∈ A := by
        rcases hh with ⟨h1, _⟩ | h1
        · exact Or.inl h1
        · exact Or.inr h1
      have lx := hw.shape.lt_mod hL htop hmem
      have hadd : hdrAdd x (s.mem (sizeAddr x)) = x + QUANTUM * szOf s x :=
        hdrAdd_of_lt (by simpa [QUANTUM_eq] using lx.2.1)
      have hnext : x + QUANTUM * szOf s x = L.pool + s.pool_free_pos ∨
          Hdr L F A (x + QUANTUM * szOf s x) := by
        by_cases hend : x + QUANTUM * szOf s x = L.pool + s.pool_free_pos
        · exact Or.inl hend
        · right
          have hcov := hex (x + QUANTUM * szOf s x) (by omega) (by omega)
          have hfind : ∃ h, Hdr L F A h ∧ h ≤ x + QUANTUM * szOf s x ∧
              x + QUANTUM * szOf s x < h + QUANTUM * szOf s h := by
            rcases hcov with ⟨h, hm, g1, g2⟩ | ⟨h, hm, g1, g2⟩
            · refine ⟨h, Or.inl ⟨hm, fun e => ?_⟩, g1, g2⟩
              rw [e, hw.shape.base_size] at g2
              omega
            · exact ⟨h, Or.inr hm, g1, g2⟩
          obtain ⟨h, hhd, g1, g2⟩ := hfind
          have : h = x + QUANTUM * szOf s x := by
            rcases Nat.lt_trichotomy h x with hlt | heq | hgt
            · have d2 := hw.shape.tiling.2 h x hhd hh hlt
              simp only [QUANTUM_eq] at *
              omega
            · rw [heq] at g2
              omega
            · have d1 := hw.shape.tiling.2 x h hh hhd hgt
              omega
          rw [← this]
          exact hhd
      obtain ⟨fuel, vs, hrun, hvs, hpw⟩ := ih (x + QUANTUM * szOf s x)
        (by simp only [QUANTUM_eq] at *; omega) (by omega) hnext
      refine ⟨fuel + 1, x :: vs, ?_, ?_, ?_⟩
      · rw [statsWalk_step, hwr, if_pos (by simp only [QUANTUM_eq] at *; omega), hadd, hrun]
      · intro h
        rw [List.mem_cons, hvs]
        constructor
        · rintro (e | ⟨g1, g2⟩)
          · rw [e]; exact ⟨hh, le_refl _⟩
          · exact ⟨g1, by omega⟩
        · rintro ⟨g1, g2⟩
          by_cases e : h = x
          · exact Or.inl e
          · right
            have d1 := hw.shape.tiling.2 x h hh g1 (by omega)
            exact ⟨g1, d1⟩
      · rw [List.pairwise_cons]
        refine ⟨fun a ha => ?_, hpw⟩
        have := ((hvs a).1 ha).2
        simp only [QUANTUM_eq] at *
        omega

/-- In a tiled state the walk from the start of the pool visits exactly the
headers of the blocks and ends on the cursor. -/
theorem walk_tiled {L : Layout} {s : State} {F A : Finset Nat} (hw : WF L s F A)
    (hex : Exact L s F A) :
    ∃ fuel vs, statsWalk L s fuel L.pool = .ok (vs, L.pool + s.pool_free_pos) ∧
      (∀ h, h ∈ vs ↔ Hdr L F A h) ∧ vs.Pairwise (· < ·) := by
  have hstart : L.pool = L.pool + s.pool_free_pos ∨ Hdr L F A L.pool := by
    by_cases h0 : s.pool_free_pos = 0
    · left; omega
    · right
      rcases hex L.pool (le_refl _) (by omega) with ⟨h, hm, g1, g2⟩ | ⟨h, hm, g1, g2⟩
      · have hhd : Hdr L F A h := Or.inl ⟨hm, fun e => by
          rw [e, hw.shape.base_size] at g2
          omega⟩
        have := (hw.shape.tiling.1 h hhd).1
        have e : h = L.pool := by omega
        rw [← e]; exact hhd
      · have hhd : Hdr L F A h := Or.inr hm
        have := (hw.shape.tiling.1 h hhd).1
        have e : h = L.pool := by omega
        rw [← e]; exact hhd
  obtain ⟨fuel, vs, hrun, hvs, hpw⟩ := walk_from hw hex _ L.pool (le_refl _) (le_refl _) hstart
  refine ⟨fuel, vs, hrun, fun h => ?_, hpw⟩
  rw [hvs]
  constructor
  · exact fun g => g.1
  · exact fun g => ⟨g, (hw.shape.tiling.1 h g).1⟩

/-! ## The tiling invariant, as claimed -/

theorem ok_freeState {x : Except Fault State} (d : State) (h : faultOf x = none) :
    x = .ok (freeState d x) := by
  cases x with
  | error e => exact absurd h (by simp [faultOf])
  | ok v => rfl

/-- The history that leads to `edgeState` and then releases its block: the
release is ignored, and no block is allocated any more. -/
theorem edge_reach : Reach layoutLow edgeState ∅ := by
  have r0 : Reach layoutLow (hackweekmgr_init layoutLow bootState) ∅ := Reach.init bootState
  have r1 := @Reach.alloc layoutLow _ _ 1073741792 0x100000020
    (retState bootState
      (hackweekmgr_alloc layoutLow 8 (hackweekmgr_init layoutLow bootState) 1073741792))
    r0 (by decide) ⟨8, ok_retState bootState (by decide)⟩
  have r2 := @Reach.free layoutLow _ _ 0x100000000
    (freeState bootState (hackweekmgr_free layoutLow 8
      (retState bootState
        (hackweekmgr_alloc layoutLow 8 (hackweekmgr_init layoutLow bootState) 1073741792))
      0x100000020))
    r1 (by decide) ⟨8, ok_freeState bootState (by decide)⟩
  have r3 := @Reach.alloc layoutLow _ _ 0 0x140000000 edgeState r2 (by decide)
    ⟨8, ok_retState bootState (by decide)⟩
  have r4 := @Reach.free layoutLow _ _ 0x13FFFFFE0 edgeState r3 (by decide)
    ⟨8, free_noop (by decide) 8 edgeState (Or.inr (by decide))⟩
  have e : ((afterAlloc ((afterAlloc (∅ : Finset Nat) 0x100000020).erase 0x100000000)
      0x140000000).erase 0x13FFFFFE0) = ∅ := by decide
  rw [e] at r4
  exact r4

/-- The tiling of a state of a history, spelled out. -/
theorem tiling_spec {L : Layout} (hL : L.ok) {s : State} {A : Finset Nat} (hr : Reach L s A) :
    (s.freep = 0 ∧ s.pool_free_pos = 0 ∧ A = ∅ ∧
      statsWalk L s 1 L.pool = .ok ([], L.pool + s.pool_free_pos)) ∨
    ∃ F G, WF L s F (A ∪ G) ∧ Disjoint A G ∧
      (∀ g ∈ G, g + QUANTUM = L.pool + POOL_SIZE ∧ szOf s g = 1) ∧
      (∀ h, Hdr L F (A ∪ G) h → 1 ≤ szOf s h ∧ L.pool ≤ h ∧
        h + QUANTUM * szOf s h ≤ L.pool + s.pool_free_pos) ∧
      (∀ h1 h2, Hdr L F (A ∪ G) h1 → Hdr L F (A ∪ G) h2 → h1 < h2 →
        h1 + QUANTUM * szOf s h1 ≤ h2) ∧
      (∀ x, L.pool ≤ x → x < L.pool + s.pool_free_pos →
        ∃ h, Hdr L F (A ∪ G) h ∧ h ≤ x ∧ x < h + QUANTUM * szOf s h) ∧
      (∃ fuel vs, statsWalk L s fuel L.pool = .ok (vs, L.pool + s.pool_free_pos) ∧
        (∀ h, h ∈ vs ↔ Hdr L F (A ∪ G) h) ∧ vs.Pairwise (· < ·)) ∧
      L.base ∈ F ∧ L.base ∉ A ∧ ∀ a ∈ A, a ∉ F := by
  rcases reach_tiled hL hr with ⟨h0, h1, h2⟩ | ⟨F, G, hw, hd, hg, hex⟩
  · refine Or.inl ⟨h0, h1, h2, ?_⟩
    have hwr : wrap (L.pool + s.pool_free_pos) = L.pool + s.pool_free_pos := by
      obtain ⟨_, l2, _⟩ := hL
      rw [h1]
      exact wrap_of_lt (by omega)
    rw [statsWalk_step, hwr, if_neg (by omega), h1]
    rfl
  · have hnode : ∀ h, Hdr L F (A ∪ G) h → 1 ≤ szOf s h ∧ L.pool ≤ h ∧
        h + QUANTUM * szOf s h ≤ L.pool + s.pool_free_pos := by
      intro h hh
      have := hw.shape.tiling.1 h hh
      exact ⟨this.2.2.1, this.1, this.2.2.2⟩
    refine Or.inr ⟨F, G, hw, hd, ?_, hnode, hw.shape.tiling.2, ?_, walk_tiled hw hex,
      hw.shape.base_mem, ?_, ?_⟩
    · intro g hgm
      refine ⟨hg g hgm, ?_⟩
      have := hnode g (Or.inr (Finset.mem_union_right A hgm))
      have hge := hg g hgm
      have := hw.pfp_le
      simp only [QUANTUM_eq] at *
      omega
    · intro x hx1 hx2
      rcases hex x hx1 hx2 with ⟨h, hm, g1, g2⟩ | ⟨h, hm, g1, g2⟩
      · refine ⟨h, Or.inl ⟨hm, fun e => ?_⟩, g1, g2⟩
        rw [e, hw.shape.base_size] at g2
        omega
      · exact ⟨h, Or.inr hm, g1, g2⟩
    · exact fun h => hw.shape.disj _ (Finset.mem_union_left G h) hw.shape.base_mem
    · exact fun a ha => hw.shape.disj a (Finset.mem_union_left G ha)

/-- C18. Tiling invariant, for a pool and a sentinel placed as `Layout.ok`
says: every state of a history that starts at `hackweekmgr_init` and goes on
by calls `hackweekmgr_alloc(nbytes)` with `nbytes ≤ POOL_SIZE` and calls of
`hackweekmgr_free` on currently allocated references is either fresh (nothing
claimed, nothing allocated, and the walk of `hackweekmgr_print_stats` ends at
once), or well formed for a free list `F`, the allocated blocks `A` and a set
`G` of blocks whose release the arena guard ignored, each one quantum long at
the very end of the pool.  In the latter case every free-list block other
than the sentinel and every block of `A` and `G` has size at least 1 and lies
in the claimed part of the pool, no two of them overlap, every claimed byte
lies in one of them, and the walk `p += p->s.size` from the start of the pool
visits exactly their headers, in ascending order, and ends exactly on
`pool + pool_free_pos`.  The sentinel is in the free list and is never
allocated, and no allocated block is in the free list. -/
theorem tiling_invariant {L : Layout} (hL : L.ok) {s : State} {A : Finset Nat}
    (hr : Reach L s A) :
    (s.freep = 0 ∧ s.pool_free_pos = 0 ∧ A = ∅ ∧
      statsWalk L s 1 L.pool = .ok ([], L.pool + s.pool_free_pos)) ∨
    ∃ F G, WF L s F (A ∪ G) ∧ Disjoint A G ∧
      (∀ g ∈ G, g + QUANTUM = L.pool + POOL_SIZE ∧ szOf s g = 1) ∧
      (∀ h, Hdr L F (A ∪ G) h → 1 ≤ szOf s h ∧ L.pool ≤ h ∧
        h + QUANTUM * szOf s h ≤ L.pool + s.pool_free_pos) ∧
      (∀ h1 h2, Hdr L F (A ∪ G) h1 → Hdr L F (A ∪ G) h2 → h1 < h2 →
        h1 + QUANTUM * szOf s h1 ≤ h2) ∧
      (∀ x, L.pool ≤ x → x < L.pool + s.pool_free_pos →
        ∃ h, Hdr L F (A ∪ G) h ∧ h ≤ x ∧ x < h + QUANTUM * szOf s h) ∧
      (∃ fuel vs, statsWalk L s fuel L.pool = .ok (vs, L.pool + s.pool_free_pos) ∧
        (∀ h, h ∈ vs ↔ Hdr L F (A ∪ G) h) ∧ vs.Pairwise (· < ·)) ∧
      L.base ∈ F ∧ L.base ∉ A ∧ ∀ a ∈ A, a ∉ F :=
  tiling_spec hL hr

/-- Witness of C18: the history that ends in `edgeState` with nothing allocated. -/
theorem tiling_invariant_witness :
    layoutLow.ok ∧ Reach layoutLow edgeState ∅ ∧
    ((edgeState.freep = 0 ∧ edgeState.pool_free_pos = 0 ∧ (∅ : Finset Nat) = ∅ ∧
      statsWalk layoutLow edgeState 1 layoutLow.pool =
        .ok ([], layoutLow.pool + edgeState.pool_free_pos)) ∨
    ∃ F G, WF layoutLow edgeState F (∅ ∪ G) ∧ Disjoint ∅ G ∧
      (∀ g ∈ G, g + QUANTUM = layoutLow.pool + POOL_SIZE ∧ szOf edgeState g = 1) ∧
      (∀ h, Hdr layoutLow F (∅ ∪ G) h → 1 ≤ szOf edgeState h ∧ layoutLow.pool ≤ h ∧
        h + QUANTUM * szOf edgeState h ≤ layoutLow.pool + edgeState.pool_free_pos) ∧
      (∀ h1 h2, Hdr layoutLow F (∅ ∪ G) h1 → Hdr layoutLow F (∅ ∪ G) h2 → h1 < h2 →
        h1 + QUANTUM * szOf edgeState h1 ≤ h2) ∧
      (∀ x, layoutLow.pool ≤ x → x < layoutLow.pool + edgeState.pool_free_pos →
        ∃ h, Hdr layoutLow F (∅ ∪ G) h ∧ h ≤ x ∧ x < h + QUANTUM * szOf edgeState h) ∧
      (∃ fuel vs, statsWalk layoutLow edgeState fuel layoutLow.pool =
          .ok (vs, layoutLow.pool + edgeState.pool_free_pos) ∧
        (∀ h, h ∈ vs ↔ Hdr layoutLow F (∅ ∪ G) h) ∧ vs.Pairwise (· < ·)) ∧
      layoutLow.base ∈ F ∧ layoutLow.base ∉ (∅ : Finset Nat) ∧
      ∀ a ∈ (∅ : Finset Nat), a ∉ F) :=
  ⟨by decide, edge_reach, tiling_invariant (by decide) edge_reach⟩

/-! ## `hackweekmgr_realloc` -/

/-- What `hackweekmgr_realloc` does with a currently allocated block when it
returns a non-null reference. -/
theorem realloc_spec {L : Layout} {s : State} {F A : Finset Nat} {b size r : Nat} {s' : State}
    (hw : WF L s F A) (hb : b ∈ A) (hcap : size ≤ POOL_SIZE)
    (hret : ReallocRet L s (b + QUANTUM) size r s') (hr : r ≠ 0) :
    (∃ s1, AllocRet L s size r s1) ∧
    r - QUANTUM ∉ A ∧ QUANTUM ≤ r ∧ r ≠ b + QUANTUM ∧
    (∀ i, i < QUANTUM * (szOf s b - 1) → i < size →
      s'.mem (r + i) = s.mem (b + QUANTUM + i)) ∧
    ∃ F', WF L s' F' ((insert (r - QUANTUM) A).erase b) ∧
      size ≤ QUANTUM * (szOf s' (r - QUANTUM) - 1) ∧
      (b + QUANTUM < L.pool + POOL_SIZE →
        ∀ x, b ≤ x → x < b + QUANTUM * szOf s b → covered s' F' x) := by
  obtain ⟨fuel, hrun⟩ := hret
  have hL := hw.layout
  have hbF : b ∉ F := hw.shape.disj b hb
  have hpfp := hw.pfp_le
  have nb : L.pool ≤ b ∧ 1 ≤ szOf s b ∧ b + 32 * szOf s b ≤ L.pool + s.pool_free_pos := by
    rcases hw.wnode (Or.inr hb) with ⟨_, _, h⟩ | ⟨_, _, h1, _, h2, h3⟩
    · exact absurd h hbF
    · exact ⟨h1, h2, h3⟩
  have hbne : b + QUANTUM ≠ 0 := by simp only [QUANTUM_eq]; omega
  have hbig : b + 32 * szOf s b < SIZE_MOD := by
    obtain ⟨_, l2, _⟩ := hL
    omega
  unfold hackweekmgr_realloc at hrun
  rw [if_neg hbne] at hrun
  unfold malloc free at hrun
  cases hal : hackweekmgr_alloc L fuel s size with
  | error e => rw [hal] at hrun; exact absurd hrun (by simp)
  | ok v =>
    obtain ⟨rv, s1⟩ := v
    rw [hal] at hrun
    simp only at hrun
    by_cases hc : rv = 0 ∧ 0 < copyCount s1.mem (b + QUANTUM) size
    · rw [if_pos hc] at hrun; exact absurd hrun (by simp)
    · rw [if_neg hc] at hrun
      obtain ⟨sc, hsc⟩ : ∃ sc : State, sc =
          { s1 with mem := (copyBytes s1.mem rv (b + QUANTUM)
              (copyCount s1.mem (b + QUANTUM) size)) } := ⟨_, rfl⟩
      rw [← hsc] at hrun
      have hscm : sc.mem = copyBytes s1.mem rv (b + QUANTUM)
          (copyCount s1.mem (b + QUANTUM) size) := by rw [hsc]
      have hscf : sc.freep = s1.freep := by rw [hsc]
      have hscp : sc.pool_free_pos = s1.pool_free_pos := by rw [hsc]
      cases hfr : hackweekmgr_free L fuel sc (b + QUANTUM) with
      | error e => rw [hfr] at hrun; exact absurd hrun (by simp)
      | ok s2 =>
        rw [hfr] at hrun
        simp only at hrun
        have hinj := Except.ok.inj hrun
        rw [Prod.mk.injEq] at hinj
        obtain ⟨e1, e2⟩ := hinj
        subst e1
        subst e2
        have hreta : AllocRet L s size rv s1 := ⟨fuel, hal⟩
        have hw' : WF L (readyState L s) F A := by
          rw [readyState_live L hw.freep_ne]; exact hw
        have hn2 : size + 2 * QUANTUM + POOL_SIZE ≤ SIZE_MOD := by
          have := pool_le_mod; omega
        have hpost := (alloc_total hw' hn2).2 rv s1 hreta
        rw [readyState_live L hw.freep_ne] at hpost
        have hbnd := nquantasOf_bounds (n := size)
          (by simp only [QUANTUM_eq, POOL_SIZE_eq, SIZE_MOD_eq] at *; omega)
        have hok : AllocOk L s A (nquantasOf size) rv s1 := by
          rcases hpost with ⟨_, _, hok, _⟩ | ⟨_, _, _, hok⟩ | ⟨_, _, h0, _⟩
          · exact hok
          · exact hok
          · exact absurd h0 hr
        obtain ⟨h0, F1, er, hnA, hsz, hwf, h5, h6⟩ := hok
        have eh : rv - QUANTUM = h0 := by rw [er]; exact Nat.add_sub_cancel _ _
        rw [eh]
        have h0b : h0 ≠ b := fun e => hnA (e ▸ hb)
        have hszb : szOf s1 b = szOf s b := h6 b hb
        have hpred : hdrPred (b + QUANTUM) = b := by
          rw [hdrPred_of_le (Nat.le_add_left _ _)
            (by simp only [QUANTUM_eq, SIZE_MOD_eq] at *; omega)]
          exact Nat.add_sub_cancel _ _
        have hcnt : copyCount s1.mem (b + QUANTUM) size =
            if szOf s b * QUANTUM < size then szOf s b * QUANTUM else size := by
          unfold copyCount
          rw [hpred]
          have e : s1.mem (sizeAddr b) = szOf s b := hszb
          rw [e, wrap_of_lt (by simp only [QUANTUM_eq, SIZE_MOD_eq] at *; omega)]
        have hcle : copyCount s1.mem (b + QUANTUM) size ≤ size := by
          rw [hcnt]
          split
          · omega
          · exact Nat.le_refl _
        have hcge : ∀ i, i < QUANTUM * (szOf s b - 1) → i < size →
            i < copyCount s1.mem (b + QUANTUM) size := by
          intro i hi1 hi2
          rw [hcnt]
          split
          · simp only [QUANTUM_eq] at *
            omega
          · exact hi2
        have hmc : ∀ x, ¬ (h0 + QUANTUM ≤ x ∧ x < h0 + QUANTUM * szOf s1 h0) →
            sc.mem x = s1.mem x := by
          intro x hx
          rw [hscm]
          unfold copyBytes
          rw [if_neg]
          intro h
          apply hx
          rw [hsz]
          rw [er] at h
          simp only [QUANTUM_eq] at *
          omega
        obtain ⟨hwc, key⟩ := wf_payload hwf (Finset.mem_insert_self _ _) hscf hscp hmc
        have hbm : b ∈ insert h0 A := Finset.mem_insert_of_mem hb
        have h0m : h0 ∈ (insert h0 A).erase b :=
          Finset.mem_erase.2 ⟨h0b, Finset.mem_insert_self _ _⟩
        have hszc0 := (key h0 (Or.inr (Finset.mem_insert_self _ _))).1
        have hszcb := (key b (Or.inr hbm)).1
        obtain ⟨s3, _, huniq, _, hframe, hsizes, hcase⟩ := free_spec hwc hbm
        have e3 : s2 = s3 := huniq s2 ⟨fuel, hfr⟩
        subst e3
        have hs0 : szOf s2 h0 = nquantasOf size := by
          rw [hsizes h0 h0m, hszc0, hsz]
        refine ⟨⟨s1, hreta⟩, hnA, by rw [er]; exact Nat.le_add_left _ _, ?_, ?_, ?_⟩
        · rw [er]
          omega
        · intro i hi1 hi2
          have hown : Owned sc ((insert h0 A).erase b) (rv + i) := by
            refine ⟨h0, h0m, by rw [er]; omega, ?_⟩
            rw [hszc0, hsz, er]
            simp only [QUANTUM_eq] at *
            omega
          rw [hframe _ hown, hscm]
          unfold copyBytes
          rw [if_pos ⟨Nat.le_add_right _ _, by rw [Nat.add_sub_cancel_left]; exact hcge i hi1 hi2⟩,
            Nat.add_sub_cancel_left]
          refine h5 _ ⟨b, hb, by omega, ?_⟩
          simp only [QUANTUM_eq] at *
          omega
        · by_cases hlt : b + QUANTUM < L.pool + POOL_SIZE
          · obtain ⟨p, s4, F4, _, hu4, hwf4, hcov, _⟩ := free_adds_spec hwc hbm hlt
            have e4 : s2 = s4 := hu4 s2 ⟨fuel, hfr⟩
            subst e4
            refine ⟨F4, hwf4, ?_, fun _ x hx1 hx2 => (hcov x).2 (Or.inr ⟨hx1, ?_⟩)⟩
            · rw [hs0]; exact hbnd.2.1
            · rw [hszcb, hszb]; exact hx2
          · rcases hcase with ⟨_, _, hwe⟩ | ⟨h, _⟩
            · refine ⟨F1, hwe, ?_, fun h => absurd h hlt⟩
              rw [hs0]; exact hbnd.2.1
            · exact absurd h hlt

theorem realloc_null (L : Layout) (fuel : Nat) (s : State) (size : Nat) :
    hackweekmgr_realloc L fuel s 0 size = hackweekmgr_alloc L fuel s size := by
  unfold hackweekmgr_realloc
  rw [if_pos rfl]
  rfl

/-! ## Histories used as instances -/

/-- The history that leads to `demoState`, with its one block allocated. -/
theorem demo_reach : Reach layoutLow demoState demoAlloc := by
  have r1 := @Reach.alloc layoutLow _ _ 1 0x1000001E0 demoState (Reach.init bootState)
    (by decide) ⟨8, ok_retState bootState (by decide)⟩
  have e : afterAlloc (∅ : Finset Nat) 0x1000001E0 = demoAlloc := by decide
  rw [e] at r1
  exact r1

/-- The history that leads to `adjState`, with its two blocks allocated. -/
theorem adj_reach : Reach layoutAdj adjState {0x1000001C0, 0x100000200} := by
  have r1 := @Reach.alloc layoutAdj _ _ 1 0x1000001E0
    (retState bootState
      (hackweekmgr_alloc layoutAdj 8 (hackweekmgr_init layoutAdj bootState) 1))
    (Reach.init bootState) (by decide) ⟨8, ok_retState bootState (by decide)⟩
  have r2 := @Reach.alloc layoutAdj _ _ 1073741280 0x100000220 adjState r1 (by decide)
    ⟨8, ok_retState bootState (by decide)⟩
  have e : afterAlloc (afterAlloc (∅ : Finset Nat) 0x1000001E0) 0x100000220 =
      {0x1000001C0, 0x100000200} := by decide
  rw [e] at r2
  exact r2

/-- Witness of C5: `demoState`, reached by one allocation, whose block can be
released. -/
theorem free_list_invariant_witness :
    layoutLow.ok ∧ Reach layoutLow demoState demoAlloc ∧
    ((∀ nbytes, nbytes ≤ POOL_SIZE →
      (∃ r s', AllocRet layoutLow demoState nbytes r s') ∧
      ∀ r s', AllocRet layoutLow demoState nbytes r s' → FreeListOK layoutLow s') ∧
    (∀ h ∈ demoAlloc,
      (∃ s', FreeRet layoutLow demoState (h + QUANTUM) s') ∧
      ∀ s', FreeRet layoutLow demoState (h + QUANTUM) s' → FreeListOK layoutLow s')) :=
  ⟨by decide, demo_reach, free_list_invariant (by decide) demo_reach⟩

/-- Counterexample to C5 as stated: with the sentinel placed exactly at the
end of the pool, after `hackweekmgr_init`, `hackweekmgr_alloc(1)` and
`hackweekmgr_alloc(POOL_SIZE - 544)` the list reachable from `freep` is the
block at the start of the pool linked to itself.  The claim of the rest of
the pool ended exactly at `base`, so the release inside `get_mem_from_pool`
merged the sentinel into the claimed block, and no number of `next` steps
from `freep` reaches `base`: the list no longer contains the sentinel. -/
theorem sentinel_absorbed_at_pool_end :
    0 < layoutAdj.pool ∧ layoutAdj.pool + POOL_SIZE < SIZE_MOD ∧
    layoutAdj.base = layoutAdj.pool + POOL_SIZE ∧ layoutAdj.base + QUANTUM ≤ SIZE_MOD ∧
    Reach layoutAdj adjState {0x1000001C0, 0x100000200} ∧
    adjState.freep = 0x100000000 ∧ nxOf adjState 0x100000000 = 0x100000000 ∧
    (∀ k, (nxOf adjState)^[k] adjState.freep ≠ layoutAdj.base) ∧
    ¬ FreeListOK layoutAdj adjState := by
  have hf : nxOf adjState adjState.freep = adjState.freep := by decide
  have hne : ∀ k, (nxOf adjState)^[k] adjState.freep ≠ layoutAdj.base := by
    intro k
    rw [Function.iterate_fixed hf k]
    decide
  refine ⟨by decide, by decide, by decide, by decide, adj_reach, by decide, by decide, hne, ?_⟩
  rintro ⟨F, _, hb, _, _, hreach, _⟩
  obtain ⟨k, hk⟩ := hreach _ hb
  exact hne k hk

/-- Counterexample to C18 as stated.  After `hackweekmgr_init`,
`hackweekmgr_alloc(POOL_SIZE - 32)`, the release of that block,
`hackweekmgr_alloc(0)` and the release of its block, no block is allocated and
the free list holds the sentinel and the block at the start of the pool.  The
last quantum of the claimed part of the pool lies in no free block, and the
walk of `hackweekmgr_print_stats` visits its header, which is neither a
free-list block nor an allocated one.  Besides, with the sentinel placed
exactly at the end of the pool, after `adjState` a call
`hackweekmgr_alloc(416)` hands out the block at the start of the pool, and a
second such call hands out the same block while it is allocated. -/
theorem leaked_block_outside_tiling :
    (Reach layoutLow edgeState ∅ ∧
    edgeState.freep = layoutLow.base ∧ nxOf edgeState layoutLow.base = 0x100000000 ∧
    nxOf edgeState 0x100000000 = layoutLow.base ∧
    (statsWalk layoutLow edgeState 3 layoutLow.pool).toOption =
      some ([0x100000000, 0x13FFFFFE0], layoutLow.pool + edgeState.pool_free_pos) ∧
    layoutLow.pool ≤ 0x13FFFFFE0 ∧ 0x13FFFFFE0 < layoutLow.pool + edgeState.pool_free_pos ∧
    ¬ covered edgeState {layoutLow.base, 0x100000000} 0x13FFFFFE0) ∧
    (layoutAdj.base = layoutAdj.pool + POOL_SIZE ∧
    Reach layoutAdj (retState adjState (hackweekmgr_alloc layoutAdj 8 adjState 416))
      {0x100000000, 0x1000001C0, 0x100000200} ∧
    retVal (hackweekmgr_alloc layoutAdj 8 adjState 416) = some 0x100000020 ∧
    retVal (hackweekmgr_alloc layoutAdj 8
      (retState adjState (hackweekmgr_alloc layoutAdj 8 adjState 416)) 416) =
        some 0x100000020) := by
  refine ⟨⟨edge_reach, by decide, by decide, by decide, by decide, by decide, by decide,
    by decide⟩, by decide, ?_, by decide, by decide⟩
  have r3 := @Reach.alloc layoutAdj _ _ 416 0x100000020
    (retState adjState (hackweekmgr_alloc layoutAdj 8 adjState 416)) adj_reach (by decide)
    ⟨8, ok_retState adjState (by decide)⟩
  have e : afterAlloc ({0x1000001C0, 0x100000200} : Finset Nat) 0x100000020 =
      {0x100000000, 0x1000001C0, 0x100000200} := by decide
  rw [e] at r3
  exact r3

/-! ## Coalescing, with the sizes of the merged block -/

/-- What a release does to the free list of a state without adjacent free
blocks: which members leave and join, and the size of the block that holds
the released one afterwards. -/
theorem free_merge_spec {L : Layout} {s : State} {F A : Finset Nat} {b : Nat}
    (hw : WF L s F A) (hadj : NoAdj s F) (hb : b ∈ A) :
    ∃ s' F', FreeRet L s (b + QUANTUM) s' ∧
      (∀ s'', FreeRet L s (b + QUANTUM) s'' → s'' = s') ∧
      WF L s' F' (A.erase b) ∧ NoAdj s' F' ∧
      (b + QUANTUM < L.pool + POOL_SIZE →
        (∀ u ∈ F, u ∈ F' ↔ u ≠ hdrAdd b (szOf s b)) ∧
        (b ∈ F' ↔ ∀ q ∈ F, hdrAdd q (szOf s q) ≠ b) ∧
        (∀ x ∈ F', x ∈ F ∨ x = b) ∧
        (∃ B ∈ F', B ≤ b ∧ hdrAdd b (szOf s b) ≤ hdrAdd B (szOf s' B) ∧
          (B = b ∨ (B ∈ F ∧ hdrAdd B (szOf s B) = b)) ∧
          szOf s' B = (if B = b then 0 else szOf s B) + szOf s b +
            (if hdrAdd b (szOf s b) ∈ F then szOf s (hdrAdd b (szOf s b)) else 0) ∧
          (∀ x ∈ F', x ≠ B → szOf s' x = szOf s x)) ∧
        (∀ x, covered s' F' x ↔ covered s F x ∨ (b ≤ x ∧ x < b + QUANTUM * szOf s b))) := by
  have hbF : b ∉ F := hw.shape.disj b hb
  obtain ⟨s1, hret, huniq, _, _, _, hcase⟩ := free_spec hw hb
  rcases hcase with ⟨hedge, hs1, hwf⟩ | ⟨hlt, p, hp, hc, hs1, hwf⟩
  · refine ⟨s1, F, hret, huniq, hwf, ?_, ?_⟩
    · rw [hs1]; exact hadj
    · intro h; omega
  · subst hs1
    refine ⟨_, freeSet s F b p, hret, huniq, hwf, noAdj_free hw hadj hb hp hc hwf, ?_⟩
    intro _
    have hup := fun u hu' => insCond_upper (u := u) hw hb hp hc hu'
    have hlo := fun q hq' => insCond_lower (q := q) hw hb hp hc hq'
    have hpb : p ≠ b := fun e => hbF (e ▸ hp)
    have hbe : hdrAdd b (szOf s b) = b + QUANTUM * szOf s b := hw.hdrAdd_eq_alloc hb
    obtain ⟨e_other, _, e_sb, _, e_sp⟩ := freed_fields hw.shape hw.layout hw.pfp_le hb hp
    have hsb : szOf (freedState s b p) b = szOf s b +
        (if hdrAdd b (szOf s b) ∈ F then szOf s (hdrAdd b (szOf s b)) else 0) := by
      rw [e_sb, hbe]
      by_cases up : b + QUANTUM * szOf s b = nxOf s p
      · rw [if_pos up, if_pos (up ▸ ring_next_mem hw.shape.ring hp), up]
      · rw [if_neg up, if_neg (fun h => up (hup _ h rfl).symm)]
        rfl
    refine ⟨?_, ?_, ?_, ?_, (free_account hw.shape hw.layout hw.pfp_le hb hp).1⟩
    · intro u hu
      rw [hbe, mem_freeSet hbF]
      constructor
      · rintro (⟨_, h2⟩ | ⟨h1, _⟩)
        · intro e
          exact h2 ⟨(hup u hu e) ▸ e.symm, (hup u hu e).symm⟩
        · exact absurd (h1 ▸ hu) hbF
      · intro hne
        exact Or.inl ⟨hu, fun h => hne (h.2 ▸ h.1.symm)⟩
    · rw [mem_freeSet hbF]
      constructor
      · rintro (⟨h1, _⟩ | ⟨_, h2⟩)
        · exact absurd h1 hbF
        · intro q hq e
          rw [hw.hdrAdd_eq hq] at e
          exact h2 ((hlo q hq e) ▸ e)
      · intro h
        refine Or.inr ⟨rfl, fun e => h p hp ?_⟩
        rw [hw.hdrAdd_eq hp]
        exact e
    · intro x hx
      rw [mem_freeSet hbF] at hx
      rcases hx with ⟨h1, _⟩ | ⟨h1, _⟩
      · exact Or.inl h1
      · exact Or.inr h1
    · have hsb0 : szOf s b ≤ szOf (freedState s b p) b := by
        rw [hsb]; exact Nat.le_add_right _ _
      by_cases lo : p + QUANTUM * szOf s p = b
      · have hpm : p ∈ freeSet s F b p := hwf.freep_mem
        refine ⟨p, hpm, by omega, ?_, Or.inr ⟨hp, by rw [hw.hdrAdd_eq hp]; exact lo⟩, ?_, ?_⟩
        · rw [hbe, hwf.hdrAdd_eq hpm, e_sp, if_pos lo]
          simp only [QUANTUM_eq] at *
          omega
        · rw [e_sp, if_pos lo, if_neg hpb, hsb, Nat.add_assoc]
        · intro x hx hxp
          rw [mem_freeSet hbF] at hx
          rcases hx with ⟨hxF, _⟩ | ⟨_, hnlo⟩
          · exact (e_other x (Or.inl hxF) (fun e => hbF (e ▸ hxF)) hxp).2
          · exact absurd lo hnlo
      · have hbm : b ∈ freeSet s F b p := (mem_freeSet hbF).2 (Or.inr ⟨rfl, lo⟩)
        refine ⟨b, hbm, le_refl _, ?_, Or.inl rfl, ?_, ?_⟩
        · rw [hbe, hwf.hdrAdd_eq hbm]
          simp only [QUANTUM_eq] at *
          omega
        · rw [if_pos rfl, hsb, Nat.zero_add]
        · intro x hx hxb
          rw [mem_freeSet hbF] at hx
          rcases hx with ⟨hxF, _⟩ | ⟨hxe, _⟩
          · by_cases hxp : x = p
            · rw [hxp, e_sp, if_neg lo]
            · exact (e_other x (Or.inl hxF) hxb hxp).2
          · exact absurd hxe hxb

/-- C6. Coalescing post-condition of release: in a well-formed state whose
free list has no two physically adjacent blocks, releasing a currently
allocated reference returns and leaves a well-formed state whose free list
again has no two blocks `p`, `q` with `p + p.size = q`.  For a reference
strictly inside the pool the upper neighbour leaves the list exactly when it
abuts the released block, and the released block becomes a list member of its
own exactly when no free block abuts it from below.  The block `B` that holds
the released block afterwards is the released block itself or the free block
that abutted it from below, and its size is the sum of the sizes of the lower
neighbour (when that abutted), of the released block and of the upper
neighbour (when that abutted); every other member keeps its size, and the
bytes the free list covers are those it covered before and those of the
released block. -/
theorem free_coalesces {L : Layout} {s : State} {F A : Finset Nat} {b : Nat}
    (hw : WF L s F A) (hadj : NoAdj s F) (hb : b ∈ A) :
    ∃ s' F', FreeRet L s (b + QUANTUM) s' ∧
      (∀ s'', FreeRet L s (b + QUANTUM) s'' → s'' = s') ∧
      WF L s' F' (A.erase b) ∧ NoAdj s' F' ∧
      (b + QUANTUM < L.pool + POOL_SIZE →
        (∀ u ∈ F, u ∈ F' ↔ u ≠ hdrAdd b (szOf s b)) ∧
        (b ∈ F' ↔ ∀ q ∈ F, hdrAdd q (szOf s q) ≠ b) ∧
        (∀ x ∈ F', x ∈ F ∨ x = b) ∧
        (∃ B ∈ F', B ≤ b ∧ hdrAdd b (szOf s b) ≤ hdrAdd B (szOf s' B) ∧
          (B = b ∨ (B ∈ F ∧ hdrAdd B (szOf s B) = b)) ∧
          szOf s' B = (if B = b then 0 else szOf s B) + szOf s b +
            (if hdrAdd b (szOf s b) ∈ F then szOf s (hdrAdd b (szOf s b)) else 0) ∧
          (∀ x ∈ F', x ≠ B → szOf s' x = szOf s x)) ∧
        (∀ x, covered s' F' x ↔ covered s F x ∨ (b ≤ x ∧ x < b + QUANTUM * szOf s b))) :=
  free_merge_spec hw hadj hb

/-- Witness of C6: the block allocated in `midState`, both of whose
neighbours are free, so that the release merges three blocks into one. -/
theorem free_coalesces_witness :
    WF layoutLow midState midFree midAlloc ∧ NoAdj midState midFree ∧
    (0x100000180 : Nat) ∈ midAlloc ∧
    (0x100000000 : Nat) ∈ midFree ∧
    hdrAdd 0x100000000 (szOf midState 0x100000000) = 0x100000180 ∧
    hdrAdd 0x100000180 (szOf midState 0x100000180) ∈ midFree ∧
    szOf (freeState midState (hackweekmgr_free layoutLow 8 midState (0x100000180 + QUANTUM)))
      0x100000000 = 16 ∧
    ∃ s' F', FreeRet layoutLow midState (0x100000180 + QUANTUM) s' ∧
      (∀ s'', FreeRet layoutLow midState (0x100000180 + QUANTUM) s'' → s'' = s') ∧
      WF layoutLow s' F' (midAlloc.erase 0x100000180) ∧ NoAdj s' F' ∧
      (0x100000180 + QUANTUM < layoutLow.pool + POOL_SIZE →
        (∀ u ∈ midFree, u ∈ F' ↔ u ≠ hdrAdd 0x100000180 (szOf midState 0x100000180)) ∧
        (0x100000180 ∈ F' ↔ ∀ q ∈ midFree, hdrAdd q (szOf midState q) ≠ 0x100000180) ∧
        (∀ x ∈ F', x ∈ midFree ∨ x = 0x100000180) ∧
        (∃ B ∈ F', B ≤ 0x100000180 ∧
          hdrAdd 0x100000180 (szOf midState 0x100000180) ≤ hdrAdd B (szOf s' B) ∧
          (B = 0x100000180 ∨ (B ∈ midFree ∧ hdrAdd B (szOf midState B) = 0x100000180)) ∧
          szOf s' B = (if B = 0x100000180 then 0 else szOf midState B) +
            szOf midState 0x100000180 +
            (if hdrAdd 0x100000180 (szOf midState 0x100000180) ∈ midFree then
              szOf midState (hdrAdd 0x100000180 (szOf midState 0x100000180)) else 0) ∧
          (∀ x ∈ F', x ≠ B → szOf s' x = szOf midState x)) ∧
        (∀ x, covered s' F' x ↔ covered midState midFree x ∨
          (0x100000180 ≤ x ∧ x < 0x100000180 + QUANTUM * szOf midState 0x100000180))) :=
  ⟨wf_of_check (by decide), by decide, by decide, by decide, by decide, by decide, by decide,
    free_coalesces (wf_of_check (by decide)) (by decide) (by decide)⟩

/-! ## The wrappers return -/

/-- When the allocation inside `hackweekmgr_calloc` returns a non-null
reference, the call returns that reference, with the range zeroed. -/
theorem calloc_runs {L : Layout} {s : State} {a size r : Nat} {s1 : State}
    (hov : a * size < SIZE_MOD) (hal : AllocRet L s (a * size) r s1) (hr : r ≠ 0) :
    CallocRet L s a size r { s1 with mem := (zeroFill s1.mem r (a * size)) } := by
  obtain ⟨fuel, hrun⟩ := hal
  refine ⟨fuel, ?_⟩
  unfold hackweekmgr_calloc
  rw [wrap_of_lt hov, hrun]
  simp only
  rw [if_neg (fun h => hr h.1)]

/-- When the allocation inside `hackweekmgr_realloc` returns a non-null
reference, the call on a currently allocated block returns that reference. -/
theorem realloc_runs {L : Layout} {s : State} {F A : Finset Nat} {b size r : Nat} {s1 : State}
    (hw : WF L s F A) (hb : b ∈ A) (hcap : size ≤ POOL_SIZE)
    (hal : AllocRet L s size r s1) (hr : r ≠ 0) :
    ∃ s', ReallocRet L s (b + QUANTUM) size r s' := by
  have hbne : b + QUANTUM ≠ 0 := by simp only [QUANTUM_eq]; omega
  have hw' : WF L (readyState L s) F A := by
    rw [readyState_live L hw.freep_ne]; exact hw
  have hn2 : size + 2 * QUANTUM + POOL_SIZE ≤ SIZE_MOD := by
    have := pool_le_mod; omega
  have hpost := (alloc_total hw' hn2).2 r s1 hal
  rw [readyState_live L hw.freep_ne] at hpost
  have hbnd := nquantasOf_bounds (n := size)
    (by simp only [QUANTUM_eq, POOL_SIZE_eq, SIZE_MOD_eq] at *; omega)
  have hok : AllocOk L s A (nquantasOf size) r s1 := by
    rcases hpost with ⟨_, _, hok, _⟩ | ⟨_, _, _, hok⟩ | ⟨_, _, h0, _⟩
    · exact hok
    · exact hok
    · exact absurd h0 hr
  obtain ⟨h0, F1, er, hnA, hsz, hwf, _, _⟩ := hok
  obtain ⟨sc, hsc⟩ : ∃ sc : State, sc =
      { s1 with mem := (copyBytes s1.mem r (b + QUANTUM)
          (copyCount s1.mem (b + QUANTUM) size)) } := ⟨_, rfl⟩
  have hscm : sc.mem = copyBytes s1.mem r (b + QUANTUM)
      (copyCount s1.mem (b + QUANTUM) size) := by rw [hsc]
  have hscf : sc.freep = s1.freep := by rw [hsc]
  have hscp : sc.pool_free_pos = s1.pool_free_pos := by rw [hsc]
  have hcle : copyCount s1.mem (b + QUANTUM) size ≤ size := by
    unfold copyCount
    split
    · omega
    · exact Nat.le_refl _
  have hmc : ∀ x, ¬ (h0 + QUANTUM ≤ x ∧ x < h0 + QUANTUM * szOf s1 h0) →
      sc.mem x = s1.mem x := by
    intro x hx
    rw [hscm]
    unfold copyBytes
    rw [if_neg]
    intro h
    apply hx
    rw [hsz]
    rw [er] at h
    simp only [QUANTUM_eq] at *
    omega
  obtain ⟨hwc, _⟩ := wf_payload hwf (Finset.mem_insert_self _ _) hscf hscp hmc
  obtain ⟨s3, ⟨f1, hfr⟩, _⟩ := free_spec hwc (Finset.mem_insert_of_mem hb)
  obtain ⟨f0, hal0⟩ := hal
  refine ⟨s3, max f0 f1, ?_⟩
  unfold hackweekmgr_realloc
  rw [if_neg hbne]
  unfold malloc free
  rw [alloc_mono hal0 (Nat.le_max_left f0 f1)]
  simp only
  rw [if_neg (fun h => hr h.1), ← hsc, free_mono hfr (Nat.le_max_right f0 f1)]

theorem ink_wf : WF layoutLow inkState demoFree demoAlloc := wf_of_check (by decide)

/-- C13. Zero-allocate: in a well-formed state, for `count` and `size` whose
product does not overflow and is at most `POOL_SIZE`, the call
`hackweekmgr_alloc(count * size)` returns; whenever it returns a non-null
reference `r`, the call `hackweekmgr_calloc(count, size)` returns `r` as
well; and whenever `hackweekmgr_calloc(count, size)` returns a non-null
reference `r`, then `r` is the reference, and `s1` the state, that
`hackweekmgr_alloc(count * size)` returns from the same state, right after the
call every byte of `r[0 .. count * size)` reads as zero and every other byte
of memory is as `hackweekmgr_alloc` left it, the zeroed range lies inside the
payload of the block handed out, and the state is well formed with that block
allocated. -/
theorem calloc_zeroes {L : Layout} {s : State} {F A : Finset Nat} {a size : Nat}
    (hw : WF L s F A) (hov : a * size < SIZE_MOD) (hcap : a * size ≤ POOL_SIZE) :
    (∃ r s1, AllocRet L s (a * size) r s1) ∧
    (∀ r s1, AllocRet L s (a * size) r s1 → r ≠ 0 → ∃ s', CallocRet L s a size r s') ∧
    ∀ r s', CallocRet L s a size r s' → r ≠ 0 →
      ∃ s1, AllocRet L s (a * size) r s1 ∧
        (∀ r2 s2, AllocRet L s (a * size) r2 s2 → r2 = r ∧ s2 = s1) ∧
        (∀ x, r ≤ x → x < r + a * size → s'.mem x = 0) ∧
        (∀ x, ¬ (r ≤ x ∧ x < r + a * size) → s'.mem x = s1.mem x) ∧
        s'.freep = s1.freep ∧ s'.pool_free_pos = s1.pool_free_pos ∧
        r - QUANTUM ∉ A ∧ QUANTUM ≤ r ∧
        r + a * size ≤ r - QUANTUM + QUANTUM * szOf s1 (r - QUANTUM) ∧
        ∃ F', WF L s' F' (insert (r - QUANTUM) A) :=
  ⟨(alloc_null_spec hw (by have := pool_le_mod; omega)).1,
    fun _ _ hal hr => ⟨_, calloc_runs hov hal hr⟩,
    fun _ _ hret hr => calloc_spec hw hov hcap hret hr⟩

/-- Witness of C13: `hackweekmgr_calloc(3, 8)` in `inkState`, where the range
handed out holds stale non-zero words before the call; the word below the
range keeps its stale value. -/
theorem calloc_zeroes_witness :
    WF layoutLow inkState demoFree demoAlloc ∧ 3 * 8 < SIZE_MOD ∧ 3 * 8 ≤ POOL_SIZE ∧
    retVal (hackweekmgr_calloc layoutLow 8 inkState 3 8) = some 0x1000001A0 ∧
    inkState.mem 0x1000001A0 = 0xAB ∧ inkState.mem 0x1000001A8 = 0xCD ∧
    (retState inkState (hackweekmgr_calloc layoutLow 8 inkState 3 8)).mem 0x1000001A0 = 0 ∧
    (retState inkState (hackweekmgr_calloc layoutLow 8 inkState 3 8)).mem 0x1000001A8 = 0 ∧
    (retState inkState (hackweekmgr_calloc layoutLow 8 inkState 3 8)).mem 0x100000180 = 0x77 ∧
    ((∃ r s1, AllocRet layoutLow inkState (3 * 8) r s1) ∧
    (∀ r s1, AllocRet layoutLow inkState (3 * 8) r s1 → r ≠ 0 →
      ∃ s', CallocRet layoutLow inkState 3 8 r s') ∧
    ∀ r s', CallocRet layoutLow inkState 3 8 r s' → r ≠ 0 →
      ∃ s1, AllocRet layoutLow inkState (3 * 8) r s1 ∧
        (∀ r2 s2, AllocRet layoutLow inkState (3 * 8) r2 s2 → r2 = r ∧ s2 = s1) ∧
        (∀ x, r ≤ x → x < r + 3 * 8 → s'.mem x = 0) ∧
        (∀ x, ¬ (r ≤ x ∧ x < r + 3 * 8) → s'.mem x = s1.mem x) ∧
        s'.freep = s1.freep ∧ s'.pool_free_pos = s1.pool_free_pos ∧
        r - QUANTUM ∉ demoAlloc ∧ QUANTUM ≤ r ∧
        r + 3 * 8 ≤ r - QUANTUM + QUANTUM * szOf s1 (r - QUANTUM) ∧
        ∃ F', WF layoutLow s' F' (insert (r - QUANTUM) demoAlloc)) :=
  ⟨ink_wf, by decide, by decide, by decide, by decide, by decide, by decide,
    by decide, by decide, calloc_zeroes ink_wf (by decide) (by decide)⟩

/-- C12. Resize preserves data, with `malloc` and `free` the allocator's own:
in a well-formed state, for a currently allocated block `b` of size `k`, so
that `old = b + QUANTUM` has payload capacity `c = (k - 1) * QUANTUM`, and a
new size of at most `POOL_SIZE`, the call `hackweekmgr_alloc(size)` returns,
and whenever it returns a non-null reference `r` the call
`hackweekmgr_realloc(old, size)` returns `r` as well.  Whenever
`hackweekmgr_realloc(old, size)` returns a non-null reference `r`, then `r` is
what `hackweekmgr_alloc(size)` returns from the same state, its block is fresh
and `r` differs from `old`; the first `min(c, size)` bytes at `r` equal the
bytes that were at `old` before the call; the state is well formed with the
block of `r`, of capacity at least `size`, allocated and `b` no longer
allocated; and when the arena guard accepts `old` (`old < pool + POOL_SIZE`)
every byte of the old block lies in a free-list block afterwards.  With `old`
null the call is the call `hackweekmgr_alloc(size)`. -/
theorem realloc_preserves_data {L : Layout} {s : State} {F A : Finset Nat} {b size : Nat}
    (hw : WF L s F A) (hb : b ∈ A) (hcap : size ≤ POOL_SIZE) :
    (∃ r s1, AllocRet L s size r s1) ∧
    (∀ r s1, AllocRet L s size r s1 → r ≠ 0 →
      ∃ s', ReallocRet L s (b + QUANTUM) size r s') ∧
    (∀ r s', ReallocRet L s (b + QUANTUM) size r s' → r ≠ 0 →
      (∃ s1, AllocRet L s size r s1) ∧
      r - QUANTUM ∉ A ∧ QUANTUM ≤ r ∧ r ≠ b + QUANTUM ∧
      (∀ i, i < QUANTUM * (szOf s b - 1) → i < size →
        s'.mem (r + i) = s.mem (b + QUANTUM + i)) ∧
      ∃ F', WF L s' F' ((insert (r - QUANTUM) A).erase b) ∧
        size ≤ QUANTUM * (szOf s' (r - QUANTUM) - 1) ∧
        (b + QUANTUM < L.pool + POOL_SIZE →
          ∀ x, b ≤ x → x < b + QUANTUM * szOf s b → covered s' F' x)) ∧
    ∀ fuel t n, hackweekmgr_realloc L fuel t 0 n = hackweekmgr_alloc L fuel t n :=
  ⟨(alloc_null_spec hw (by have := pool_le_mod; omega)).1,
    fun _ _ hal hr => realloc_runs hw hb hcap hal hr,
    fun _ _ hret hr => realloc_spec hw hb hcap hret hr,
    fun fuel t n => realloc_null L fuel t n⟩

/-- Witness of C12: `hackweekmgr_realloc` of the block allocated in
`inkState`, of capacity 32, to 64 bytes.  The payload of the old block holds
the words `0x5A` and `0x3C`, the new block holds a stale `0x77` before the
call, and afterwards the new block starts with `0x5A` and `0x3C`. -/
theorem realloc_preserves_data_witness :
    WF layoutLow inkState demoFree demoAlloc ∧ (0x1000001C0 : Nat) ∈ demoAlloc ∧
    64 ≤ POOL_SIZE ∧
    retVal (hackweekmgr_realloc layoutLow 8 inkState (0x1000001C0 + QUANTUM) 64) =
      some 0x100000180 ∧
    inkState.mem (0x1000001C0 + QUANTUM) = 0x5A ∧
    inkState.mem (0x1000001C0 + QUANTUM + 8) = 0x3C ∧
    inkState.mem 0x100000180 = 0x77 ∧
    (retState inkState
      (hackweekmgr_realloc layoutLow 8 inkState (0x1000001C0 + QUANTUM) 64)).mem
        0x100000180 = 0x5A ∧
    (retState inkState
      (hackweekmgr_realloc layoutLow 8 inkState (0x1000001C0 + QUANTUM) 64)).mem
        (0x100000180 + 8) = 0x3C ∧
    ((∃ r s1, AllocRet layoutLow inkState 64 r s1) ∧
    (∀ r s1, AllocRet layoutLow inkState 64 r s1 → r ≠ 0 →
      ∃ s', ReallocRet layoutLow inkState (0x1000001C0 + QUANTUM) 64 r s') ∧
    (∀ r s', ReallocRet layoutLow inkState (0x1000001C0 + QUANTUM) 64 r s' → r ≠ 0 →
      (∃ s1, AllocRet layoutLow inkState 64 r s1) ∧
      r - QUANTUM ∉ demoAlloc ∧ QUANTUM ≤ r ∧ r ≠ 0x1000001C0 + QUANTUM ∧
      (∀ i, i < QUANTUM * (szOf inkState 0x1000001C0 - 1) → i < 64 →
        s'.mem (r + i) = inkState.mem (0x1000001C0 + QUANTUM + i)) ∧
      ∃ F', WF layoutLow s' F' ((insert (r - QUANTUM) demoAlloc).erase 0x1000001C0) ∧
        64 ≤ QUANTUM * (szOf s' (r - QUANTUM) - 1) ∧
        (0x1000001C0 + QUANTUM < layoutLow.pool + POOL_SIZE →
          ∀ x, 0x1000001C0 ≤ x → x < 0x1000001C0 + QUANTUM * szOf inkState 0x1000001C0 →
            covered s' F' x)) ∧
    ∀ fuel t n, hackweekmgr_realloc layoutLow fuel t 0 n = hackweekmgr_alloc layoutLow fuel t n) :=
  ⟨ink_wf, by decide, by decide, by decide, by decide, by decide, by decide,
    by decide, by decide,
    realloc_preserves_data ink_wf (by decide) (by decide)⟩

/-- Counterexample to C12 as stated: in `edgeState` the allocated block is the
last quantum of the pool and its reference is `pool + POOL_SIZE`.
`hackweekmgr_realloc` of it to 32 bytes returns a fresh block, but the release
of the old block is ignored by the arena guard: afterwards the free list is
what it was, the old block is still allocated, and its first byte lies in no
free-list block. -/
theorem realloc_edge_block_not_released :
    WF layoutLow edgeState edgeFree edgeAlloc ∧ (0x13FFFFFE0 : Nat) ∈ edgeAlloc ∧
    32 ≤ POOL_SIZE ∧
    ReallocRet layoutLow edgeState (0x13FFFFFE0 + QUANTUM) 32 0x13FFFFFC0
      (retState edgeState (hackweekmgr_realloc layoutLow 8 edgeState (0x13FFFFFE0 + QUANTUM) 32)) ∧
    (0x13FFFFFC0 : Nat) ≠ 0 ∧
    WF layoutLow
      (retState edgeState (hackweekmgr_realloc layoutLow 8 edgeState (0x13FFFFFE0 + QUANTUM) 32))
      edgeFree {0x13FFFFFA0, 0x13FFFFFE0} ∧
    ¬ covered
      (retState edgeState (hackweekmgr_realloc layoutLow 8 edgeState (0x13FFFFFE0 + QUANTUM) 32))
      edgeFree 0x13FFFFFE0 :=
  ⟨wf_of_check (by decide), by decide, by decide, ⟨8, ok_retState edgeState (by decide)⟩,
    by decide, wf_of_check (by decide), by decide⟩

end Hackweekmgr
